import Mathlib

/-!
Verification development for the `rust-dlc` contract outcome engine.

The Rust sources under `src/` are shallowly embedded:
* `dlc-manager/src/payout_curve.rs`   → section `PayoutCurve`
* `dlc-trie/src/multi_trie.rs`        → section `MultiTrie`
* `dlc-manager/src/contract/contract_info.rs` → section `ContractInfo`

Machine integers (`u64`, `usize`, `u16`) are embedded as `Nat` (none of the
embedded computations relies on wrap-around; where Rust would panic on
underflow or out-of-bounds access this is noted at the definition).
Rust `f64` values are embedded as exact rationals (`ℚ`); every concrete
instance evaluated in a theorem below only exercises arithmetic whose final
rounded integer result agrees with the IEEE-754 double computation.
Fallible operations are embedded with `Except`.

Components of the repository that the claims depend on but whose sources are
not available (`digit_trie.rs`, `multi_oracle.rs`, `combination_iterator.rs`,
`contract/utils.rs`, `dlc-trie/src/lib.rs`) are modelled from the
specification; each such definition carries a doc comment starting with
`Modelled from the spec:`.
-/

set_option maxRecDepth 4000

/-- Error kinds of the library. `invalidParameters` and `invalidState`
correspond to `Error::InvalidParameters(_)` / `Error::InvalidState` of
`dlc-manager` (message payloads are dropped) and to the error type used by
`dlc-trie`; `panicErr` models a Rust panic (`assert!`, `unreachable!`,
out-of-bounds indexing), so that an embedded operation returns `.ok` exactly
when the Rust operation returns `Ok` without panicking. -/
inductive DlcError where
  | invalidParameters : DlcError
  | invalidState : DlcError
  | panicErr : DlcError
deriving DecidableEq, Repr

/-! ## Payout curve (`dlc-manager/src/payout_curve.rs`) -/

/-- `PayoutPoint` (payout_curve.rs lines 223-230): `event_outcome: u64`,
`outcome_payout: u64`, `extra_precision: u16`. -/
structure PayoutPoint where
  event_outcome : Nat
  outcome_payout : Nat
  extra_precision : Nat
deriving DecidableEq, Repr

/-- `PayoutPoint::get_outcome_payout` (payout_curve.rs lines 233-235):
`outcome_payout as f64 + extra_precision as f64 / (1 << 16) as f64`,
embedded over exact rationals. -/
def PayoutPoint.get_outcome_payout (p : PayoutPoint) : ℚ :=
  (p.outcome_payout : ℚ) + (p.extra_precision : ℚ) / ((2 : ℚ) ^ 16)

/-- `Payout` (from the `dlc` crate, used by `RangePayout`): the two parties'
payouts. -/
structure Payout where
  offer : Nat
  accept : Nat
deriving DecidableEq, Repr

/-- `RangePayout` (from the `dlc` crate): a contiguous outcome interval
`[start, start+count)` with constant payout. -/
structure RangePayout where
  start : Nat
  count : Nat
  payout : Payout
deriving DecidableEq, Repr

/-- `PolynomialPayoutCurvePiece` (payout_curve.rs lines 158-161). -/
structure PolynomialPayoutCurvePiece where
  payout_points : List PayoutPoint
deriving DecidableEq, Repr

/-- `HyperbolaPayoutCurvePiece` (payout_curve.rs lines 245-264); the `f64`
fields are embedded as rationals. -/
structure HyperbolaPayoutCurvePiece where
  left_end_point : PayoutPoint
  right_end_point : PayoutPoint
  use_positive_piece : Bool
  translate_outcome : ℚ
  translate_payout : ℚ
  a : ℚ
  b : ℚ
  c : ℚ
  d : ℚ
deriving DecidableEq, Repr

/-- `PayoutFunctionPiece` (payout_curve.rs lines 59-64). -/
inductive PayoutFunctionPiece where
  | polynomialPiece : PolynomialPayoutCurvePiece → PayoutFunctionPiece
  | hyperbolaPiece : HyperbolaPayoutCurvePiece → PayoutFunctionPiece
deriving DecidableEq, Repr

/-- `PayoutFunction` (payout_curve.rs lines 15-18). -/
structure PayoutFunction where
  payout_function_pieces : List PayoutFunctionPiece
deriving DecidableEq, Repr

/-- `PayoutFunctionPiece::get_first_point` (payout_curve.rs lines 84-89):
`&p.payout_points[0]` for polynomials (panics on an empty point list; the
embedding returns a default point, and theorems about pieces built by
`PolynomialPayoutCurvePiece::new` never hit that case). -/
def PayoutFunctionPiece.get_first_point : PayoutFunctionPiece → PayoutPoint
  | .polynomialPiece p => p.payout_points.headD ⟨0, 0, 0⟩
  | .hyperbolaPiece h => h.left_end_point

/-- `PayoutFunctionPiece::get_last_point` (payout_curve.rs lines 91-96):
`p.payout_points.last().unwrap()` for polynomials (same caveat as
`get_first_point`). -/
def PayoutFunctionPiece.get_last_point : PayoutFunctionPiece → PayoutPoint
  | .polynomialPiece p => p.payout_points.getLastD ⟨0, 0, 0⟩
  | .hyperbolaPiece h => h.right_end_point

/-- `PayoutFunction::new` (payout_curve.rs lines 22-36): checks C0 continuity
of consecutive pieces (structural equality of the shared `PayoutPoint`) and
fails with `InvalidParameters` otherwise. -/
def PayoutFunction.new (function_pieces : List PayoutFunctionPiece) :
    Except DlcError PayoutFunction :=
  let is_continuous :=
    (function_pieces.zip function_pieces.tail).all
      (fun cn => cn.1.get_last_point = cn.2.get_first_point)
  if is_continuous then
    .ok ⟨function_pieces⟩
  else
    .error .invalidParameters

/-- `PolynomialPayoutCurvePiece::new` (payout_curve.rs lines 165-178):
requires more than one point and strictly ascending `event_outcome`s. -/
def PolynomialPayoutCurvePiece.new (payout_points : List PayoutPoint) :
    Except DlcError PolynomialPayoutCurvePiece :=
  let is_ascending :=
    decide (1 < payout_points.length) &&
      (payout_points.zip payout_points.tail).all
        (fun cn => decide (cn.1.event_outcome < cn.2.event_outcome))
  if is_ascending then .ok ⟨payout_points⟩ else .error .invalidParameters

/-- `HyperbolaPayoutCurvePiece::new` (payout_curve.rs lines 268-301):
rejects `a * b == d * c` and non-increasing end points, stores the fields
unchanged otherwise. -/
def HyperbolaPayoutCurvePiece.new (left_end_point right_end_point : PayoutPoint)
    (use_positive_piece : Bool) (translate_outcome translate_payout a b c d : ℚ) :
    Except DlcError HyperbolaPayoutCurvePiece :=
  if a * b = d * c then
    .error .invalidParameters
  else if right_end_point.event_outcome ≤ left_end_point.event_outcome then
    .error .invalidParameters
  else
    .ok ⟨left_end_point, right_end_point, use_positive_piece, translate_outcome,
      translate_payout, a, b, c, d⟩

/-- `Evaluable::evaluate` for `PolynomialPayoutCurvePiece`
(payout_curve.rs lines 182-205): Lagrange interpolation, outer loop over `i`,
inner loop over `j`, accumulating `l *= (x - x_j) / (x_i - x_j)`.
Embedded over exact rationals (the source computes in `f64`). -/
def PolynomialPayoutCurvePiece.evaluate (p : PolynomialPayoutCurvePiece)
    (outcome : Nat) : ℚ :=
  let nb_points := p.payout_points.length
  let x : ℚ := outcome
  (List.range nb_points).foldl
    (fun result i =>
      let l :=
        (List.range nb_points).foldl
          (fun l j =>
            if i ≠ j then
              let i_outcome : ℚ := ((p.payout_points.getD i ⟨0, 0, 0⟩).event_outcome : ℚ)
              let j_outcome : ℚ := ((p.payout_points.getD j ⟨0, 0, 0⟩).event_outcome : ℚ)
              l * ((x - j_outcome) / (i_outcome - j_outcome))
            else l)
          (p.payout_points.getD i ⟨0, 0, 0⟩).get_outcome_payout
      result + l)
    0

/-- `Evaluable::evaluate` for `HyperbolaPayoutCurvePiece`
(payout_curve.rs lines 305-318). The `f64` square root is embedded with
`Rat.sqrt`, which agrees with it whenever the radicand is the square of a
rational (the only cases evaluated by theorems below). Division by zero
yields `0` in `ℚ` where `f64` would yield an infinity; no theorem below
evaluates such a point. -/
def HyperbolaPayoutCurvePiece.evaluate (h : HyperbolaPayoutCurvePiece)
    (outcome : Nat) : ℚ :=
  let translated_outcome : ℚ := (outcome : ℚ) - h.translate_outcome
  let sqrt_term_abs_val := Rat.sqrt (translated_outcome ^ 2 - 4 * h.a * h.b)
  let sqrt_term := if h.use_positive_piece then sqrt_term_abs_val else -sqrt_term_abs_val
  let first_term := h.c * (translated_outcome + sqrt_term) / (2 * h.a)
  let second_term := 2 * h.a * h.d / (translated_outcome + sqrt_term)
  first_term + second_term + h.translate_payout

/-- `RoundingInterval` (payout_curve.rs lines 337-342). -/
structure RoundingInterval where
  begin_interval : Nat
  rounding_mod : Nat
deriving DecidableEq, Repr

/-- `RoundingIntervals` (payout_curve.rs lines 351-354). -/
structure RoundingIntervals where
  intervals : List RoundingInterval
deriving DecidableEq, Repr

/-- Truncating rational division as performed by Rust's `%` on `f64`
operands: `q % m = q - m * trunc (q / m)`. -/
def ratTrunc (q : ℚ) : ℤ :=
  if 0 ≤ q then ⌊q⌋ else -⌊-q⌋

/-- Mathlib's round-half-up on `ℚ` (named so it stays visible inside
`RoundingIntervals.round` below, where `round` would be a self reference). -/
def ratRound (q : ℚ) : ℤ := round q

/-- `RoundingIntervals::round` (payout_curve.rs lines 359-380). The
`binary_search_by` over `begin_interval` followed by the `Ok`/`Err` match is
embedded extensionally (for the sorted interval lists the spec requires) as
"the last interval whose `begin_interval` is `≤ outcome`"; when no interval
covers the outcome the source hits `unreachable!` — the embedding uses
modulus 1 there, a case no theorem below evaluates. `f64::round` (half away
from zero) followed by `as u64` (which clamps negatives to 0) is embedded as
`Int.toNat ∘ round` (round half up); the two agree on every result, since
they differ only on negative half-integers, which both clamp to 0. -/
def RoundingIntervals.round (ri : RoundingIntervals) (outcome : Nat) (payout : ℚ) : Nat :=
  let rounding_mod : ℚ :=
    (((ri.intervals.filter (fun x => decide (x.begin_interval ≤ outcome))).getLast?).map
      (fun x => (x.rounding_mod : ℚ))).getD 1
  let m : ℚ :=
    if 0 ≤ payout then
      payout - rounding_mod * (ratTrunc (payout / rounding_mod) : ℚ)
    else
      payout - rounding_mod * (ratTrunc (payout / rounding_mod) : ℚ) + rounding_mod
  if rounding_mod / 2 ≤ m then
    (ratRound (payout + rounding_mod - m)).toNat
  else
    (ratRound (payout - m)).toNat

/-- `Evaluable::evaluate` dispatched over the two piece kinds (the trait
implementations at payout_curve.rs lines 181-214 and 304-326). -/
def PayoutFunctionPiece.evaluate : PayoutFunctionPiece → Nat → ℚ
  | .polynomialPiece p, outcome => p.evaluate outcome
  | .hyperbolaPiece h, outcome => h.evaluate outcome

/-- `Evaluable::get_first_outcome` (payout_curve.rs lines 207-209 and
320-322): the first point's `event_outcome` (`payout_points[0]` panics on an
empty list; embedded with a default). -/
def PayoutFunctionPiece.get_first_outcome : PayoutFunctionPiece → Nat
  | .polynomialPiece p => (p.payout_points.headD ⟨0, 0, 0⟩).event_outcome
  | .hyperbolaPiece h => h.left_end_point.event_outcome

/-- `Evaluable::get_last_outcome` (payout_curve.rs lines 211-213 and
323-325). -/
def PayoutFunctionPiece.get_last_outcome : PayoutFunctionPiece → Nat
  | .polynomialPiece p => (p.payout_points.getLastD ⟨0, 0, 0⟩).event_outcome
  | .hyperbolaPiece h => h.right_end_point.event_outcome

/-- `Evaluable::get_rounded_payout` (payout_curve.rs lines 102-105). -/
def PayoutFunctionPiece.get_rounded_payout (piece : PayoutFunctionPiece)
    (outcome : Nat) (rounding_intervals : RoundingIntervals) : Nat :=
  rounding_intervals.round outcome (piece.evaluate outcome)

/-- The `for outcome in (first_outcome + 1)..(self.get_last_outcome() + 1)`
loop of `Evaluable::to_range_payouts` (payout_curve.rs lines 130-147),
factored out with the per-outcome rounded payout abstracted as `evalR`:
`range_payouts` is the vector pushed to, `cur_range` the mutable current
range, `outcomes` the remaining loop iterations. Rust's `u64` subtraction
`total_collateral - payout` panics on underflow; it is embedded as truncated
`Nat` subtraction (the spec makes non-negative `accept` a caller invariant,
and no theorem below depends on a clamped value). -/
def rangeScanLoop (evalR : Nat → Nat) (total_collateral : Nat) :
    List Nat → List RangePayout → RangePayout → List RangePayout
  | [], range_payouts, cur_range => range_payouts ++ [cur_range]
  | outcome :: rest, range_payouts, cur_range =>
    let payout := evalR outcome
    if cur_range.payout.offer = payout then
      rangeScanLoop evalR total_collateral rest range_payouts
        { cur_range with count := cur_range.count + 1 }
    else
      rangeScanLoop evalR total_collateral rest (range_payouts ++ [cur_range])
        ⟨outcome, 1, ⟨payout, total_collateral - payout⟩⟩

/-- `Evaluable::to_range_payouts` (payout_curve.rs lines 111-148): pop the
accumulated vector's last range if any (otherwise start a fresh range at the
piece's first outcome with its rounded payout), then scan the outcomes
`first+1 .. last` with `rangeScanLoop`. -/
def PayoutFunctionPiece.to_range_payouts (piece : PayoutFunctionPiece)
    (rounding_intervals : RoundingIntervals) (total_collateral : Nat)
    (range_payouts : List RangePayout) : List RangePayout :=
  let first_outcome := piece.get_first_outcome
  let evalR := fun o => piece.get_rounded_payout o rounding_intervals
  let (popped, cur_range) :=
    match range_payouts.getLast? with
    | Option.none =>
      let first_payout := evalR first_outcome
      (([] : List RangePayout),
        (⟨first_outcome, 1, ⟨first_payout, total_collateral - first_payout⟩⟩ : RangePayout))
    | Option.some last => (range_payouts.dropLast, last)
  rangeScanLoop evalR total_collateral
    (List.range' (first_outcome + 1) (piece.get_last_outcome - first_outcome))
    popped cur_range

/-- `PayoutFunction::to_range_payouts` (payout_curve.rs lines 39-49):
fold the pieces left to right over the shared accumulator vector. -/
def PayoutFunction.to_range_payouts (f : PayoutFunction) (total_collateral : Nat)
    (rounding_intervals : RoundingIntervals) : List RangePayout :=
  f.payout_function_pieces.foldl
    (fun range_payouts piece =>
      piece.to_range_payouts rounding_intervals total_collateral range_payouts)
    []

/-- The invariant the piece constructors establish: a polynomial piece has
more than one point with strictly ascending `event_outcome`
(`PolynomialPayoutCurvePiece::new`), a hyperbola piece has
`left.event_outcome < right.event_outcome`
(`HyperbolaPayoutCurvePiece::new`). -/
def PayoutFunctionPiece.valid : PayoutFunctionPiece → Prop
  | .polynomialPiece p =>
    1 < p.payout_points.length ∧
      p.payout_points.Chain' (fun u v => u.event_outcome < v.event_outcome)
  | .hyperbolaPiece h =>
    h.left_end_point.event_outcome < h.right_end_point.event_outcome

/-- `Contig a l b`: the ranges of `l` are contiguous and non-overlapping,
the first starts at `a`, and together they cover exactly `[a, b)`. -/
inductive Contig : Nat → List RangePayout → Nat → Prop where
  | nil : ∀ a, Contig a [] a
  | cons : ∀ (r : RangePayout) (l : List RangePayout) (b : Nat),
      1 ≤ r.count → Contig (r.start + r.count) l b → Contig r.start (r :: l) b

/-- The two-piece boundary behaviour exactly as claim C5 words it: the last
range of the first piece is popped; if the second piece's first rounded
payout equals the popped range's offer, the popped range is extended over
the boundary outcome (i.e. it stays the current range of the continued
scan); otherwise both the popped range (unchanged) and a new range starting
at the boundary outcome are pushed. -/
def claimedBoundaryBehaviour (p1 p2 : PayoutFunctionPiece) (total_collateral : Nat)
    (ri : RoundingIntervals) : Prop :=
  let r1 := p1.to_range_payouts ri total_collateral []
  match r1.getLast? with
  | Option.none => True
  | Option.some popped =>
    let out := (PayoutFunction.mk [p1, p2]).to_range_payouts total_collateral ri
    let fp := p2.get_rounded_payout p2.get_first_outcome ri
    if fp = popped.payout.offer then
      out =
        rangeScanLoop (fun o => p2.get_rounded_payout o ri) total_collateral
          (List.range' (p2.get_first_outcome + 1)
            (p2.get_last_outcome - p2.get_first_outcome))
          r1.dropLast popped
    else
      popped ∈ out ∧ ∃ r ∈ out, r.start = p2.get_first_outcome

/-- The rounding interval list `[{begin_interval: 0, rounding_mod: 1}]` used
by the repository's own tests. -/
def riUnit : RoundingIntervals := ⟨[⟨0, 1⟩]⟩

/-- The flat polynomial piece of claim C4: points `[(10,10,0),(20,10,0)]`. -/
def flatPiece : PayoutFunctionPiece :=
  .polynomialPiece ⟨[⟨10, 10, 0⟩, ⟨20, 10, 0⟩]⟩

/-- First piece of the C5 counterexample: the flat polynomial through
`(0,0,0)` and `(1,0,0)`. -/
def cexPiece1 : PayoutFunctionPiece :=
  .polynomialPiece ⟨[⟨0, 0, 0⟩, ⟨1, 0, 0⟩]⟩

/-- Second piece of the C5 counterexample: a hyperbola with end points
`(1,0,0)` and `(3,0,0)` (so the two-piece function is C0-continuous and
accepted by `PayoutFunction::new`) whose curve `x + 4/x - 4` evaluates to
`1` at the boundary outcome `1` — differing from the first piece's final
offer `0` — but to `0` from outcome `2` on. -/
def cexPiece2 : PayoutFunctionPiece :=
  .hyperbolaPiece ⟨⟨1, 0, 0⟩, ⟨3, 0, 0⟩, true, 0, -4, 1, 0, 1, 4⟩

/-- The pieces on which `get_first_point` / `get_last_point` are defined
without panicking in the source: a polynomial piece must have at least one
payout point (`payout_points[0]` / `last().unwrap()`). -/
def PayoutFunctionPiece.has_end_points : PayoutFunctionPiece → Prop
  | .polynomialPiece p => p.payout_points ≠ []
  | .hyperbolaPiece _ => True

/-- A flat polynomial piece whose first point `(30,0,0)` does not meet
`flatPiece`'s last point `(20,10,0)`; used to exercise the continuity
check. -/
def gapPiece : PayoutFunctionPiece :=
  .polynomialPiece ⟨[⟨30, 0, 0⟩, ⟨40, 0, 0⟩]⟩


/-! ## Digit trie, combinations and multi-oracle combinations
(dependencies of `dlc-trie/src/multi_trie.rs` whose sources are not under
`src/`; modelled from the specification §4.1-§4.2). -/

/-- Strict lexicographic order on digit paths; a proper prefix precedes its
extensions. This is the enumeration order the spec (§4.1) requires of
`DigitTrie::look_up` and `DigitTrieIter`. -/
def lexLt : List Nat → List Nat → Bool
  | [], [] => false
  | [], _ :: _ => true
  | _ :: _, [] => false
  | a :: as, b :: bs => decide (a < b) || (decide (a = b) && lexLt as bs)

/-- Modelled from the spec: `DigitTrie` (dlc-trie/src/digit_trie.rs, not
under `src/`). §4.1 specifies a base-`b` prefix-compressed trie holding one
value per stored path, with lexicographic lookup/iteration and exact dump
round-trips; the model keeps the observable state extensionally, as the
branching factor plus the stored `(path, value)` pairs in lexicographic
order (the node-arena layout of the source is not observable through the
operations the claims use). -/
structure DigitTrie (T : Type) where
  base : Nat
  entries : List (List Nat × T)
deriving DecidableEq, Repr

/-- Modelled from the spec: `DigitTrie::new(base)` — the empty trie. -/
def DigitTrie.new (T : Type) (base : Nat) : DigitTrie T := ⟨base, []⟩

/-- Sorted insertion into the entry list, invoking the merge callback
exactly once — with the current value on an exact path match, with `none`
otherwise — while threading a caller-supplied state `σ` (the source's
`get_value` closures mutate their environment). -/
def digitInsertGo {T σ : Type} (path : List Nat)
    (get_value : σ → Option T → Except DlcError (σ × T)) :
    List (List Nat × T) → σ → Except DlcError (σ × List (List Nat × T))
  | [], s => do
    let (s2, v) ← get_value s Option.none
    Except.ok (s2, [(path, v)])
  | (p, v) :: rest, s =>
    if path = p then do
      let (s2, v2) ← get_value s (Option.some v)
      Except.ok (s2, (path, v2) :: rest)
    else if lexLt path p then do
      let (s2, v2) ← get_value s Option.none
      Except.ok (s2, (path, v2) :: (p, v) :: rest)
    else do
      let (s2, rest2) ← digitInsertGo path get_value rest s
      Except.ok (s2, (p, v) :: rest2)

/-- Modelled from the spec: `DigitTrie::insert(path, get_value)` (§4.1):
fails with `InvalidParameters` if any digit is `≥ base`, otherwise stores
the path, merging via the callback on an exact match. -/
def DigitTrie.insert {T σ : Type} (t : DigitTrie T) (path : List Nat)
    (get_value : σ → Option T → Except DlcError (σ × T)) (s : σ) :
    Except DlcError (σ × DigitTrie T) :=
  if path.all (fun d => decide (d < t.base)) then
    (digitInsertGo path get_value t.entries s).map (fun sv => (sv.1, ⟨t.base, sv.2⟩))
  else
    Except.error DlcError.invalidParameters

/-- Modelled from the spec: `DigitTrie::look_up(query)` (§4.1): every entry
whose stored path is a prefix of the query, in lexicographic order; `none`
when there is no match (the callers in multi_trie.rs immediately take
`res[0]` of a `Some` result). -/
def DigitTrie.look_up {T : Type} (t : DigitTrie T) (query : List Nat) :
    Option (List (List Nat × T)) :=
  let res := t.entries.filter (fun e => e.1.isPrefixOf query)
  if res.isEmpty then Option.none else Option.some res

/-- Modelled from the spec: the serialized form of a digit trie (§4.1
"dump / from_dump — flat serialization ...; round-trip must be exact"). -/
structure DigitTrieDump (T : Type) where
  base : Nat
  entries : List (List Nat × T)
deriving DecidableEq, Repr

/-- Modelled from the spec: `DigitTrie::dump`. -/
def DigitTrie.dump {T : Type} (t : DigitTrie T) : DigitTrieDump T :=
  ⟨t.base, t.entries⟩

/-- Modelled from the spec: `DigitTrie::from_dump`; exact inverse of
`dump`, as §4.1 requires. -/
def DigitTrie.from_dump {T : Type} (d : DigitTrieDump T) : DigitTrie T :=
  ⟨d.base, d.entries⟩

/-- All `k`-element ascending selections from a list, in lexicographic
order. -/
def combinationsAux : List Nat → Nat → List (List Nat)
  | _, 0 => [[]]
  | [], Nat.succ _ => []
  | x :: xs, Nat.succ k =>
    (combinationsAux xs k).map (fun c => x :: c) ++ combinationsAux xs (Nat.succ k)

/-- Modelled from the spec: `CombinationIterator::new(n, k)`
(dlc-trie/src/combination_iterator.rs, not under `src/`): the `k`-element
subsets of `{0, …, n-1}` in lexicographic order ("a standard combinatorial
selector", §4.2). -/
def combinationsList (n k : Nat) : List (List Nat) :=
  combinationsAux (List.range n) k

/-- Modelled from the spec:
`CombinationIterator::get_index_for_combination`: the position of a
combination in the lexicographic enumeration, `none` if it does not occur
there. -/
def getIndexForCombination (n k : Nat) (combination : List Nat) : Option Nat :=
  (combinationsList n k).findIdx? (fun c => decide (c = combination))

/-- The base-2 digits of `v`, most significant first, padded to `len`
digits. -/
def natToDigits2 (len v : Nat) : List Nat :=
  (List.range len).map (fun i => v / 2 ^ (len - 1 - i) % 2)

/-- The numeric value of a base-2 digit path. -/
def pathValue2 (path : List Nat) : Nat :=
  path.foldl (fun acc d => 2 * acc + d) 0

/-- All length-`k` tuples over `opts`, first coordinate varying slowest. -/
def choicePower {α : Type} (opts : List α) : Nat → List (List α)
  | 0 => [[]]
  | Nat.succ k => opts.flatMap (fun o => (choicePower opts k).map (fun c => o :: c))

/-- Modelled from the spec: `compute_outcome_combinations`
(dlc-trie/src/multi_oracle.rs, not under `src/`). §4.2 step 1 describes it
as producing, for a primary digit path, the list of `nb_required`-tuples of
digit paths tolerated under the bounded-difference scheme with tolerance
window `[2^min_support_exp, 2^max_error_exp)` (base-2 digit paths; the
source call passes no base). Model: the primary prefix covers
`[left, right]`; the `2^max_error_exp`-aligned block containing it is
always tolerated for the other quorum members, and when the primary
interval comes within `2^min_support_exp` of the block's left (right) edge
the adjacent `2^min_support_exp`-wide neighbour prefix on that side is
tolerated as well. At the spec's §8 scenario 5 parameters this yields
exactly the combinations that scenario requires. The spec does not describe
the `maximize_coverage = false` variant in enough detail to distinguish it;
every claim uses `maximize_coverage = true`, and the model ignores the
flag. -/
def computeOutcomeCombinations (nb_digits : Nat) (path : List Nat)
    (max_error_exp min_support_exp : Nat) (maximize_coverage : Bool)
    (nb_required : Nat) : List (List (List Nat)) :=
  let width := 2 ^ (nb_digits - path.length)
  let left := pathValue2 path * width
  let right := left + width - 1
  let err := 2 ^ max_error_exp
  let support := 2 ^ min_support_exp
  let blockStart := err * (left / err)
  let blockEnd := blockStart + err - 1
  let mainPfx := natToDigits2 (nb_digits - max_error_exp) (left / err)
  let leftPfx :=
    if 0 < blockStart ∧ left - blockStart < support then
      [natToDigits2 (nb_digits - min_support_exp) ((blockStart - support) / support)]
    else []
  let rightPfx :=
    if blockEnd + 1 < 2 ^ nb_digits ∧ blockEnd < right + support then
      [natToDigits2 (nb_digits - min_support_exp) ((blockEnd + 1) / support)]
    else []
  (choicePower (mainPfx :: (leftPfx ++ rightPfx)) (nb_required - 1)).map
    (fun rest => path :: rest)

/-! ## Multi-trie (`dlc-trie/src/multi_trie.rs`) -/

/-- `TrieNodeInfo` (multi_trie.rs lines 12-17). -/
structure TrieNodeInfo where
  trie_index : Nat
  store_index : Nat
deriving DecidableEq, Repr

/-- `MultiTrieNode<T> = Node<DigitTrie<T>, DigitTrie<Vec<TrieNodeInfo>>>`
(multi_trie.rs line 19; the `Node` enum itself lives in dlc-trie/src/lib.rs,
not under `src/`, with variants `Leaf`, `Node` and `None` — the spec (§3)
calls the last one the tombstone tag used during swap-remove mutation). -/
inductive MultiTrieNode (T : Type) where
  | leaf : DigitTrie T → MultiTrieNode T
  | node : DigitTrie (List TrieNodeInfo) → MultiTrieNode T
  | tombstone : MultiTrieNode T
deriving DecidableEq

/-- `MultiTrie` (multi_trie.rs lines 163-174). -/
structure MultiTrie (T : Type) where
  store : List (MultiTrieNode T)
  base : Nat
  nb_tries : Nat
  nb_required : Nat
  min_support_exp : Nat
  max_error_exp : Nat
  nb_digits : Nat
  maximize_coverage : Bool
deriving DecidableEq

/-- `MultiTrie::new` (multi_trie.rs lines 179-208): `nb_tries - nb_required
+ 1` root nodes, `Leaf`s when `nb_required = 1` and `Node`s otherwise. (The
source `assert!`s `nb_required > 0 && nb_tries >= nb_required`; all
theorems instantiate valid parameters.) -/
def MultiTrie.new (T : Type) (nb_tries nb_required base min_support_exp
    max_error_exp nb_digits : Nat) (maximize_coverage : Bool) : MultiTrie T :=
  let nb_roots := nb_tries - nb_required + 1
  let store :=
    if 1 < nb_required then
      List.replicate nb_roots (MultiTrieNode.node (DigitTrie.new (List TrieNodeInfo) base))
    else
      List.replicate nb_roots (MultiTrieNode.leaf (DigitTrie.new T base))
  ⟨store, base, nb_tries, nb_required, min_support_exp, max_error_exp, nb_digits,
    maximize_coverage⟩

/-- `find_store_index` (multi_trie.rs lines 395-403). -/
def find_store_index (children : List TrieNodeInfo) (trie_index : Nat) :
    Option Nat :=
  match children.find? (fun info => decide (trie_index = info.trie_index)) with
  | Option.some info => Option.some info.store_index
  | Option.none => Option.none

/-- `MultiTrie::insert_new` (multi_trie.rs lines 244-253): push a fresh leaf
or node onto the arena. -/
def MultiTrie.insert_new {T : Type} (t : MultiTrie T) (is_leaf : Bool) :
    MultiTrie T :=
  { t with
    store := t.store ++
      [if is_leaf then MultiTrieNode.leaf (DigitTrie.new T t.base)
       else MultiTrieNode.node (DigitTrie.new (List TrieNodeInfo) t.base)] }

/-- `MultiTrie::insert_internal` (multi_trie.rs lines 255-309). The
`swap_remove` that checks a node out of the arena is embedded as reading the
slot and overwriting it with the tombstone; the node is written back in
place afterwards, exactly as the source does. The source's `assert!`s and
the `unreachable!` on a tombstone are modelled as the `panicErr` error, so
`.ok` results coincide with panic-free `Ok` runs. During the `Node` case the
digit-trie insertion callback threads the trie (onto whose arena it pushes
fresh nodes) and the resulting `store_index` as its state, mirroring the
closure capturing `&mut self` and the `store_index` local. The extra
argument `rem` is the suffix `paths[path_index..]`; it only drives the
structural recursion (so that the definition stays kernel-computable):
`rem = []` is the failure of the source's `assert!(path_index <
paths.len())`, and callers maintain the correspondence. -/
def MultiTrie.insert_internal {T : Type} (t : MultiTrie T)
    (cur_node_index : Nat) (paths : List (List Nat)) (path_index : Nat)
    (rem : List (List Nat)) (trie_indexes : List Nat)
    (get_value : List (List Nat) → List Nat → Except DlcError T) :
    Except DlcError (MultiTrie T) :=
  match rem with
  | [] => Except.error DlcError.panicErr
  | _ :: rtail =>
    let cur := t.store.getD cur_node_index MultiTrieNode.tombstone
    let t1 : MultiTrie T :=
      { t with store := t.store.set cur_node_index MultiTrieNode.tombstone }
    match cur with
    | MultiTrieNode.tombstone => Except.error DlcError.panicErr
    | MultiTrieNode.leaf digit_trie =>
      if path_index = paths.length - 1 then
        match digit_trie.insert (paths.getD path_index [])
            (fun s _ => (get_value paths trie_indexes).map (fun v => (s, v)))
            () with
        | Except.ok (_, d2) =>
          Except.ok
            { t1 with store := t1.store.set cur_node_index (MultiTrieNode.leaf d2) }
        | Except.error e => Except.error e
      else Except.error DlcError.panicErr
    | MultiTrieNode.node nd =>
      if path_index + 1 < paths.length then
        let push := fun (tS : MultiTrie T) (cur_data : List TrieNodeInfo) =>
          let t2 := tS.insert_new (decide (paths.length - 1 = path_index + 1))
          let store_index := t2.store.length - 1
          ((t2, store_index),
            cur_data ++
              [(⟨trie_indexes.getD (path_index + 1) 0, store_index⟩ : TrieNodeInfo)])
        match nd.insert (paths.getD path_index [])
            (fun (st : MultiTrie T × Nat) cur_data_res =>
              match cur_data_res with
              | Option.some cur_data =>
                match find_store_index cur_data
                    (trie_indexes.getD (path_index + 1) 0) with
                | Option.some cur_store_index =>
                  Except.ok ((st.1, cur_store_index), cur_data)
                | Option.none => Except.ok (push st.1 cur_data)
              | Option.none => Except.ok (push st.1 []))
            (t1, 0) with
        | Except.error e => Except.error e
        | Except.ok ((t2, store_index), nd2) =>
          MultiTrie.insert_internal
            { t2 with store := t2.store.set cur_node_index (MultiTrieNode.node nd2) }
            store_index paths (path_index + 1) rtail trie_indexes get_value
      else Except.error DlcError.panicErr

/-- `MultiTrie::insert` (multi_trie.rs lines 216-242): compute the tolerated
combinations (the singleton `[[path]]` when `nb_required = 1`) and insert
each along every `nb_required`-subset of the oracles. -/
def MultiTrie.insert {T : Type} (t : MultiTrie T) (path : List Nat)
    (get_value : List (List Nat) → List Nat → Except DlcError T) :
    Except DlcError (MultiTrie T) :=
  let combinations :=
    if 1 < t.nb_required then
      computeOutcomeCombinations t.nb_digits path t.max_error_exp
        t.min_support_exp t.maximize_coverage t.nb_required
    else [[path]]
  combinations.foldlM
    (fun acc combination =>
      (combinationsList t.nb_tries t.nb_required).foldlM
        (fun acc2 selector =>
          acc2.insert_internal (selector.headD 0) combination 0 combination selector get_value)
        acc)
    t

/-- `LookupResult<T, (usize, Vec<usize>)>` as produced by the multi-trie
lookup and iterator (the generic `LookupResult` lives in
dlc-trie/src/lib.rs, not under `src/`; the spec (§4.1, §4.2) specifies its
two fields). -/
structure MLookupResult (T : Type) where
  value : T
  path : List (Nat × List Nat)
deriving DecidableEq, Repr

/-- `MultiTrie::look_up_internal` (multi_trie.rs lines 355-392). `paths` is
the remaining slice `paths[path_index..]`; the source's assertions
(`path_index < paths.len()`, and `< paths.len() - 1` in the `Node` case)
and the `unreachable!` on a tombstone are panics, modelled as a `none`
result (no theorem exercises them). As in the source, the `Node` case tries
every matching digit-trie entry in order and descends through the child
whose `trie_index` matches the next selected oracle. -/
def MultiTrie.look_up_internal {T : Type} (t : MultiTrie T)
    (cur_node : MultiTrieNode T) (paths : List (Nat × List Nat)) :
    Option (MLookupResult T) :=
  match paths with
  | [] => Option.none
  | (trie_index, digits) :: rest =>
    match cur_node with
    | MultiTrieNode.tombstone => Option.none
    | MultiTrieNode.leaf d_trie =>
      match d_trie.look_up digits with
      | Option.none => Option.none
      | Option.some res =>
        match res with
        | [] => Option.none
        | r0 :: _ => Option.some ⟨r0.2, [(trie_index, r0.1)]⟩
    | MultiTrieNode.node d_trie =>
      if rest.isEmpty then Option.none
      else
        let next := rest.headD (0, [])
        match d_trie.look_up digits with
        | Option.none => Option.none
        | Option.some results =>
          results.findSome? (fun l_res =>
            match find_store_index l_res.2 next.1 with
            | Option.none => Option.none
            | Option.some index =>
              match
                MultiTrie.look_up_internal t
                  (t.store.getD index MultiTrieNode.tombstone) rest with
              | Option.none => Option.none
              | Option.some child =>
                Option.some ⟨child.value, child.path ++ [(trie_index, l_res.1)]⟩)

/-- `MultiTrie::look_up` (multi_trie.rs lines 312-353): `None` immediately
when fewer than `nb_required` paths are supplied; otherwise try every
`nb_required`-subset of the supplied paths in lexicographic order, skipping
selectors whose first oracle index is not a root, and reverse the
accumulated path of the first hit. -/
def MultiTrie.look_up {T : Type} (t : MultiTrie T)
    (paths : List (Nat × List Nat)) : Option (MLookupResult T) :=
  if paths.length < t.nb_required then Option.none
  else
    let nb_roots := t.nb_tries - t.nb_required + 1
    (combinationsList paths.length t.nb_required).findSome? (fun selector =>
      let first_index := (paths.getD (selector.headD 0) (0, [])).1
      if nb_roots ≤ first_index then Option.none
      else
        let selected :=
          ((List.range paths.length).filter (fun i => selector.contains i)).map
            (fun i => paths.getD i (0, []))
        match
          t.look_up_internal (t.store.getD first_index MultiTrieNode.tombstone)
            selected with
        | Option.none => Option.none
        | Option.some l_res => Option.some ⟨l_res.value, l_res.path.reverse⟩)

/-- The output sequence of `MultiTrieIterator` (multi_trie.rs lines
59-161), embedded recursively: the iterator's three explicit stacks
(node iterators, trie-info iterators, leaf iterators) realize exactly this
depth-first, left-to-right traversal — roots in ascending index order, the
inner digit tries in lexicographic order, each node entry's children in
order — accumulating one `(trie_index, digit path)` pair per level. `fuel`
bounds the descent depth; every chain in a trie built by `insert` steps
through distinct arena slots, so `store.length` suffices. -/
def MultiTrie.iter_from {T : Type} (store : List (MultiTrieNode T)) :
    Nat → Nat → MultiTrieNode T → List (MLookupResult T)
  | 0, _, _ => []
  | Nat.succ fuel, trie_index, node =>
    match node with
    | MultiTrieNode.tombstone => []
    | MultiTrieNode.leaf d => d.entries.map (fun e => ⟨e.2, [(trie_index, e.1)]⟩)
    | MultiTrieNode.node d =>
      d.entries.flatMap (fun e =>
        e.2.flatMap (fun info =>
          (MultiTrie.iter_from store fuel info.trie_index
              (store.getD info.store_index MultiTrieNode.tombstone)).map
            (fun r => ⟨r.value, (trie_index, e.1) :: r.path⟩)))

/-- The full iteration sequence of `MultiTrieIterator::new` followed by
exhausting `next` (multi_trie.rs lines 59-161): the roots
`0 .. nb_tries - nb_required + 1` in ascending order, depth first. -/
def MultiTrie.iterate {T : Type} (t : MultiTrie T) : List (MLookupResult T) :=
  (List.range (t.nb_tries - t.nb_required + 1)).flatMap
    (fun i =>
      MultiTrie.iter_from t.store t.store.length i
        (t.store.getD i MultiTrieNode.tombstone))

/-- `MultiTrieNodeData` (multi_trie.rs lines 479-487). -/
inductive MultiTrieNodeData (T : Type) where
  | leaf : DigitTrieDump T → MultiTrieNodeData T
  | node : DigitTrieDump (List TrieNodeInfo) → MultiTrieNodeData T
deriving DecidableEq

/-- `MultiTrieNode::get_data` (multi_trie.rs lines 493-499); on the
tombstone the source hits `unreachable!` — modelled as a junk leaf dump (no
theorem evaluates it). -/
def MultiTrieNode.get_data {T : Type} : MultiTrieNode T → MultiTrieNodeData T
  | MultiTrieNode.leaf l => MultiTrieNodeData.leaf l.dump
  | MultiTrieNode.node n => MultiTrieNodeData.node n.dump
  | MultiTrieNode.tombstone => MultiTrieNodeData.leaf ⟨0, []⟩

/-- `MultiTrieNode::from_data` (multi_trie.rs lines 501-506). -/
def MultiTrieNode.from_data {T : Type} : MultiTrieNodeData T → MultiTrieNode T
  | MultiTrieNodeData.leaf l => MultiTrieNode.leaf (DigitTrie.from_dump l)
  | MultiTrieNodeData.node n => MultiTrieNode.node (DigitTrie.from_dump n)

/-- `MultiTrieDump` (multi_trie.rs lines 405-426). -/
structure MultiTrieDump (T : Type) where
  node_data : List (MultiTrieNodeData T)
  base : Nat
  nb_tries : Nat
  nb_required : Nat
  min_support_exp : Nat
  max_error_exp : Nat
  nb_digits : Nat
  maximize_coverage : Bool
deriving DecidableEq

/-- `MultiTrie::dump` (multi_trie.rs lines 433-445). -/
def MultiTrie.dump {T : Type} (t : MultiTrie T) : MultiTrieDump T :=
  ⟨t.store.map MultiTrieNode.get_data, t.base, t.nb_tries, t.nb_required,
    t.min_support_exp, t.max_error_exp, t.nb_digits, t.maximize_coverage⟩

/-- `MultiTrie::from_dump` (multi_trie.rs lines 448-475). -/
def MultiTrie.from_dump {T : Type} (d : MultiTrieDump T) : MultiTrie T :=
  ⟨d.node_data.map MultiTrieNode.from_data, d.base, d.nb_tries, d.nb_required,
    d.min_support_exp, d.max_error_exp, d.nb_digits, d.maximize_coverage⟩

/-- The population pattern of the repository's test suite: a sequence of
`insert` calls whose callback returns a fixed per-call value (multi_trie.rs
tests, e.g. lines 513-539 and 655-686). -/
def MultiTrie.insertAll {T : Type} (t : MultiTrie T)
    (inserts : List (List Nat × T)) : Except DlcError (MultiTrie T) :=
  inserts.foldlM
    (fun acc pv => acc.insert pv.1 (fun _ _ => Except.ok pv.2)) t

/-- No tombstone sits in the arena (the spec's §5 invariant that insertion
"temporarily tombstones a slot but never exposes a partial state"). -/
def MultiTrie.noTomb {T : Type} (t : MultiTrie T) : Prop :=
  ∀ n ∈ t.store, n ≠ MultiTrieNode.tombstone


/-- The constant-value callback of the multi-trie test suite
(`|_, _| Ok(2)`, multi_trie.rs line 520). -/
def constCallback2 : List (List Nat) → List Nat → Except DlcError Nat :=
  fun _ _ => Except.ok 2

/-- The 2-of-2 multi-trie of the spec's §8 scenario 5 (and the repository's
`multi_trie_2_of_2_test`): parameters `(2, 2, 2, 2, 3, 5, true)`, after
inserting the path `[0,1,1,1]`. -/
def mt2of2 : MultiTrie Nat :=
  match (MultiTrie.new Nat 2 2 2 2 3 5 true).insert [0, 1, 1, 1] constCallback2 with
  | Except.ok t => t
  | Except.error _ => MultiTrie.new Nat 2 2 2 2 3 5 true

/-- An empty 1-of-1 multi-trie of `RangeInfo`, for exercising the
no-match branch of `get_range_info_for_outcome`. -/
def mtEmptyRI : MultiTrie RangeInfo := MultiTrie.new RangeInfo 1 1 2 2 3 5 true


/-- A 1-of-1 multi-trie populated with value `1` at path `[0,0]` and value
`2` at path `[0,0,1]` — two successful insertions whose paths are in a
prefix relation. -/
def mtPrefixCex : MultiTrie Nat :=
  match (MultiTrie.new Nat 1 1 2 2 3 5 true).insertAll [([0, 0], 1), ([0, 0, 1], 2)] with
  | Except.ok t => t
  | Except.error _ => MultiTrie.new Nat 1 1 2 2 3 5 true

/-- The callback-free insertion of a `(path, value)` pair into a
lexicographically sorted entry list: the pure content of `digitInsertGo`
when the merge callback returns a fixed value. -/
def digitInsertPure {T : Type} (path : List Nat) (v : T) :
    List (List Nat × T) → List (List Nat × T)
  | [] => [(path, v)]
  | (q, w) :: rest =>
    if path = q then (path, v) :: rest
    else if lexLt path q then (path, v) :: (q, w) :: rest
    else (q, w) :: digitInsertPure path v rest

/-- A 2-root threshold-1 multi-trie populated with two prefix-free paths,
used as concrete witness input. -/
def mtTwoLeaves : MultiTrie Nat :=
  match (MultiTrie.new Nat 2 1 2 2 3 5 true).insertAll [([0, 0], 1), ([1, 1, 0], 2)] with
  | Except.ok t => t
  | Except.error _ => MultiTrie.new Nat 2 1 2 2 3 5 true


/-- The population pattern of `MultiTrie::insert` calls in full generality:
each insertion supplies its own `get_value` callback (multi_trie.rs lines
216-242; the callback receives the tolerated combination and the selected
oracle indexes). `insertAll` is the special case of constant callbacks. -/
def MultiTrie.insertAllWith {T : Type} (t : MultiTrie T)
    (inserts : List (List Nat × (List (List Nat) → List Nat → Except DlcError T))) :
    Except DlcError (MultiTrie T) :=
  inserts.foldlM (fun acc pc => acc.insert pc.1 pc.2) t

/-- The list of digit prefixes tolerated for the non-primary quorum members
of a combination: the block prefix plus the adjacent neighbour prefixes.
This is exactly the coordinate list out of which
`computeOutcomeCombinations` forms its tuples (its body, factored). -/
def optList (nb_digits : Nat) (path : List Nat)
    (max_error_exp min_support_exp : Nat) : List (List Nat) :=
  let width := 2 ^ (nb_digits - path.length)
  let left := pathValue2 path * width
  let right := left + width - 1
  let err := 2 ^ max_error_exp
  let support := 2 ^ min_support_exp
  let blockStart := err * (left / err)
  let blockEnd := blockStart + err - 1
  let mainPfx := natToDigits2 (nb_digits - max_error_exp) (left / err)
  let leftPfx :=
    if 0 < blockStart ∧ left - blockStart < support then
      [natToDigits2 (nb_digits - min_support_exp) ((blockStart - support) / support)]
    else []
  let rightPfx :=
    if blockEnd + 1 < 2 ^ nb_digits ∧ blockEnd < right + support then
      [natToDigits2 (nb_digits - min_support_exp) ((blockEnd + 1) / support)]
    else []
  mainPfx :: (leftPfx ++ rightPfx)

/-- No element of the list is a (weak) prefix of another: the digit-trie
key-set discipline under which a stored key is the only stored prefix of
itself. -/
def pairwiseNP (l : List (List Nat)) : Prop :=
  l.Pairwise (fun a b => a.isPrefixOf b = false ∧ b.isPrefixOf a = false)

/-- The entry list of a digit trie is strictly sorted by the lexicographic
order on keys (§4.1: entries are kept in lexicographic order). -/
def entriesSorted {V : Type} (es : List (List Nat × V)) : Prop :=
  es.Pairwise (fun a b => lexLt a.1 b.1 = true)

/-- The children of one node entry reference pairwise distinct oracle
(trie) indexes. -/
def tidsDistinct (ch : List TrieNodeInfo) : Prop :=
  (ch.map (fun info => info.trie_index)).Nodup

/-- Local well-formedness of one non-root arena slot, relative to an
ownership assignment `ω` mapping each deep slot to the primary digit path
whose insertion created it together with the number of trie levels at and
below the slot: a leaf sits at one remaining level and stores keys from the
owner's tolerated coordinate set `KS p`; an inner node sits at two or more
remaining levels, stores keys from `KS p`, and its children lists carry
pairwise distinct oracle indexes and reference in-range non-root slots
owned by the same primary one level down. -/
def slotGood {T : Type} (nbRoots storeLen : Nat)
    (KS : List Nat → List (List Nat)) (ω : Nat → List Nat × Nat) :
    MultiTrieNode T → List Nat × Nat → Prop
  | MultiTrieNode.leaf d, (p, lv) =>
    lv = 1 ∧ entriesSorted d.entries ∧ ∀ e ∈ d.entries, e.1 ∈ KS p
  | MultiTrieNode.node d, (p, lv) =>
    2 ≤ lv ∧ entriesSorted d.entries ∧
      ∀ e ∈ d.entries, e.1 ∈ KS p ∧ tidsDistinct e.2 ∧
        ∀ info ∈ e.2, nbRoots ≤ info.store_index ∧ info.store_index < storeLen ∧
          ω info.store_index = (p, lv - 1)
  | MultiTrieNode.tombstone, _ => False

/-- Local well-formedness of a root slot: a leaf holding primary paths when
`nb_required = 1`, otherwise an inner node whose keys are primary paths and
whose children (one per second quorum member) are non-root slots owned by
that entry's primary with `nb_required - 1` levels below. -/
def rootGood {T : Type} (R nbRoots storeLen : Nat)
    (KS : List Nat → List (List Nat)) (PS : List (List Nat))
    (ω : Nat → List Nat × Nat) : MultiTrieNode T → Prop
  | MultiTrieNode.leaf d =>
    R = 1 ∧ entriesSorted d.entries ∧ ∀ e ∈ d.entries, e.1 ∈ PS
  | MultiTrieNode.node d =>
    2 ≤ R ∧ entriesSorted d.entries ∧
      ∀ e ∈ d.entries, e.1 ∈ PS ∧ tidsDistinct e.2 ∧
        ∀ info ∈ e.2, nbRoots ≤ info.store_index ∧ info.store_index < storeLen ∧
          ω info.store_index = (e.1, R - 1)
  | MultiTrieNode.tombstone => False

/-- Global arena invariant maintained by `MultiTrie::insert` (spec §3, the
arena invariant of §4.2): `nbRoots` root slots exist and are locally good,
and every non-root slot is locally good for its ownership assignment. -/
def storeInv {T : Type} (R nbRoots : Nat) (KS : List Nat → List (List Nat))
    (PS : List (List Nat)) (ω : Nat → List Nat × Nat)
    (store : List (MultiTrieNode T)) : Prop :=
  nbRoots ≤ store.length ∧
  (∀ i, i < nbRoots →
    rootGood R nbRoots store.length KS PS ω
      (store.getD i MultiTrieNode.tombstone)) ∧
  (∀ j, nbRoots ≤ j → j < store.length →
    slotGood nbRoots store.length KS ω
      (store.getD j MultiTrieNode.tombstone) (ω j))

/-- Structural goodness of a subtree to a given depth: every digit trie on
the way stores pairwise non-prefix-related keys, children carry distinct
oracle indexes, and leaves sit exactly at the last level. Unlike
`storeInv` this predicate follows the arena pointers, which is what the
iterator and `look_up` both do. -/
def goodNode {T : Type} (store : List (MultiTrieNode T)) :
    Nat → MultiTrieNode T → Prop
  | 1, MultiTrieNode.leaf d => pairwiseNP (d.entries.map (fun e => e.1))
  | Nat.succ (Nat.succ lv), MultiTrieNode.node d =>
    pairwiseNP (d.entries.map (fun e => e.1)) ∧
      ∀ e ∈ d.entries, tidsDistinct e.2 ∧
        ∀ info ∈ e.2,
          goodNode store (Nat.succ lv)
            (store.getD info.store_index MultiTrieNode.tombstone)
  | _, _ => False

/-- A 2-of-2 multi-trie populated through `insertAllWith` (value 7 at the
scenario path), exercising the node level of the arena. -/
def mtPair : MultiTrie Nat :=
  match (MultiTrie.new Nat 2 2 2 2 3 5 true).insertAllWith
      [([0, 1, 1, 1], fun _ _ => Except.ok 7)] with
  | Except.ok t => t
  | Except.error _ => MultiTrie.new Nat 2 2 2 2 3 5 true

/-! ## Contract info (`dlc-manager/src/contract/contract_info.rs`) -/

/-- Modelled from the spec: `RangeInfo` (dlc-trie/src/lib.rs, not under
`src/`): the opaque `(cet_index, adaptor_sig_index)` pair (§3). -/
structure RangeInfo where
  cet_index : Nat
  adaptor_index : Nat
deriving DecidableEq, Repr

/-- The numerical variants of `AdaptorInfo` (contract/mod.rs, not under
`src/`; §3: `Numerical` holds a digit trie of `RangeInfo` vectors per
oracle quorum, `NumericalWithDifference` a multi-trie of `RangeInfo`). The
`Enum` variant is dispatched to `EnumDescriptor` and is outside every
claim's scope. -/
inductive NumAdaptorInfo where
  | numerical : DigitTrie (List RangeInfo) → NumAdaptorInfo
  | numericalWithDifference : MultiTrie RangeInfo → NumAdaptorInfo

/-- Outcome digit strings are modelled by the number each string parses to
(`x.parse::<usize>()` in contract_info.rs lines 142-153), with `none` for
an unparseable string; this is the `get_digits_outcome` closure. -/
def getDigitsOutcome (input : List (Option Nat)) : Except DlcError (List Nat) :=
  input.mapM (fun x =>
    match x with
    | Option.some n => Except.ok n
    | Option.none => Except.error DlcError.invalidParameters)

/-- Modelled from the spec: `get_majority_combination`
(contract/utils.rs, not under `src/`): majority voting over the outcome
list — the largest group of oracles reporting the same outcome value wins,
ties broken by first occurrence — returning the value and the reporting
oracle indices (§4.4 step 5). Fails on an empty outcome list. -/
def getMajorityCombination (outcomes : List (Nat × List (Option Nat))) :
    Except DlcError (List (Option Nat) × List Nat) :=
  let values :=
    outcomes.foldl (fun acc o => if acc.contains o.2 then acc else acc ++ [o.2]) []
  let groups :=
    values.map (fun v => (v, (outcomes.filter (fun o => o.2 = v)).map (fun o => o.1)))
  match groups.foldl
      (fun best g =>
        match best with
        | Option.none => Option.some g
        | Option.some b =>
          if b.2.length < g.2.length then Option.some g else Option.some b)
      Option.none with
  | Option.none => Except.error DlcError.invalidParameters
  | Option.some g => Except.ok (g.1, g.2)

/-- `ContractInfo::get_range_info_for_outcome` (contract_info.rs lines
136-206), restricted to the numerical adaptor-info variants the claims are
about (the `Enum` branch forwards to `EnumDescriptor`, outside `src/`).
`nb_oracles` is `self.oracle_announcements.len()` and `threshold`
`self.threshold`. The `res[0].value[position]` indexing of the source
panics when out of bounds; it is embedded with defaults (no theorem
evaluates that case). -/
def get_range_info_for_outcome (nb_oracles threshold : Nat)
    (adaptor_info : NumAdaptorInfo)
    (outcomes : List (Nat × List (Option Nat))) :
    Except DlcError (Option (List (Nat × Nat) × RangeInfo)) :=
  match adaptor_info with
  | NumAdaptorInfo.numerical n => do
    let mres ← getMajorityCombination outcomes
    let digits_outcome ← getDigitsOutcome mres.1
    match n.look_up digits_outcome with
    | Option.none => Except.error DlcError.invalidState
    | Option.some res =>
      let sufficient_combination := mres.2.take threshold
      match getIndexForCombination nb_oracles threshold sufficient_combination with
      | Option.none => Except.error DlcError.invalidState
      | Option.some position =>
        let r0 := res.headD ([], [])
        Except.ok (Option.some
          (sufficient_combination.map (fun x => (x, r0.1.length)),
            r0.2.getD position ⟨0, 0⟩))
  | NumAdaptorInfo.numericalWithDifference n => do
    let paths ← outcomes.mapM (fun o => do
      let ds ← getDigitsOutcome o.2
      Except.ok (o.1, ds))
    match n.look_up paths with
    | Option.none => Except.error DlcError.invalidState
    | Option.some res =>
      Except.ok (Option.some
        (res.path.map (fun xy => (xy.1, xy.2.length)), res.value))

/-- The condition under which the trie lookup of
`get_range_info_for_outcome` finds no match: majority voting (for the
`Numerical` variant) and digit parsing succeed, but the trie `look_up`
returns `None`. -/
def trieNoMatch (adaptor_info : NumAdaptorInfo)
    (outcomes : List (Nat × List (Option Nat))) : Prop :=
  match adaptor_info with
  | NumAdaptorInfo.numerical n =>
    match getMajorityCombination outcomes with
    | Except.ok mres =>
      match getDigitsOutcome mres.1 with
      | Except.ok ds => n.look_up ds = Option.none
      | Except.error _ => False
    | Except.error _ => False
  | NumAdaptorInfo.numericalWithDifference n =>
    match outcomes.mapM (fun o => do
        let ds ← getDigitsOutcome o.2
        Except.ok (o.1, ds)) with
    | Except.ok paths => n.look_up paths = Option.none
    | Except.error _ => False


/-! ## Helper lemmas about `Contig` and the range scan -/

theorem contig_nil_inv {a b : Nat} (h : Contig a [] b) : a = b := by
  cases h; rfl

theorem contig_cons_start {a b : Nat} {r : RangePayout} {l : List RangePayout}
    (h : Contig a (r :: l) b) : r.start = a := by
  cases h; rfl

theorem contig_cons_inv {a b : Nat} {r : RangePayout} {l : List RangePayout}
    (h : Contig a (r :: l) b) : 1 ≤ r.count ∧ Contig (r.start + r.count) l b := by
  cases h with
  | cons _ _ _ hc ht => exact ⟨hc, ht⟩

theorem contig_snoc {a b : Nat} {l : List RangePayout} {r : RangePayout}
    (h : Contig a l b) (hc : 1 ≤ r.count) (hs : r.start = b) :
    Contig a (l ++ [r]) (r.start + r.count) := by
  revert hs
  induction h with
  | nil a =>
    intro hs
    subst hs
    simpa using Contig.cons r [] _ hc (Contig.nil _)
  | cons s l e hsc ht ih =>
    intro hs
    exact Contig.cons s _ _ hsc (ih hs)

theorem contig_chain {a b : Nat} {l : List RangePayout} (h : Contig a l b) :
    l.Chain' (fun r s => s.start = r.start + r.count) := by
  induction h with
  | nil a => exact List.chain'_nil
  | cons r l e hc ht ih =>
    cases l with
    | nil => simp
    | cons s t =>
      exact List.Chain'.cons (contig_cons_start ht) ih

theorem contig_count {a b : Nat} {l : List RangePayout} (h : Contig a l b) :
    ∀ r ∈ l, 1 ≤ r.count := by
  induction h with
  | nil a => intro r hr; cases hr
  | cons r l e hc ht ih =>
    intro s hs
    rcases List.mem_cons.mp hs with rfl | hs
    · exact hc
    · exact ih s hs

theorem contig_le {a b : Nat} {l : List RangePayout} (h : Contig a l b) : a ≤ b := by
  induction h with
  | nil a => exact le_rfl
  | cons r l e hc ht ih => omega

theorem contig_getLast_end {a b : Nat} {l : List RangePayout} (h : Contig a l b) :
    l.getLast?.map (fun r => r.start + r.count) = some b ∨ (l = [] ∧ a = b) := by
  induction h with
  | nil a => exact Or.inr ⟨rfl, rfl⟩
  | cons r l e hc ht ih =>
    left
    rcases ih with hlast | ⟨rfl, hab⟩
    · rcases l with _ | ⟨s, t⟩
      · simp at hlast
      · simpa [List.getLast?] using hlast
    · simp [hab]

theorem contig_unsnoc {a b : Nat} {l : List RangePayout} (h : Contig a l b)
    (hne : l ≠ []) :
    Contig a l.dropLast ((l.getLastD ⟨0, 0, ⟨0, 0⟩⟩).start) ∧
      (l.getLastD ⟨0, 0, ⟨0, 0⟩⟩).start + (l.getLastD ⟨0, 0, ⟨0, 0⟩⟩).count = b ∧
      1 ≤ (l.getLastD ⟨0, 0, ⟨0, 0⟩⟩).count := by
  induction h with
  | nil a => exact absurd rfl hne
  | cons r l e hc ht ih =>
    cases l with
    | nil =>
      refine ⟨?_, ?_, ?_⟩
      · simpa using Contig.nil r.start
      · simpa using (contig_nil_inv ht)
      · simpa using hc
    | cons s t =>
      have hne2 : s :: t ≠ [] := by simp
      obtain ⟨h1, h2, h3⟩ := ih hne2
      refine ⟨?_, ?_, ?_⟩
      · simpa [List.dropLast] using Contig.cons r _ _ hc h1
      · simpa [List.getLastD] using h2
      · simpa [List.getLastD] using h3

theorem rangeScanLoop_ne_nil (evalR : Nat → Nat) (tc : Nat) :
    ∀ (os : List Nat) (acc : List RangePayout) (cur : RangePayout),
      rangeScanLoop evalR tc os acc cur ≠ [] := by
  intro os
  induction os with
  | nil => intro acc cur; simp [rangeScanLoop]
  | cons o rest ih =>
    intro acc cur
    simp only [rangeScanLoop]
    split
    · exact ih _ _
    · exact ih _ _

theorem rangeScanLoop_contig (evalR : Nat → Nat) (tc : Nat) :
    ∀ (n : Nat) (acc : List RangePayout) (cur : RangePayout) (a e : Nat),
      Contig a acc cur.start → 1 ≤ cur.count → e = cur.start + cur.count + n →
      Contig a
        (rangeScanLoop evalR tc (List.range' (cur.start + cur.count) n) acc cur) e := by
  intro n
  induction n with
  | zero =>
    intro acc cur a e hacc hc he
    have : e = cur.start + cur.count := by omega
    subst this
    simpa [rangeScanLoop] using contig_snoc hacc hc rfl
  | succ n ih =>
    intro acc cur a e hacc hc he
    rw [List.range'_succ]
    simp only [rangeScanLoop]
    split
    · have h1 : List.range' (cur.start + cur.count + 1) n =
          List.range' (cur.start + (cur.count + 1)) n := by
        ring_nf
      rw [h1]
      exact ih acc { cur with count := cur.count + 1 } a e hacc
        (show 1 ≤ cur.count + 1 by omega)
        (show e = cur.start + (cur.count + 1) + n by omega)
    · refine ih (acc ++ [cur])
        ⟨cur.start + cur.count, 1,
          ⟨evalR (cur.start + cur.count), tc - evalR (cur.start + cur.count)⟩⟩
        a e ?_ ?_ ?_
      · exact contig_snoc hacc hc rfl
      · exact le_rfl
      · show e = cur.start + cur.count + 1 + n
        omega

theorem contig_start_lb {a b : Nat} {l : List RangePayout} (h : Contig a l b) :
    ∀ s ∈ l, a ≤ s.start := by
  induction h with
  | nil a => intro s hs; cases hs
  | cons r l e hc ht ih =>
    intro s hs
    rcases List.mem_cons.mp hs with rfl | hs
    · exact le_rfl
    · have := ih s hs
      omega

theorem contig_pairwise {a b : Nat} {l : List RangePayout} (h : Contig a l b) :
    l.Pairwise (fun r s => r.start < s.start) := by
  induction h with
  | nil a => exact List.Pairwise.nil
  | cons r l e hc ht ih =>
    refine List.Pairwise.cons ?_ ih
    intro s hs
    have := contig_start_lb ht s hs
    omega

theorem get_first_outcome_eq_point (p : PayoutFunctionPiece) :
    p.get_first_outcome = p.get_first_point.event_outcome := by
  cases p <;> rfl

theorem get_last_outcome_eq_point (p : PayoutFunctionPiece) :
    p.get_last_outcome = p.get_last_point.event_outcome := by
  cases p <;> rfl

theorem chain_le_getLastD (x : PayoutPoint) :
    ∀ (l : List PayoutPoint),
      (x :: l).Chain' (fun u v => u.event_outcome < v.event_outcome) →
      x.event_outcome ≤ (l.getLastD x).event_outcome := by
  intro l
  induction l generalizing x with
  | nil => intro _; exact le_rfl
  | cons y t ih =>
    intro h
    rcases List.chain'_cons.mp h with ⟨hxy, hrest⟩
    have := ih y hrest
    calc x.event_outcome ≤ y.event_outcome := le_of_lt hxy
      _ ≤ (t.getLastD y).event_outcome := this
      _ = ((y :: t).getLastD x).event_outcome := by rw [List.getLastD_cons]

theorem valid_first_le_last (p : PayoutFunctionPiece) (h : p.valid) :
    p.get_first_outcome ≤ p.get_last_outcome := by
  cases p with
  | polynomialPiece q =>
    rcases h with ⟨hlen, hchain⟩
    cases hq : q.payout_points with
    | nil => simp [hq] at hlen
    | cons x t =>
      rw [hq] at hchain
      have h2 := chain_le_getLastD x t hchain
      simp only [PayoutFunctionPiece.get_first_outcome, PayoutFunctionPiece.get_last_outcome,
        hq, List.headD_cons, List.getLastD_cons]
      exact h2
  | hyperbolaPiece h2 => exact le_of_lt h

theorem piece_to_range_payouts_ne_nil (piece : PayoutFunctionPiece)
    (ri : RoundingIntervals) (tc : Nat) (acc : List RangePayout) :
    piece.to_range_payouts ri tc acc ≠ [] := by
  simp only [PayoutFunctionPiece.to_range_payouts]
  cases hl : acc.getLast? with
  | none => exact rangeScanLoop_ne_nil _ _ _ _ _
  | some lastR => exact rangeScanLoop_ne_nil _ _ _ _ _

theorem piece_contig_fresh (piece : PayoutFunctionPiece) (ri : RoundingIntervals)
    (tc : Nat) (hfl : piece.get_first_outcome ≤ piece.get_last_outcome) :
    Contig piece.get_first_outcome (piece.to_range_payouts ri tc [])
      (piece.get_last_outcome + 1) := by
  have h := rangeScanLoop_contig
    (fun o => piece.get_rounded_payout o ri) tc
    (piece.get_last_outcome - piece.get_first_outcome)
    []
    ⟨piece.get_first_outcome, 1,
      ⟨piece.get_rounded_payout piece.get_first_outcome ri,
        tc - piece.get_rounded_payout piece.get_first_outcome ri⟩⟩
    piece.get_first_outcome (piece.get_last_outcome + 1)
    (Contig.nil _) le_rfl
    (show piece.get_last_outcome + 1 = piece.get_first_outcome + 1 +
      (piece.get_last_outcome - piece.get_first_outcome) by omega)
  exact h

theorem piece_contig_extend (piece : PayoutFunctionPiece) (ri : RoundingIntervals)
    (tc : Nat) (hfl : piece.get_first_outcome ≤ piece.get_last_outcome)
    {a : Nat} {acc : List RangePayout}
    (hacc : Contig a acc (piece.get_first_outcome + 1)) (hne : acc ≠ []) :
    Contig a (piece.to_range_payouts ri tc acc) (piece.get_last_outcome + 1) := by
  obtain ⟨y, hy⟩ : ∃ y, acc.getLast? = some y :=
    Option.isSome_iff_exists.mp (List.getLast?_isSome.mpr hne)
  have hyD : acc.getLastD ⟨0, 0, ⟨0, 0⟩⟩ = y := by
    simp [List.getLastD_eq_getLast?, hy]
  obtain ⟨h1, h2, h3⟩ := contig_unsnoc hacc hne
  rw [hyD] at h1 h2 h3
  simp only [PayoutFunctionPiece.to_range_payouts, hy]
  have hstart : piece.get_first_outcome + 1 = y.start + y.count := h2.symm
  rw [hstart]
  exact rangeScanLoop_contig _ _ _ _ _ _ _ h1 h3 (by omega)

theorem fold_pieces_contig (ri : RoundingIntervals) (tc : Nat) :
    ∀ (ps : List PayoutFunctionPiece) (acc : List RangePayout) (a w : Nat),
      (∀ p ∈ ps, p.valid) →
      (∀ p ∈ ps.head?, p.get_first_outcome = w) →
      ps.Chain' (fun p q => p.get_last_outcome = q.get_first_outcome) →
      Contig a acc (w + 1) → acc ≠ [] →
      Contig a (ps.foldl (fun rp piece => piece.to_range_payouts ri tc rp) acc)
          ((ps.foldl (fun _ p => p.get_last_outcome) w) + 1) ∧
        ps.foldl (fun rp piece => piece.to_range_payouts ri tc rp) acc ≠ [] := by
  intro ps
  induction ps with
  | nil => intro acc a w _ _ _ hacc hne; exact ⟨hacc, hne⟩
  | cons p rest ih =>
    intro acc a w hval hw hchain hacc hne
    have hfw : p.get_first_outcome = w := hw p (by simp)
    have hpv : p.valid := hval p (by simp)
    have hfl := valid_first_le_last p hpv
    have hacc2 : Contig a acc (p.get_first_outcome + 1) := by rw [hfw]; exact hacc
    have hstep := piece_contig_extend p ri tc hfl hacc2 hne
    have hstepne := piece_to_range_payouts_ne_nil p ri tc acc
    have hchain2 := (List.chain'_cons'.mp hchain).2
    have hw2 : ∀ q ∈ rest.head?, q.get_first_outcome = p.get_last_outcome := by
      intro q hq
      have := (List.chain'_cons'.mp hchain).1 q hq
      exact this.symm
    exact ih (p.to_range_payouts ri tc acc) a p.get_last_outcome
      (fun q hq => hval q (by simp [hq])) hw2 hchain2 hstep hstepne

theorem lastOutcomeFold :
    ∀ (l : List PayoutFunctionPiece) (x : PayoutFunctionPiece),
      l.foldl (fun _ p => p.get_last_outcome) x.get_last_outcome =
        (l.getLastD x).get_last_outcome := by
  intro l
  induction l with
  | nil => intro x; rfl
  | cons y t ih =>
    intro x
    simp only [List.foldl_cons, List.getLastD_cons]
    exact ih y

theorem contig_head_start {a b : Nat} {l : List RangePayout} (h : Contig a l b)
    (hne : l ≠ []) : l.head?.map (fun r => r.start) = some a := by
  cases l with
  | nil => exact absurd rfl hne
  | cons r t => simp [contig_cons_start h]

theorem getLast?_cons_getLastD {α : Type} (a : α) :
    ∀ (l : List α), (a :: l).getLast? = some (l.getLastD a) := by
  intro l
  induction l generalizing a with
  | nil => rfl
  | cons b t ih =>
    rw [List.getLastD_cons]
    exact List.getLast?_cons_cons.trans (ih b)

/-- C3: for every payout function (nonempty, with pieces satisfying the
constructor invariants and C0-continuous as `PayoutFunction::new` checks)
and every total collateral and well-formed rounding intervals, the output of
`to_range_payouts` is nonempty, its `(start, count)` ranges are contiguous
and non-overlapping with positive counts, its `start` values are strictly
ascending, the first range starts at the function's first outcome and the
last range ends just past the function's last outcome — so together the
ranges cover exactly `[first_outcome, last_outcome]`. -/
theorem to_range_payouts_covers (f : PayoutFunction) (tc : Nat) (ri : RoundingIntervals)
    (hne : f.payout_function_pieces ≠ [])
    (hval : ∀ p ∈ f.payout_function_pieces, p.valid)
    (hcont : f.payout_function_pieces.Chain'
      (fun p q => p.get_last_point = q.get_first_point))
    (hri : ri.intervals ≠ [] ∧
      (ri.intervals.headD ⟨0, 1⟩).begin_interval = 0 ∧
      ri.intervals.Chain' (fun i j => i.begin_interval ≤ j.begin_interval)) :
    f.to_range_payouts tc ri ≠ [] ∧
    (f.to_range_payouts tc ri).Chain' (fun r s => s.start = r.start + r.count) ∧
    (∀ r ∈ f.to_range_payouts tc ri, 1 ≤ r.count) ∧
    (f.to_range_payouts tc ri).Pairwise (fun r s => r.start < s.start) ∧
    (f.to_range_payouts tc ri).head?.map (fun r => r.start) =
      f.payout_function_pieces.head?.map (fun p => p.get_first_outcome) ∧
    (f.to_range_payouts tc ri).getLast?.map (fun r => r.start + r.count) =
      f.payout_function_pieces.getLast?.map (fun p => p.get_last_outcome + 1) := by
  cases hp : f.payout_function_pieces with
  | nil => exact absurd hp hne
  | cons p rest =>
    have hout_eq : f.to_range_payouts tc ri =
        rest.foldl (fun rp piece => piece.to_range_payouts ri tc rp)
          (p.to_range_payouts ri tc []) := by
      simp [PayoutFunction.to_range_payouts, hp]
    have hvp : p.valid := hval p (by simp [hp])
    have h0 : Contig p.get_first_outcome (p.to_range_payouts ri tc [])
        (p.get_last_outcome + 1) :=
      piece_contig_fresh p ri tc (valid_first_le_last p hvp)
    have h0ne := piece_to_range_payouts_ne_nil p ri tc []
    have houtcome : (p :: rest).Chain'
        (fun u v => u.get_last_outcome = v.get_first_outcome) := by
      rw [hp] at hcont
      refine hcont.imp ?_
      intro u v huv
      rw [get_last_outcome_eq_point, get_first_outcome_eq_point, huv]
    have hw : ∀ q ∈ rest.head?, q.get_first_outcome = p.get_last_outcome := by
      intro q hq
      exact ((List.chain'_cons'.mp houtcome).1 q hq).symm
    have hchainrest := (List.chain'_cons'.mp houtcome).2
    obtain ⟨hfold, hfoldne⟩ := fold_pieces_contig ri tc rest
      (p.to_range_payouts ri tc []) p.get_first_outcome p.get_last_outcome
      (fun q hq => hval q (by simp [hp, hq])) hw hchainrest h0 h0ne
    rw [hout_eq]
    refine ⟨hfoldne, contig_chain hfold, contig_count hfold, contig_pairwise hfold,
      ?_, ?_⟩
    · rw [contig_head_start hfold hfoldne]
      rfl
    · rcases contig_getLast_end hfold with hlast | ⟨hnil, _⟩
      · rw [hlast, getLast?_cons_getLastD p rest, lastOutcomeFold rest p]
        rfl
      · exact absurd hnil hfoldne

/-! ## Concrete evaluation lemmas (rationals are not kernel-reducible, so
concrete payout computations are carried out with `simp` / `norm_num`). -/

theorem rangeScanLoop_const (evalR : Nat → Nat) (tc : Nat) :
    ∀ (os : List Nat) (acc : List RangePayout) (cur : RangePayout),
      (∀ o ∈ os, evalR o = cur.payout.offer) →
      rangeScanLoop evalR tc os acc cur =
        acc ++ [{ cur with count := cur.count + os.length }] := by
  intro os
  induction os with
  | nil => intro acc cur _; simp [rangeScanLoop]
  | cons o rest ih =>
    intro acc cur h
    have ho : cur.payout.offer = evalR o := (h o (by simp)).symm
    simp only [rangeScanLoop, if_pos ho]
    rw [ih acc { cur with count := cur.count + 1 }
      (by intro q hq; exact h q (by simp [hq]))]
    have hcnt : cur.count + 1 + rest.length = cur.count + (o :: rest).length := by
      simp
      omega
    rw [hcnt]

theorem flatPiece_eval (o : Nat) : flatPiece.evaluate o = 10 := by
  simp only [flatPiece, PayoutFunctionPiece.evaluate,
    PolynomialPayoutCurvePiece.evaluate, PayoutPoint.get_outcome_payout]
  norm_num [List.range_succ, List.foldl_cons]
  ring

theorem riUnit_round_natCast (o k : Nat) : riUnit.round o (k : ℚ) = k := by
  simp only [RoundingIntervals.round, riUnit, ratTrunc, ratRound]
  norm_num

theorem flatPiece_rounded (o : Nat) :
    flatPiece.get_rounded_payout o riUnit = 10 := by
  rw [PayoutFunctionPiece.get_rounded_payout, flatPiece_eval]
  have h10 : (10 : ℚ) = ((10 : Nat) : ℚ) := by norm_num
  rw [h10, riUnit_round_natCast]

theorem flat_to_range :
    flatPiece.to_range_payouts riUnit 10 [] =
      [(⟨10, 11, ⟨10, 0⟩⟩ : RangePayout)] := by
  simp only [PayoutFunctionPiece.to_range_payouts, List.getLast?_nil, flatPiece_rounded]
  rw [rangeScanLoop_const _ 10 _ _ _ (by intro o ho; rfl)]
  simp [flatPiece, PayoutFunctionPiece.get_first_outcome,
    PayoutFunctionPiece.get_last_outcome]

theorem cexPiece1_eval (o : Nat) : cexPiece1.evaluate o = 0 := by
  simp only [cexPiece1, PayoutFunctionPiece.evaluate,
    PolynomialPayoutCurvePiece.evaluate, PayoutPoint.get_outcome_payout]
  norm_num [List.range_succ, List.foldl_cons]

theorem cexPiece1_rounded (o : Nat) :
    cexPiece1.get_rounded_payout o riUnit = 0 := by
  rw [PayoutFunctionPiece.get_rounded_payout, cexPiece1_eval]
  have h0 : (0 : ℚ) = ((0 : Nat) : ℚ) := by norm_num
  rw [h0, riUnit_round_natCast]

theorem cexPiece2_eval (o : Nat) (ho : 0 < o) :
    cexPiece2.evaluate o = (o : ℚ) + 4 / (o : ℚ) - 4 := by
  have hne : ((o : ℚ)) ≠ 0 := by
    have : (0 : ℚ) < (o : ℚ) := by exact_mod_cast ho
    exact ne_of_gt this
  have hnn : (0 : ℚ) ≤ (o : ℚ) := by positivity
  simp only [cexPiece2, PayoutFunctionPiece.evaluate,
    HyperbolaPayoutCurvePiece.evaluate]
  have hsq : ((o : ℚ) - 0) ^ 2 - 4 * 1 * 0 = (o : ℚ) * (o : ℚ) := by ring
  rw [hsq, Rat.sqrt_eq, abs_of_nonneg hnn]
  simp only [eq_self_iff_true, if_true]
  field_simp
  ring

theorem cexPiece2_rounded_one :
    cexPiece2.get_rounded_payout 1 riUnit = 1 := by
  rw [PayoutFunctionPiece.get_rounded_payout, cexPiece2_eval 1 (by norm_num)]
  have h1 : ((1 : Nat) : ℚ) + 4 / ((1 : Nat) : ℚ) - 4 = ((1 : Nat) : ℚ) := by
    norm_num
  rw [h1, riUnit_round_natCast]

theorem cexPiece2_rounded_two :
    cexPiece2.get_rounded_payout 2 riUnit = 0 := by
  rw [PayoutFunctionPiece.get_rounded_payout, cexPiece2_eval 2 (by norm_num)]
  have h1 : ((2 : Nat) : ℚ) + 4 / ((2 : Nat) : ℚ) - 4 = ((0 : Nat) : ℚ) := by
    norm_num
  rw [h1, riUnit_round_natCast]

theorem riUnit_round_third (o : Nat) : riUnit.round o (1 / 3 : ℚ) = 0 := by
  simp only [RoundingIntervals.round, riUnit, ratTrunc, ratRound]
  norm_num

theorem cexPiece2_rounded_three :
    cexPiece2.get_rounded_payout 3 riUnit = 0 := by
  rw [PayoutFunctionPiece.get_rounded_payout, cexPiece2_eval 3 (by norm_num)]
  have h1 : ((3 : Nat) : ℚ) + 4 / ((3 : Nat) : ℚ) - 4 = (1 / 3 : ℚ) := by
    norm_num
  rw [h1, riUnit_round_third]

theorem cex_p1_to_range :
    cexPiece1.to_range_payouts riUnit 10 [] =
      [(⟨0, 2, ⟨0, 10⟩⟩ : RangePayout)] := by
  simp only [PayoutFunctionPiece.to_range_payouts, List.getLast?_nil,
    cexPiece1_rounded]
  rw [rangeScanLoop_const _ 10 _ _ _ (by intro o ho; rfl)]
  simp [cexPiece1, PayoutFunctionPiece.get_first_outcome,
    PayoutFunctionPiece.get_last_outcome]

theorem cex_two_piece_to_range :
    (PayoutFunction.mk [cexPiece1, cexPiece2]).to_range_payouts 10 riUnit =
      [(⟨0, 4, ⟨0, 10⟩⟩ : RangePayout)] := by
  have hsplit : (PayoutFunction.mk [cexPiece1, cexPiece2]).to_range_payouts 10 riUnit =
      cexPiece2.to_range_payouts riUnit 10 (cexPiece1.to_range_payouts riUnit 10 []) := by
    simp [PayoutFunction.to_range_payouts]
  rw [hsplit, cex_p1_to_range]
  simp only [PayoutFunctionPiece.to_range_payouts, List.getLast?_singleton]
  have hfirst : cexPiece2.get_first_outcome = 1 := rfl
  have hlast : cexPiece2.get_last_outcome = 3 := rfl
  rw [hfirst, hlast]
  have hos : List.range' (1 + 1) (3 - 1) = [2, 3] := rfl
  rw [hos]
  rw [rangeScanLoop_const _ 10 _ _ _ ?_]
  · simp
  · intro o ho
    rcases List.mem_pair.mp ho with rfl | rfl
    · exact cexPiece2_rounded_two
    · exact cexPiece2_rounded_three

/-- C4, counterexample: on the flat polynomial `[(10,10,0),(20,10,0)]` with
total collateral 10 and rounding modulus 1, `to_range_payouts` from an empty
vector does not produce `[{start:10, count:1, payout:{offer:10, accept:0}}]`
as the claim states. -/
theorem flat_piece_count_cex :
    flatPiece.to_range_payouts riUnit 10 [] ≠
      [(⟨10, 1, ⟨10, 0⟩⟩ : RangePayout)] := by
  rw [flat_to_range]
  simp

/-- C4, amended: the flat polynomial produces exactly one `RangePayout`, but
with `count = 11` (the outcomes `10..20` merged into a single range), not
`count = 1`. -/
theorem flat_piece_range_payouts :
    flatPiece.to_range_payouts riUnit 10 [] =
      [(⟨10, 11, ⟨10, 0⟩⟩ : RangePayout)] :=
  flat_to_range

/-- Witness for `to_range_payouts_covers` (claim C3): the flat polynomial
test case of the repository, whose single range `{10, 11, {10, 0}}` covers
`[10, 20]`. -/
theorem to_range_payouts_covers_witness :
    ((PayoutFunction.mk [flatPiece]).to_range_payouts 10 riUnit).Pairwise
      (fun r s => r.start < s.start) ∧
    ((PayoutFunction.mk [flatPiece]).to_range_payouts 10 riUnit).Chain'
      (fun r s => s.start = r.start + r.count) ∧
    ((PayoutFunction.mk [flatPiece]).to_range_payouts 10 riUnit).head?.map
      (fun r => r.start) =
      ((PayoutFunction.mk [flatPiece]).payout_function_pieces.head?.map
        (fun p => p.get_first_outcome)) := by
  have hval : ∀ p ∈ (PayoutFunction.mk [flatPiece]).payout_function_pieces, p.valid := by
    intro p hp
    rw [List.mem_singleton] at hp
    subst hp
    exact ⟨by norm_num [flatPiece], List.chain'_cons.mpr (by
      refine ⟨by norm_num, List.chain'_singleton _⟩)⟩
  have h := to_range_payouts_covers ⟨[flatPiece]⟩ 10 riUnit
    (List.cons_ne_nil _ _) hval (List.chain'_singleton _)
    ⟨List.cons_ne_nil _ _, rfl, List.chain'_singleton _⟩
  exact ⟨h.2.2.2.1, h.2.1, h.2.2.2.2.1⟩

/-- C5, counterexample: for the two-piece function of `cexPiece1` (flat zero
polynomial on `[0,1]`) and `cexPiece2` (hyperbola on `[1,3]` whose first
rounded payout `1` differs from the popped range's offer `0`), the claimed
boundary behaviour fails: the output `[{0, 4, {0, 10}}]` neither contains
the popped range `{0, 2, {0, 10}}` unchanged nor any range starting at the
boundary outcome `1`. -/
theorem boundary_behaviour_cex :
    ¬ claimedBoundaryBehaviour cexPiece1 cexPiece2 10 riUnit := by
  unfold claimedBoundaryBehaviour
  rw [cex_p1_to_range]
  simp only [List.getLast?_singleton]
  have hfp : cexPiece2.get_rounded_payout cexPiece2.get_first_outcome riUnit = 1 :=
    cexPiece2_rounded_one
  rw [hfp]
  rw [if_neg (by norm_num)]
  rw [cex_two_piece_to_range]
  rintro ⟨hmem, -⟩
  simp at hmem

/-- C5, amended: at a piece boundary `to_range_payouts` pops the last range
of the previous piece and resumes the scan at `boundary + 1` with the popped
range as the current range; the payout of the next piece at the boundary
outcome itself is never evaluated, so the popped range is extended while the
following rounded payouts equal its offer, and a new range otherwise starts
at the first differing outcome (which is strictly greater than the
boundary). -/
theorem boundary_pop_and_continue (p1 p2 : PayoutFunctionPiece) (tc : Nat)
    (ri : RoundingIntervals)
    (hne : p1.to_range_payouts ri tc [] ≠ []) :
    (PayoutFunction.mk [p1, p2]).to_range_payouts tc ri =
      rangeScanLoop (fun o => p2.get_rounded_payout o ri) tc
        (List.range' (p2.get_first_outcome + 1)
          (p2.get_last_outcome - p2.get_first_outcome))
        (p1.to_range_payouts ri tc []).dropLast
        ((p1.to_range_payouts ri tc []).getLastD ⟨0, 0, ⟨0, 0⟩⟩) := by
  obtain ⟨y, hy⟩ : ∃ y, (p1.to_range_payouts ri tc []).getLast? = some y :=
    Option.isSome_iff_exists.mp (List.getLast?_isSome.mpr hne)
  have hyD : (p1.to_range_payouts ri tc []).getLastD ⟨0, 0, ⟨0, 0⟩⟩ = y := by
    simp [List.getLastD_eq_getLast?, hy]
  have hsplit : (PayoutFunction.mk [p1, p2]).to_range_payouts tc ri =
      p2.to_range_payouts ri tc (p1.to_range_payouts ri tc []) := by
    simp [PayoutFunction.to_range_payouts]
  rw [hsplit, hyD]
  generalize hacc : p1.to_range_payouts ri tc [] = acc at hy ⊢
  simp only [PayoutFunctionPiece.to_range_payouts, hy]

/-- Witness for `boundary_pop_and_continue` at the C5 counterexample
pieces. -/
theorem boundary_pop_and_continue_witness :
    (PayoutFunction.mk [cexPiece1, cexPiece2]).to_range_payouts 10 riUnit =
      rangeScanLoop (fun o => cexPiece2.get_rounded_payout o riUnit) 10
        (List.range' (cexPiece2.get_first_outcome + 1)
          (cexPiece2.get_last_outcome - cexPiece2.get_first_outcome))
        (cexPiece1.to_range_payouts riUnit 10 []).dropLast
        ((cexPiece1.to_range_payouts riUnit 10 []).getLastD ⟨0, 0, ⟨0, 0⟩⟩) :=
  boundary_pop_and_continue cexPiece1 cexPiece2 10 riUnit
    (by rw [cex_p1_to_range]; simp)

/-- C7: `PayoutFunction::new` fails with `InvalidParameters` exactly when
some consecutive pair of pieces has the last `PayoutPoint` of the first
differing from the first `PayoutPoint` of the second in some field
(`event_outcome`, `outcome_payout` or `extra_precision`), and otherwise
returns the function with the pieces stored unchanged. (The hypothesis
restricts to pieces on which the source's `payout_points[0]` /
`last().unwrap()` do not panic.) -/
theorem payout_function_new_continuity (pieces : List PayoutFunctionPiece)
    (hpts : ∀ pc ∈ pieces, pc.has_end_points) :
    (PayoutFunction.new pieces = .error .invalidParameters ↔
      ∃ cn ∈ pieces.zip pieces.tail,
        (cn.1.get_last_point.event_outcome ≠ cn.2.get_first_point.event_outcome ∨
          cn.1.get_last_point.outcome_payout ≠ cn.2.get_first_point.outcome_payout ∨
          cn.1.get_last_point.extra_precision ≠ cn.2.get_first_point.extra_precision)) ∧
    (PayoutFunction.new pieces = .ok ⟨pieces⟩ ↔
      ¬ ∃ cn ∈ pieces.zip pieces.tail,
        (cn.1.get_last_point.event_outcome ≠ cn.2.get_first_point.event_outcome ∨
          cn.1.get_last_point.outcome_payout ≠ cn.2.get_first_point.outcome_payout ∨
          cn.1.get_last_point.extra_precision ≠ cn.2.get_first_point.extra_precision)) := by
  have hdiff : ∀ u v : PayoutPoint,
      (u.event_outcome ≠ v.event_outcome ∨ u.outcome_payout ≠ v.outcome_payout ∨
        u.extra_precision ≠ v.extra_precision) ↔ u ≠ v := by
    intro u v
    cases u
    cases v
    simp only [ne_eq, PayoutPoint.mk.injEq]
    tauto
  unfold PayoutFunction.new
  cases hall : (pieces.zip pieces.tail).all
      (fun cn => cn.1.get_last_point = cn.2.get_first_point) with
  | true =>
    have hforall := List.all_eq_true.mp hall
    constructor
    · simp only [hall]
      constructor
      · intro h
        exact absurd h (by simp)
      · rintro ⟨cn, hmem, hd⟩
        have := of_decide_eq_true (hforall cn hmem)
        exact absurd this ((hdiff cn.1.get_last_point cn.2.get_first_point).mp hd)
    · simp only [hall]
      constructor
      · intro _
        rintro ⟨cn, hmem, hd⟩
        have := of_decide_eq_true (hforall cn hmem)
        exact absurd this ((hdiff cn.1.get_last_point cn.2.get_first_point).mp hd)
      · intro _
        rfl
  | false =>
    have hnot : ¬ ∀ cn ∈ pieces.zip pieces.tail,
        cn.1.get_last_point = cn.2.get_first_point := by
      intro hf
      have : (pieces.zip pieces.tail).all
          (fun cn => cn.1.get_last_point = cn.2.get_first_point) = true :=
        List.all_eq_true.mpr (fun x hx => decide_eq_true (hf x hx))
      rw [this] at hall
      cases hall
    push_neg at hnot
    obtain ⟨cn, hmem, hd⟩ := hnot
    have hex : ∃ cn ∈ pieces.zip pieces.tail,
        (cn.1.get_last_point.event_outcome ≠ cn.2.get_first_point.event_outcome ∨
          cn.1.get_last_point.outcome_payout ≠ cn.2.get_first_point.outcome_payout ∨
          cn.1.get_last_point.extra_precision ≠ cn.2.get_first_point.extra_precision) :=
      ⟨cn, hmem, (hdiff cn.1.get_last_point cn.2.get_first_point).mpr hd⟩
    constructor
    · simp only [hall]
      exact ⟨fun _ => hex, fun _ => rfl⟩
    · simp only [hall]
      constructor
      · intro h
        exact absurd h (by simp)
      · intro hne2
        exact absurd hex hne2

/-- Witness for `payout_function_new_continuity`: `flatPiece` followed by
`gapPiece` has a boundary gap (last point `(20,10,0)` vs first point
`(30,0,0)`) and is rejected; `[flatPiece]` alone is accepted. -/
theorem payout_function_new_continuity_witness :
    PayoutFunction.new [flatPiece, gapPiece] = .error .invalidParameters ∧
    PayoutFunction.new [flatPiece] = .ok ⟨[flatPiece]⟩ := by
  constructor
  · refine (payout_function_new_continuity [flatPiece, gapPiece] ?_).1.mpr ?_
    · intro pc hpc
      rcases List.mem_cons.mp hpc with rfl | hpc2
      · exact (by simp [flatPiece, PayoutFunctionPiece.has_end_points])
      · rw [List.mem_singleton] at hpc2
        subst hpc2
        exact (by simp [gapPiece, PayoutFunctionPiece.has_end_points])
    · refine ⟨(flatPiece, gapPiece), by simp, Or.inl ?_⟩
      show (20 : Nat) ≠ 30
      norm_num
  · refine (payout_function_new_continuity [flatPiece] ?_).2.mpr ?_
    · intro pc hpc
      rw [List.mem_singleton] at hpc
      subst hpc
      exact (by simp [flatPiece, PayoutFunctionPiece.has_end_points])
    · rintro ⟨cn, hmem, -⟩
      simp at hmem

/-- C8: `HyperbolaPayoutCurvePiece::new` fails with `InvalidParameters`
when `a * b = d * c` or when the left end point's outcome is not strictly
below the right end point's, and otherwise stores all nine arguments
unchanged. -/
theorem hyperbola_new_validation (l r : PayoutPoint) (pos : Bool)
    (tx ty a b c d : ℚ) :
    ((a * b = d * c ∨ r.event_outcome ≤ l.event_outcome) →
      HyperbolaPayoutCurvePiece.new l r pos tx ty a b c d =
        .error .invalidParameters) ∧
    (¬ (a * b = d * c ∨ r.event_outcome ≤ l.event_outcome) →
      HyperbolaPayoutCurvePiece.new l r pos tx ty a b c d =
        .ok ⟨l, r, pos, tx, ty, a, b, c, d⟩) := by
  constructor
  · intro h
    unfold HyperbolaPayoutCurvePiece.new
    by_cases hab : a * b = d * c
    · rw [if_pos hab]
    · rw [if_neg hab]
      have hle : r.event_outcome ≤ l.event_outcome := h.resolve_left hab
      rw [if_pos hle]
  · intro h
    push_neg at h
    unfold HyperbolaPayoutCurvePiece.new
    rw [if_neg h.1, if_neg (by omega)]

/-- Witness for `hyperbola_new_validation`: `a*b = 1*2 = 2*1 = d*c` is
rejected; a valid hyperbola (the C5 counterexample's parameters) is stored
unchanged. -/
theorem hyperbola_new_validation_witness :
    HyperbolaPayoutCurvePiece.new ⟨0, 0, 0⟩ ⟨1, 0, 0⟩ true 0 0 1 2 1 2 =
      .error .invalidParameters ∧
    HyperbolaPayoutCurvePiece.new ⟨1, 0, 0⟩ ⟨3, 0, 0⟩ true 0 (-4) 1 0 1 4 =
      .ok ⟨⟨1, 0, 0⟩, ⟨3, 0, 0⟩, true, 0, -4, 1, 0, 1, 4⟩ :=
  ⟨(hyperbola_new_validation ⟨0, 0, 0⟩ ⟨1, 0, 0⟩ true 0 0 1 2 1 2).1
      (Or.inl (by norm_num)),
    (hyperbola_new_validation ⟨1, 0, 0⟩ ⟨3, 0, 0⟩ true 0 (-4) 1 0 1 4).2
      (not_or.mpr ⟨by norm_num, by norm_num⟩)⟩

/-- C6: the MultiTrie with `nb_tries = 2`, `nb_required = 2`, `base = 2`,
`min_support_exp = 2`, `max_error_exp = 3`, `nb_digits = 5` after a single
successful insert of `[0,1,1,1]`: lookup succeeds on
`[(0,[0,1,1,1,1]),(1,[0,1,1,1,1])]` and `[(0,[0,1,1,1,1]),(1,[1,0,0,1,1])]`,
fails on `[(0,[1,1,1,1,1]),(1,[0,1,1,1,1])]`, and iteration yields exactly
`[(0,[0,1,1,1]),(1,[0,1])]` then `[(0,[0,1,1,1]),(1,[1,0,0])]`. -/
theorem multi_trie_2_of_2_scenario :
    ((MultiTrie.new Nat 2 2 2 2 3 5 true).insert [0, 1, 1, 1] constCallback2).isOk
        = true ∧
    (mt2of2.look_up [(0, [0, 1, 1, 1, 1]), (1, [0, 1, 1, 1, 1])]).isSome = true ∧
    (mt2of2.look_up [(0, [0, 1, 1, 1, 1]), (1, [1, 0, 0, 1, 1])]).isSome = true ∧
    mt2of2.look_up [(0, [1, 1, 1, 1, 1]), (1, [0, 1, 1, 1, 1])] = Option.none ∧
    mt2of2.iterate.map (fun r => r.path) =
      [[(0, [0, 1, 1, 1]), (1, [0, 1])], [(0, [0, 1, 1, 1]), (1, [1, 0, 0])]] :=
  ⟨by decide, by decide, by decide, by decide, by decide⟩

/-- C10: `MultiTrie::look_up` returns `None` as soon as fewer than
`nb_required` paths are supplied — for every trie, in particular for every
arena content, so the store is never examined. -/
theorem look_up_short_paths_none (T : Type) (t : MultiTrie T)
    (paths : List (Nat × List Nat)) (h : paths.length < t.nb_required) :
    t.look_up paths = Option.none := by
  unfold MultiTrie.look_up
  rw [if_pos h]

/-- Witness for `look_up_short_paths_none`: a single path supplied to a
2-of-2 trie. -/
theorem look_up_short_paths_none_witness :
    mt2of2.look_up [(0, [0, 1, 1, 1, 1])] = Option.none :=
  look_up_short_paths_none Nat mt2of2 [(0, [0, 1, 1, 1, 1])] (by decide)

/-- C1, counterexample: for a numerical-with-difference contract whose
multi-trie has no entry matching the observed outcomes,
`get_range_info_for_outcome` returns `Err(InvalidState)`, not `Ok(None)` as
the claim states. -/
theorem get_range_info_no_match_cex :
    get_range_info_for_outcome 1 1
        (NumAdaptorInfo.numericalWithDifference mtEmptyRI)
        [(0, [Option.some 0])] =
      Except.error DlcError.invalidState ∧
    get_range_info_for_outcome 1 1
        (NumAdaptorInfo.numericalWithDifference mtEmptyRI)
        [(0, [Option.some 0])] ≠
      Except.ok Option.none := by
  refine ⟨rfl, ?_⟩
  intro h
  rw [show get_range_info_for_outcome 1 1
      (NumAdaptorInfo.numericalWithDifference mtEmptyRI)
      [(0, [Option.some 0])] = Except.error DlcError.invalidState from rfl] at h
  exact Except.noConfusion h

theorem exceptBind_ok {E A B : Type} (a : A) (f : A → Except E B) :
    (Except.ok a >>= f) = f a := rfl

/-- C1, amended: for both numerical adaptor-info variants, whenever the
preliminary steps succeed (majority voting and digit parsing for
`Numerical`, digit parsing for `NumericalWithDifference`) but the trie
lookup finds no entry matching the observed outcomes,
`get_range_info_for_outcome` returns `Err(InvalidState)`; `Ok(None)` is
never returned on the numerical paths. -/
theorem get_range_info_no_match_invalid_state (nb_oracles threshold : Nat)
    (adaptor_info : NumAdaptorInfo)
    (outcomes : List (Nat × List (Option Nat)))
    (h : trieNoMatch adaptor_info outcomes) :
    get_range_info_for_outcome nb_oracles threshold adaptor_info outcomes =
      Except.error DlcError.invalidState := by
  cases adaptor_info with
  | numerical n =>
    simp only [trieNoMatch] at h
    cases hm : getMajorityCombination outcomes with
    | error e => simp only [hm] at h
    | ok mres =>
      simp only [hm] at h
      cases hd : getDigitsOutcome mres.1 with
      | error e => simp only [hd] at h
      | ok ds =>
        simp only [hd] at h
        simp only [get_range_info_for_outcome, hm, exceptBind_ok, hd, h]
  | numericalWithDifference n =>
    simp only [trieNoMatch] at h
    cases hp : outcomes.mapM (fun o => do
        let ds ← getDigitsOutcome o.2
        Except.ok (o.1, ds)) with
    | error e => simp only [hp] at h
    | ok paths =>
      simp only [hp] at h
      simp only [get_range_info_for_outcome, hp, exceptBind_ok, h]

/-- Witness for `get_range_info_no_match_invalid_state` at a concrete
no-match input. -/
theorem get_range_info_no_match_invalid_state_witness :
    get_range_info_for_outcome 1 1
        (NumAdaptorInfo.numericalWithDifference mtEmptyRI)
        [(0, [Option.some 1])] =
      Except.error DlcError.invalidState :=
  get_range_info_no_match_invalid_state 1 1
    (NumAdaptorInfo.numericalWithDifference mtEmptyRI)
    [(0, [Option.some 1])] (by exact rfl)

theorem iter_from_tomb {T : Type} (store : List (MultiTrieNode T)) :
    ∀ (fuel ti : Nat),
      MultiTrie.iter_from store fuel ti MultiTrieNode.tombstone = [] := by
  intro fuel ti
  cases fuel <;> rfl

theorem iter_from_conv {T : Type} (store : List (MultiTrieNode T)) :
    ∀ (fuel ti : Nat) (n : MultiTrieNode T),
      MultiTrie.iter_from
          (store.map (fun m => MultiTrieNode.from_data m.get_data)) fuel ti
          (MultiTrieNode.from_data n.get_data) =
        MultiTrie.iter_from store fuel ti n := by
  intro fuel
  induction fuel with
  | zero => intro ti n; rfl
  | succ fuel ih =>
    intro ti n
    cases n with
    | tombstone =>
      show MultiTrie.iter_from _ (fuel + 1) ti
          (MultiTrieNode.leaf ⟨0, []⟩) = _
      simp [MultiTrie.iter_from, iter_from_tomb]
    | leaf d =>
      rfl
    | node d =>
      show MultiTrie.iter_from
          (store.map (fun m => MultiTrieNode.from_data m.get_data)) (fuel + 1) ti
          (MultiTrieNode.node d) =
        MultiTrie.iter_from store (fuel + 1) ti (MultiTrieNode.node d)
      simp only [MultiTrie.iter_from]
      refine congrArg d.entries.flatMap (funext ?_)
      intro e
      refine congrArg e.2.flatMap (funext ?_)
      intro info
      refine congrArg (List.map _) ?_
      have hD : ∀ (l : List (MultiTrieNode T)) (f : MultiTrieNode T → MultiTrieNode T)
          (i : Nat), (l.map f)[i]? = l[i]?.map f := by
        intro l f i
        exact List.getElem?_map f l i
      rw [List.getD_eq_getElem?_getD, List.getD_eq_getElem?_getD, hD]
      cases hidx : store[info.store_index]? with
      | none => exact (iter_from_tomb _ _ _).trans (iter_from_tomb _ _ _).symm
      | some m =>
        simp only [Option.map_some, Option.getD_some]
        exact ih info.trie_index m

/-- C9: restoring a multi-trie from its dump yields identical iterator
output — for every multi-trie (in particular for every trie populated by
successful insertions): `from_dump ∘ dump` preserves every arena slot's
observable content and all parameters, so the depth-first iteration
sequences coincide. -/
theorem dump_roundtrip_iterate (T : Type) (t : MultiTrie T) :
    (MultiTrie.from_dump t.dump).iterate = t.iterate := by
  show (List.range
      ((MultiTrie.from_dump t.dump).nb_tries -
        (MultiTrie.from_dump t.dump).nb_required + 1)).flatMap _ = _
  have hparams : (MultiTrie.from_dump t.dump).nb_tries = t.nb_tries ∧
      (MultiTrie.from_dump t.dump).nb_required = t.nb_required := ⟨rfl, rfl⟩
  have hstore : (MultiTrie.from_dump t.dump).store =
      t.store.map (fun m => MultiTrieNode.from_data m.get_data) := by
    show (t.store.map MultiTrieNode.get_data).map MultiTrieNode.from_data = _
    rw [List.map_map]
    rfl
  unfold MultiTrie.iterate
  rw [hparams.1, hparams.2, hstore, List.length_map]
  refine congrArg (List.range (t.nb_tries - t.nb_required + 1)).flatMap (funext ?_)
  intro i
  have hD : (t.store.map (fun m => MultiTrieNode.from_data m.get_data))[i]? =
      t.store[i]?.map (fun m => MultiTrieNode.from_data m.get_data) :=
    List.getElem?_map _ t.store i
  rw [List.getD_eq_getElem?_getD, List.getD_eq_getElem?_getD, hD]
  cases hidx : t.store[i]? with
  | none => exact (iter_from_tomb _ _ _).trans (iter_from_tomb _ _ _).symm
  | some m =>
    simp only [Option.map_some, Option.getD_some]
    exact iter_from_conv t.store t.store.length i m

/-- C2, counterexample: after the two successful insertions of `[0,0] ↦ 1`
and `[0,0,1] ↦ 2` into a 1-of-1 trie, iteration yields the pair
`([(0,[0,0,1])], 2)`, but `look_up` on that very path returns the value `1`
(the lexicographically first stored prefix match `[0,0]`), so the
iterate-then-lookup property fails. -/
theorem iterate_lookup_mismatch_cex :
    ((MultiTrie.new Nat 1 1 2 2 3 5 true).insertAll
        [([0, 0], 1), ([0, 0, 1], 2)]).isOk = true ∧
    mtPrefixCex.iterate.getD 1 ⟨0, []⟩ =
      (⟨2, [(0, [0, 0, 1])]⟩ : MLookupResult Nat) ∧
    (mtPrefixCex.look_up [(0, [0, 0, 1])]).map (fun r => r.value) =
      Option.some 1 ∧
    ¬ (∀ it ∈ mtPrefixCex.iterate,
        (mtPrefixCex.look_up it.path).map (fun r => r.value) =
          Option.some it.value) :=
  ⟨by decide, by decide, by decide, by decide⟩

theorem exceptBind_error {E A B : Type} (e : E) (f : A → Except E B) :
    (Except.error e >>= f) = Except.error e := rfl

theorem exceptMap_ok {E A B : Type} (a : A) (f : A → B) :
    (Except.ok a : Except E A).map f = Except.ok (f a) := rfl

theorem digitInsertGo_const {T σ : Type} (path : List Nat) (v : T)
    (cb : σ → Option T → Except DlcError (σ × T))
    (hcb : ∀ s old, cb s old = Except.ok (s, v)) :
    ∀ (es : List (List Nat × T)) (s : σ),
      digitInsertGo path cb es s = Except.ok (s, digitInsertPure path v es) := by
  intro es
  induction es with
  | nil =>
    intro s
    simp [digitInsertGo, digitInsertPure, hcb, exceptBind_ok]
  | cons e rest ih =>
    intro s
    obtain ⟨q, w⟩ := e
    by_cases h1 : path = q
    · simp [digitInsertGo, digitInsertPure, h1, hcb, exceptBind_ok]
    · by_cases h2 : lexLt path q
      · simp [digitInsertGo, digitInsertPure, h1, h2, hcb, exceptBind_ok]
      · simp [digitInsertGo, digitInsertPure, h1, h2, hcb, exceptBind_ok, ih]

theorem digitTrie_insert_const {T σ : Type} (t : DigitTrie T) (path : List Nat)
    (v : T) (cb : σ → Option T → Except DlcError (σ × T))
    (hcb : ∀ s old, cb s old = Except.ok (s, v)) (s : σ)
    (hvalid : path.all (fun d => decide (d < t.base)) = true) :
    t.insert path cb s =
      Except.ok (s, ⟨t.base, digitInsertPure path v t.entries⟩) := by
  unfold DigitTrie.insert
  rw [if_pos hvalid, digitInsertGo_const path v cb hcb t.entries s]
  rfl

theorem digitTrie_insert_invalid {T σ : Type} (t : DigitTrie T) (path : List Nat)
    (cb : σ → Option T → Except DlcError (σ × T)) (s : σ)
    (hvalid : ¬ path.all (fun d => decide (d < t.base)) = true) :
    t.insert path cb s = Except.error DlcError.invalidParameters := by
  unfold DigitTrie.insert
  rw [if_neg hvalid]

theorem combinationsAux_one :
    ∀ xs : List Nat, combinationsAux xs 1 = xs.map (fun x => [x]) := by
  intro xs
  induction xs with
  | nil => rfl
  | cons x rest ih => simp [combinationsAux, ih]

theorem combinationsList_one (n : Nat) :
    combinationsList n 1 = (List.range' 0 n).map (fun i => [i]) := by
  rw [combinationsList, combinationsAux_one, List.range_eq_range']

theorem getD_rep_append {α : Type} (j k : Nat) (a b d : α) :
    (List.replicate j a ++ List.replicate (k + 1) b).getD j d = b := by
  induction j with
  | zero => simp [List.replicate_succ]
  | succ j ih => simpa [List.replicate_succ] using ih

theorem set_rep_append {α : Type} (j k : Nat) (a b c : α) :
    (List.replicate j a ++ List.replicate (k + 1) b).set j c =
      List.replicate j a ++ c :: List.replicate k b := by
  induction j with
  | zero => simp [List.replicate_succ]
  | succ j ih => simpa [List.replicate_succ] using ih

theorem insert_internal_leaf_one {T : Type} (t : MultiTrie T) (i : Nat)
    (p : List Nat) (v : T) (d : DigitTrie T) (sel : List Nat)
    (hd : t.store.getD i MultiTrieNode.tombstone = MultiTrieNode.leaf d)
    (hvalid : p.all (fun x => decide (x < d.base)) = true) :
    t.insert_internal i [p] 0 [p] sel (fun _ _ => Except.ok v) =
      Except.ok
        { t with
          store :=
            t.store.set i
              (MultiTrieNode.leaf ⟨d.base, digitInsertPure p v d.entries⟩) } := by
  have hstep := digitTrie_insert_const d p v
    (fun (s : Unit) (_ : Option T) => (Except.ok v).map (fun w => (s, w)))
    (fun _ _ => rfl) () hvalid
  simp only [MultiTrie.insert_internal, hd, List.length_cons, List.length_nil,
    Nat.add_sub_cancel, List.getD_cons_zero, eq_self_iff_true, if_true, hstep,
    List.set_set]

theorem insert_internal_leaf_one_fail {T : Type} (t : MultiTrie T) (i : Nat)
    (p : List Nat) (v : T) (d : DigitTrie T) (sel : List Nat)
    (hd : t.store.getD i MultiTrieNode.tombstone = MultiTrieNode.leaf d)
    (hvalid : ¬ p.all (fun x => decide (x < d.base)) = true) :
    t.insert_internal i [p] 0 [p] sel (fun _ _ => Except.ok v) =
      Except.error DlcError.invalidParameters := by
  have hstep := digitTrie_insert_invalid d p
    (fun (s : Unit) (_ : Option T) => (Except.ok v).map (fun w => (s, w)))
    () hvalid
  simp only [MultiTrie.insert_internal, hd, List.length_cons, List.length_nil,
    Nat.add_sub_cancel, List.getD_cons_zero, eq_self_iff_true, if_true, hstep]

theorem fold_selectors_uniform {T : Type}
    (base nbT minS maxE nbD : Nat) (mc : Bool) (p : List Nat) (v : T)
    (E : List (List Nat × T))
    (hvalid : p.all (fun x => decide (x < base)) = true) :
    ∀ (k j : Nat), j + k = nbT →
      ((List.range' j k).map (fun i => [i])).foldlM
        (fun (acc2 : MultiTrie T) selector =>
          acc2.insert_internal (selector.headD 0) [p] 0 [p] selector
            (fun _ _ => Except.ok v))
        (⟨List.replicate j
              (MultiTrieNode.leaf ⟨base, digitInsertPure p v E⟩) ++
            List.replicate k (MultiTrieNode.leaf ⟨base, E⟩),
          base, nbT, 1, minS, maxE, nbD, mc⟩ : MultiTrie T) =
      Except.ok
        (⟨List.replicate nbT (MultiTrieNode.leaf ⟨base, digitInsertPure p v E⟩),
          base, nbT, 1, minS, maxE, nbD, mc⟩ : MultiTrie T) := by
  intro k
  induction k with
  | zero =>
    intro j hj
    simp only [List.range'_zero, List.map_nil, List.foldlM_nil,
      List.replicate_zero, List.append_nil]
    rw [show j = nbT by omega]
    rfl
  | succ k ih =>
    intro j hj
    rw [List.range'_succ, List.map_cons, List.foldlM_cons]
    simp only [List.headD_cons]
    rw [insert_internal_leaf_one _ j p v ⟨base, E⟩ [j]
      (getD_rep_append j k _ _ _) hvalid]
    rw [exceptBind_ok]
    have hset := set_rep_append j k
      (MultiTrieNode.leaf (⟨base, digitInsertPure p v E⟩ : DigitTrie T))
      (MultiTrieNode.leaf ⟨base, E⟩)
      (MultiTrieNode.leaf ⟨base, digitInsertPure p v E⟩)
    have hrep : List.replicate j
          (MultiTrieNode.leaf (⟨base, digitInsertPure p v E⟩ : DigitTrie T)) ++
          MultiTrieNode.leaf ⟨base, digitInsertPure p v E⟩ ::
            List.replicate k (MultiTrieNode.leaf ⟨base, E⟩) =
        List.replicate (j + 1)
            (MultiTrieNode.leaf ⟨base, digitInsertPure p v E⟩) ++
          List.replicate k (MultiTrieNode.leaf ⟨base, E⟩) := by
      rw [List.replicate_succ', List.append_assoc]
      rfl
    simp only [hset, hrep]
    exact ih (j + 1) (by omega)

theorem insert_uniform_one {T : Type} (base nbT minS maxE nbD : Nat) (mc : Bool)
    (p : List Nat) (v : T) (E : List (List Nat × T))
    (hvalid : p.all (fun x => decide (x < base)) = true) :
    MultiTrie.insert
      (⟨List.replicate nbT (MultiTrieNode.leaf ⟨base, E⟩),
        base, nbT, 1, minS, maxE, nbD, mc⟩ : MultiTrie T) p
      (fun _ _ => Except.ok v) =
      Except.ok
        (⟨List.replicate nbT (MultiTrieNode.leaf ⟨base, digitInsertPure p v E⟩),
          base, nbT, 1, minS, maxE, nbD, mc⟩ : MultiTrie T) := by
  have h := fold_selectors_uniform base nbT minS maxE nbD mc p v E hvalid nbT 0
    (by omega)
  simp only [List.replicate_zero, List.nil_append] at h
  simp only [MultiTrie.insert, Nat.lt_irrefl, if_false, List.foldlM_cons,
    List.foldlM_nil, combinationsList_one]
  rw [h, exceptBind_ok]
  rfl

theorem insert_uniform_fail {T : Type} (base nbT minS maxE nbD : Nat)
    (mc : Bool) (p : List Nat) (v : T) (E : List (List Nat × T))
    (hnbT : 1 ≤ nbT)
    (hvalid : ¬ p.all (fun x => decide (x < base)) = true) :
    MultiTrie.insert
      (⟨List.replicate nbT (MultiTrieNode.leaf ⟨base, E⟩),
        base, nbT, 1, minS, maxE, nbD, mc⟩ : MultiTrie T) p
      (fun _ _ => Except.ok v) =
      Except.error DlcError.invalidParameters := by
  obtain ⟨m, rfl⟩ : ∃ m, nbT = m + 1 := ⟨nbT - 1, by omega⟩
  simp only [MultiTrie.insert, Nat.lt_irrefl, if_false, List.foldlM_cons,
    List.foldlM_nil, combinationsList_one]
  rw [List.range'_succ, List.map_cons, List.foldlM_cons]
  simp only [List.headD_cons]
  rw [insert_internal_leaf_one_fail _ 0 p v ⟨base, E⟩ [0]
    (by simp [List.replicate_succ]) hvalid]
  rfl

theorem insertAll_uniform {T : Type} (base nbT minS maxE nbD : Nat) (mc : Bool)
    (hnbT : 1 ≤ nbT) :
    ∀ (inserts : List (List Nat × T)) (E : List (List Nat × T))
      (t2 : MultiTrie T),
      MultiTrie.insertAll
        (⟨List.replicate nbT (MultiTrieNode.leaf ⟨base, E⟩),
          base, nbT, 1, minS, maxE, nbD, mc⟩ : MultiTrie T) inserts =
        Except.ok t2 →
      (∀ pr ∈ inserts, pr.1.all (fun d => decide (d < base)) = true) ∧
      t2 = ⟨List.replicate nbT (MultiTrieNode.leaf
              ⟨base,
                inserts.foldl (fun E2 pr => digitInsertPure pr.1 pr.2 E2) E⟩),
            base, nbT, 1, minS, maxE, nbD, mc⟩ := by
  intro inserts
  induction inserts with
  | nil =>
    intro E t2 h
    simp only [MultiTrie.insertAll, List.foldlM_nil] at h
    refine ⟨fun pr hpr => absurd hpr (List.not_mem_nil pr), ?_⟩
    cases h
    rfl
  | cons pr rest ih =>
    intro E t2 h
    simp only [MultiTrie.insertAll, List.foldlM_cons] at h
    by_cases hval : pr.1.all (fun d => decide (d < base)) = true
    · rw [insert_uniform_one base nbT minS maxE nbD mc pr.1 pr.2 E hval,
        exceptBind_ok] at h
      obtain ⟨hrest, ht2⟩ := ih (digitInsertPure pr.1 pr.2 E) t2 h
      refine ⟨?_, ?_⟩
      · intro q hq
        rcases List.mem_cons.mp hq with hq | hq
        · rw [hq]; exact hval
        · exact hrest q hq
      · rw [ht2]
        simp [List.foldl_cons]
    · rw [insert_uniform_fail base nbT minS maxE nbD mc pr.1 pr.2 E hnbT hval,
        exceptBind_error] at h
      cases h

theorem getD_replicate_of_lt {α : Type} :
    ∀ (n i : Nat) (a d : α), i < n → (List.replicate n a).getD i d = a := by
  intro n
  induction n with
  | zero => intro i a d h; omega
  | succ n ih =>
    intro i a d h
    cases i with
    | zero => simp [List.replicate_succ]
    | succ i => simpa [List.replicate_succ] using ih i a d (by omega)

theorem iter_range_uniform {T : Type} (st : List (MultiTrieNode T))
    (base : Nat) (E : List (List Nat × T)) (fuel : Nat) :
    ∀ (k j : Nat),
      (∀ i, j ≤ i → i < j + k →
        st.getD i MultiTrieNode.tombstone = MultiTrieNode.leaf ⟨base, E⟩) →
      (List.range' j k).flatMap
        (fun i =>
          MultiTrie.iter_from st (fuel + 1) i
            (st.getD i MultiTrieNode.tombstone)) =
      (List.range' j k).flatMap
        (fun i => E.map (fun e => (⟨e.2, [(i, e.1)]⟩ : MLookupResult T))) := by
  intro k
  induction k with
  | zero => intro j h; rfl
  | succ k ih =>
    intro j h
    rw [List.range'_succ, List.flatMap_cons, List.flatMap_cons]
    rw [h j (by omega) (by omega)]
    rw [ih (j + 1) (fun i h1 h2 => h i (by omega) (by omega))]
    rfl

theorem iterate_uniform {T : Type} (base nbT minS maxE nbD : Nat) (mc : Bool)
    (E : List (List Nat × T)) (hnbT : 1 ≤ nbT) :
    MultiTrie.iterate
      (⟨List.replicate nbT (MultiTrieNode.leaf ⟨base, E⟩),
        base, nbT, 1, minS, maxE, nbD, mc⟩ : MultiTrie T) =
    (List.range nbT).flatMap
      (fun i => E.map (fun e => (⟨e.2, [(i, e.1)]⟩ : MLookupResult T))) := by
  obtain ⟨m, rfl⟩ : ∃ m, nbT = m + 1 := ⟨nbT - 1, by omega⟩
  simp only [MultiTrie.iterate, List.length_replicate, Nat.add_sub_cancel,
    List.range_eq_range']
  exact iter_range_uniform _ base E m (m + 1) 0
    (fun i h1 h2 => getD_replicate_of_lt _ _ _ _ (by omega))

theorem look_up_internal_leaf {T : Type} (t : MultiTrie T) (d : DigitTrie T)
    (i : Nat) (q : List Nat) (e : List Nat × T)
    (hfilter : d.entries.filter (fun x => x.1.isPrefixOf q) = [e]) :
    MultiTrie.look_up_internal t (MultiTrieNode.leaf d) [(i, q)] =
      Option.some ⟨e.2, [(i, e.1)]⟩ := by
  simp only [MultiTrie.look_up_internal, DigitTrie.look_up, hfilter,
    List.isEmpty_cons, Bool.false_eq_true, if_false]

theorem look_up_uniform {T : Type} (base nbT minS maxE nbD : Nat) (mc : Bool)
    (E : List (List Nat × T)) (i : Nat) (q : List Nat) (e : List Nat × T)
    (hi : i < nbT)
    (hfilter : E.filter (fun x => x.1.isPrefixOf q) = [e]) :
    MultiTrie.look_up
      (⟨List.replicate nbT (MultiTrieNode.leaf ⟨base, E⟩),
        base, nbT, 1, minS, maxE, nbD, mc⟩ : MultiTrie T) [(i, q)] =
      Option.some ⟨e.2, [(i, e.1)]⟩ := by
  have hg : (List.replicate nbT
        (MultiTrieNode.leaf (⟨base, E⟩ : DigitTrie T))).getD i
        MultiTrieNode.tombstone = MultiTrieNode.leaf ⟨base, E⟩ :=
    getD_replicate_of_lt _ _ _ _ hi
  have hroots : ¬ (nbT - 1 + 1 ≤ i) := by omega
  have hone : combinationsList 1 1 = [[0]] := rfl
  simp only [MultiTrie.look_up, List.length_cons, List.length_nil,
    Nat.lt_irrefl, if_false, hone, List.findSome?_cons, List.headD_cons,
    List.getD_cons_zero, hroots, List.range_succ, List.range_zero,
    List.nil_append, List.filter_cons, List.contains_cons,
    List.contains_nil, List.filter_nil, beq_self_eq_true, Bool.or_false,
    if_true, List.map_cons, List.map_nil, hg]
  rw [look_up_internal_leaf _ _ i q e hfilter]
  rfl

theorem isPrefixOf_self_nat : ∀ (l : List Nat), l.isPrefixOf l = true := by
  intro l
  induction l with
  | nil => rfl
  | cons x xs ih => simp [List.isPrefixOf, ih]

theorem filter_eq_singleton_of_pairwise {T : Type} :
    ∀ (E : List (List Nat × T)) (e : List Nat × T), e ∈ E →
      E.Pairwise
        (fun a b => a.1.isPrefixOf b.1 = false ∧ b.1.isPrefixOf a.1 = false) →
      E.filter (fun x => x.1.isPrefixOf e.1) = [e] := by
  intro E
  induction E with
  | nil => intro e he _; cases he
  | cons h rest ih =>
    intro e he hpw
    rw [List.pairwise_cons] at hpw
    obtain ⟨hhead, hrest⟩ := hpw
    rcases List.mem_cons.mp he with rfl | he2
    · rw [List.filter_cons]
      simp only [isPrefixOf_self_nat, if_true]
      have hnil : rest.filter (fun x => x.1.isPrefixOf e.1) = [] := by
        rw [List.filter_eq_nil_iff]
        intro b hb
        simp [(hhead b hb).2]
      rw [hnil]
    · have hhe : h.1.isPrefixOf e.1 = false := (hhead e he2).1
      rw [List.filter_cons]
      simp only [hhe, Bool.false_eq_true, if_false]
      exact ih e he2 hrest

theorem digitInsertPure_perm {T : Type} (p : List Nat) (v : T) :
    ∀ (E : List (List Nat × T)), (∀ q ∈ E, q.1 ≠ p) →
      List.Perm (digitInsertPure p v E) ((p, v) :: E) := by
  intro E
  induction E with
  | nil => intro _; exact List.Perm.refl _
  | cons qw rest ih =>
    intro h
    obtain ⟨q, w⟩ := qw
    have hq : q ≠ p := by
      have := h (q, w) (List.mem_cons_self _ _)
      simpa using this
    simp only [digitInsertPure]
    rw [if_neg (Ne.symm hq)]
    by_cases hlt : lexLt p q
    · rw [if_pos hlt]
    · rw [if_neg hlt]
      have hperm := ih (fun r hr => h r (List.mem_cons_of_mem _ hr))
      exact (hperm.cons (q, w)).trans (List.Perm.swap (p, v) (q, w) rest)

theorem foldl_insertPure_perm {T : Type} :
    ∀ (inserts : List (List Nat × T)) (E0 : List (List Nat × T)),
      (∀ pr ∈ inserts, ∀ q ∈ E0, q.1 ≠ pr.1) →
      (inserts.map (fun pr => pr.1)).Nodup →
      List.Perm
        (inserts.foldl (fun E2 pr => digitInsertPure pr.1 pr.2 E2) E0)
        (E0 ++ inserts) := by
  intro inserts
  induction inserts with
  | nil => intro E0 _ _; simp
  | cons pr rest ih =>
    intro E0 h hn
    simp only [List.foldl_cons]
    simp only [List.map_cons, List.nodup_cons] at hn
    obtain ⟨hnp, hnrest⟩ := hn
    have h1 : ∀ q ∈ E0, q.1 ≠ pr.1 := h pr (List.mem_cons_self _ _)
    have hstep := digitInsertPure_perm pr.1 pr.2 E0 h1
    have h2 : ∀ p2 ∈ rest, ∀ q ∈ digitInsertPure pr.1 pr.2 E0, q.1 ≠ p2.1 := by
      intro p2 hp2 q hq
      have hq2 : q ∈ (pr.1, pr.2) :: E0 := hstep.mem_iff.mp hq
      rcases List.mem_cons.mp hq2 with rfl | hq3
      · intro hcontra
        simp only at hcontra
        exact hnp (hcontra ▸ List.mem_map_of_mem (fun r => r.1) hp2)
      · exact h p2 (List.mem_cons_of_mem _ hp2) q hq3
    have hrec := ih (digitInsertPure pr.1 pr.2 E0) h2 hnrest
    exact hrec.trans ((hstep.append_right rest).trans List.perm_middle.symm)

/-- Special case of the iterate/look-up round trip: for a trie with
threshold `nb_required = 1` populated by a successful sequence of
constant-callback insertions of pairwise non-prefix-related paths, every
`(value, path)` pair produced by the iterator satisfies
`look_up path = Some` of that value. -/
theorem iterate_lookup_threshold_one {T : Type}
    (nbT base minS maxE nbD : Nat) (mc : Bool) (hn : 1 ≤ nbT)
    (inserts : List (List Nat × T))
    (hpw : inserts.Pairwise
      (fun a b => a.1.isPrefixOf b.1 = false ∧ b.1.isPrefixOf a.1 = false))
    (t : MultiTrie T)
    (hpop : (MultiTrie.new T nbT 1 base minS maxE nbD mc).insertAll inserts =
      Except.ok t) :
    ∀ it ∈ t.iterate,
      (t.look_up it.path).map (fun r => r.value) = Option.some it.value := by
  have hnew : MultiTrie.new T nbT 1 base minS maxE nbD mc =
      (⟨List.replicate nbT (MultiTrieNode.leaf ⟨base, []⟩),
        base, nbT, 1, minS, maxE, nbD, mc⟩ : MultiTrie T) := by
    simp only [MultiTrie.new, Nat.lt_irrefl, if_false, DigitTrie.new]
    rw [show nbT - 1 + 1 = nbT from by omega]
  rw [hnew] at hpop
  obtain ⟨hval, ht⟩ :=
    insertAll_uniform base nbT minS maxE nbD mc hn inserts [] t hpop
  set E := inserts.foldl (fun E2 pr => digitInsertPure pr.1 pr.2 E2) []
    with hE
  have hsymm : ∀ {x y : List Nat × T},
      (x.1.isPrefixOf y.1 = false ∧ y.1.isPrefixOf x.1 = false) →
      (y.1.isPrefixOf x.1 = false ∧ x.1.isPrefixOf y.1 = false) :=
    fun hxy => ⟨hxy.2, hxy.1⟩
  have himp : ∀ {a b : List Nat × T},
      (a.1.isPrefixOf b.1 = false ∧ b.1.isPrefixOf a.1 = false) →
      a.1 ≠ b.1 := by
    intro a b hab heq
    rw [heq, isPrefixOf_self_nat] at hab
    exact absurd hab.1 (by decide)
  have hnd : (inserts.map (fun pr => pr.1)).Nodup :=
    List.pairwise_map.mpr (hpw.imp himp)
  have hperm : List.Perm E inserts := by
    have hp := foldl_insertPure_perm inserts []
      (fun pr _ q hq => absurd hq (List.not_mem_nil q)) hnd
    simpa using hp
  have hpwE : E.Pairwise
      (fun a b => a.1.isPrefixOf b.1 = false ∧ b.1.isPrefixOf a.1 = false) :=
    (hperm.pairwise_iff hsymm).mpr hpw
  intro it hit
  rw [ht] at hit ⊢
  rw [iterate_uniform base nbT minS maxE nbD mc E hn] at hit
  obtain ⟨i, hiRange, hitMap⟩ := List.mem_flatMap.mp hit
  obtain ⟨e, heE, heq⟩ := List.mem_map.mp hitMap
  have hiLt : i < nbT := List.mem_range.mp hiRange
  have hfilter := filter_eq_singleton_of_pairwise E e heE hpwE
  rw [← heq]
  rw [show (⟨e.2, [(i, e.1)]⟩ : MLookupResult T).path = [(i, e.1)] from rfl]
  rw [look_up_uniform base nbT minS maxE nbD mc E i e.1 e hiLt hfilter]
  rfl

theorem iterate_lookup_threshold_one_witness :
    1 ≤ 2 ∧
    ([([0, 0], 1), ([1, 1, 0], 2)] : List (List Nat × Nat)).Pairwise
      (fun a b => a.1.isPrefixOf b.1 = false ∧ b.1.isPrefixOf a.1 = false) ∧
    (MultiTrie.new Nat 2 1 2 2 3 5 true).insertAll
      [([0, 0], 1), ([1, 1, 0], 2)] = Except.ok mtTwoLeaves ∧
    (∀ it ∈ mtTwoLeaves.iterate,
      (mtTwoLeaves.look_up it.path).map (fun r => r.value) =
        Option.some it.value) :=
  ⟨by decide, by decide, by rfl,
    iterate_lookup_threshold_one 2 2 2 3 5 true (by decide)
      [([0, 0], 1), ([1, 1, 0], 2)] (by decide) mtTwoLeaves (by rfl)⟩

theorem computeOutcomeCombinations_optList (nbD : Nat) (p : List Nat)
    (maxE minS : Nat) (mc : Bool) (R : Nat) :
    computeOutcomeCombinations nbD p maxE minS mc R =
      (choicePower (optList nbD p maxE minS) (R - 1)).map
        (fun rest => p :: rest) := rfl

theorem lexLt_irrefl : ∀ l : List Nat, lexLt l l = false := by
  intro l
  induction l with
  | nil => rfl
  | cons a as ih => simp [lexLt, ih]

theorem lexLt_trans : ∀ a b c : List Nat,
    lexLt a b = true → lexLt b c = true → lexLt a c = true := by
  intro a
  induction a with
  | nil =>
    intro b c hab hbc
    cases b with
    | nil => cases hab
    | cons b0 bs =>
      cases c with
      | nil => cases hbc
      | cons c0 cs => rfl
  | cons a0 as ih =>
    intro b c hab hbc
    cases b with
    | nil => cases hab
    | cons b0 bs =>
      cases c with
      | nil => cases hbc
      | cons c0 cs =>
        simp only [lexLt, Bool.or_eq_true, Bool.and_eq_true, decide_eq_true_eq]
          at hab hbc ⊢
        rcases hab with h1 | ⟨h1, h2⟩ <;> rcases hbc with g1 | ⟨g1, g2⟩
        · exact Or.inl (h1.trans g1)
        · exact Or.inl (g1 ▸ h1)
        · exact Or.inl (h1 ▸ g1)
        · exact Or.inr ⟨h1.trans g1, ih bs cs h2 g2⟩

theorem lexLt_total : ∀ a b : List Nat,
    a = b ∨ lexLt a b = true ∨ lexLt b a = true := by
  intro a
  induction a with
  | nil =>
    intro b
    cases b with
    | nil => exact Or.inl rfl
    | cons b0 bs => exact Or.inr (Or.inl rfl)
  | cons a0 as ih =>
    intro b
    cases b with
    | nil => exact Or.inr (Or.inr rfl)
    | cons b0 bs =>
      rcases Nat.lt_trichotomy a0 b0 with h | h | h
      · exact Or.inr (Or.inl (by simp [lexLt, h]))
      · rcases ih bs with h2 | h2 | h2
        · exact Or.inl (by rw [h, h2])
        · exact Or.inr (Or.inl (by simp [lexLt, h, h2]))
        · exact Or.inr (Or.inr (by simp [lexLt, h, h2]))
      · exact Or.inr (Or.inr (by simp [lexLt, h]))

theorem keys_nodup_of_sorted {V : Type} (es : List (List Nat × V))
    (h : entriesSorted es) : (es.map (fun e => e.1)).Nodup := by
  refine List.pairwise_map.mpr (List.Pairwise.imp ?_ h)
  intro a b hl heq
  rw [heq, lexLt_irrefl] at hl
  cases hl

theorem pairwiseNP_nodup (l : List (List Nat)) (h : pairwiseNP l) :
    l.Nodup := by
  refine List.Pairwise.imp ?_ h
  intro a b hab heq
  rw [heq, isPrefixOf_self_nat] at hab
  exact absurd hab.1 (by decide)

theorem pairwiseNP_pair {S : List (List Nat)} (hS : pairwiseNP S)
    {a b : List Nat} (ha : a ∈ S) (hb : b ∈ S) (hne : a ≠ b) :
    a.isPrefixOf b = false ∧ b.isPrefixOf a = false :=
  List.Pairwise.forall (fun x y h => ⟨h.2, h.1⟩) hS ha hb hne

theorem pairwiseNP_sub (S : List (List Nat)) :
    ∀ (keys : List (List Nat)), keys.Nodup → (∀ k ∈ keys, k ∈ S) →
      pairwiseNP S → pairwiseNP keys := by
  intro keys
  induction keys with
  | nil => intro _ _ _; exact List.Pairwise.nil
  | cons k ks ih =>
    intro hnd hsub hS
    rw [List.nodup_cons] at hnd
    refine List.Pairwise.cons ?_
      (ih hnd.2 (fun x hx => hsub x (List.mem_cons_of_mem _ hx)) hS)
    intro b hb
    exact pairwiseNP_pair hS (hsub k (List.mem_cons_self _ _))
      (hsub b (List.mem_cons_of_mem _ hb)) (fun he => hnd.1 (he ▸ hb))

theorem filter_keys_singleton {V : Type} :
    ∀ (es : List (List Nat × V)) (e : List Nat × V), e ∈ es →
      pairwiseNP (es.map (fun x => x.1)) →
      es.filter (fun x => x.1.isPrefixOf e.1) = [e] := by
  intro es
  induction es with
  | nil => intro e he; cases he
  | cons h rest ih =>
    intro e he hpw
    unfold pairwiseNP at hpw
    rw [List.map_cons, List.pairwise_cons] at hpw
    obtain ⟨hhead, hrest⟩ := hpw
    rcases List.mem_cons.mp he with rfl | he2
    · rw [List.filter_cons]
      simp only [isPrefixOf_self_nat, if_true]
      have hnil : rest.filter (fun x => x.1.isPrefixOf e.1) = [] := by
        rw [List.filter_eq_nil_iff]
        intro b hb
        simp [(hhead b.1 (List.mem_map_of_mem _ hb)).2]
      rw [hnil]
    · have hhe : h.1.isPrefixOf e.1 = false :=
        (hhead e.1 (List.mem_map_of_mem _ he2)).1
      rw [List.filter_cons]
      simp only [hhe, Bool.false_eq_true, if_false]
      exact ih e he2 hrest

theorem getD_set_self {α : Type} :
    ∀ (l : List α) (i : Nat) (x d : α), i < l.length →
      (l.set i x).getD i d = x := by
  intro l
  induction l with
  | nil => intro i x d h; cases h
  | cons a as ih =>
    intro i x d h
    cases i with
    | zero => rfl
    | succ i => simpa using ih i x d (by simpa using h)

theorem getD_set_ne {α : Type} :
    ∀ (l : List α) (i j : Nat) (x d : α), i ≠ j →
      (l.set i x).getD j d = l.getD j d := by
  intro l
  induction l with
  | nil => intro i j x d h; rfl
  | cons a as ih =>
    intro i j x d h
    cases i with
    | zero =>
      cases j with
      | zero => exact absurd rfl h
      | succ j => rfl
    | succ i =>
      cases j with
      | zero => rfl
      | succ j => simpa using ih i j x d (fun he => h (by rw [he]))

theorem set_append_of_lt {α : Type} :
    ∀ (l1 l2 : List α) (i : Nat) (x : α), i < l1.length →
      (l1 ++ l2).set i x = l1.set i x ++ l2 := by
  intro l1
  induction l1 with
  | nil => intro l2 i x h; cases h
  | cons a as ih =>
    intro l2 i x h
    cases i with
    | zero => rfl
    | succ i => simpa using ih l2 i x (by simpa using h)

theorem getD_append_left {α : Type} :
    ∀ (l1 l2 : List α) (i : Nat) (d : α), i < l1.length →
      (l1 ++ l2).getD i d = l1.getD i d := by
  intro l1
  induction l1 with
  | nil => intro l2 i d h; cases h
  | cons a as ih =>
    intro l2 i d h
    cases i with
    | zero => rfl
    | succ i => simpa using ih l2 i d (by simpa using h)

theorem getD_append_len {α : Type} :
    ∀ (l1 l2 : List α) (d : α), (l1 ++ l2).getD l1.length d = l2.getD 0 d := by
  intro l1
  induction l1 with
  | nil => intro l2 d; rfl
  | cons a as ih => intro l2 d; simpa using ih l2 d

theorem drop_cons_getD {α : Type} :
    ∀ (l : List α) (i : Nat) (d : α), i < l.length →
      l.drop i = l.getD i d :: l.drop (i + 1) := by
  intro l
  induction l with
  | nil => intro i d h; cases h
  | cons a as ih =>
    intro i d h
    cases i with
    | zero => rfl
    | succ i => simpa using ih i d (by simpa using h)

theorem getD_mem {α : Type} :
    ∀ (l : List α) (i : Nat) (d : α), i < l.length → l.getD i d ∈ l := by
  intro l
  induction l with
  | nil => intro i d h; cases h
  | cons a as ih =>
    intro i d h
    cases i with
    | zero => exact List.mem_cons_self _ _
    | succ i => exact List.mem_cons_of_mem _ (ih i d (by simpa using h))

theorem contains_of_mem : ∀ (l : List Nat) (x : Nat), x ∈ l →
    l.contains x = true := by
  intro l
  induction l with
  | nil => intro x h; cases h
  | cons a as ih =>
    intro x h
    rcases List.mem_cons.mp h with rfl | h2
    · simp [List.contains_cons]
    · simp only [List.contains_cons, ih x h2, Bool.or_true]

theorem map_getD_range {α : Type} :
    ∀ (l : List α) (d : α),
      (List.range l.length).map (fun i => l.getD i d) = l := by
  intro l
  induction l with
  | nil => intro d; rfl
  | cons a as ih =>
    intro d
    rw [List.length_cons, List.range_succ_eq_map, List.map_cons, List.map_map]
    congr 1
    exact ih d

theorem find_store_index_none (ch : List TrieNodeInfo) (tix : Nat)
    (h : find_store_index ch tix = Option.none) :
    ∀ info ∈ ch, info.trie_index ≠ tix := by
  intro info hinfo heq
  unfold find_store_index at h
  cases hf : ch.find? (fun i2 => decide (tix = i2.trie_index)) with
  | some i2 => rw [hf] at h; cases h
  | none =>
    rw [List.find?_eq_none] at hf
    exact hf info hinfo (by simp [heq])

theorem find_store_index_some (ch : List TrieNodeInfo) (tix i : Nat)
    (h : find_store_index ch tix = Option.some i) :
    ∃ info ∈ ch, info.trie_index = tix ∧ info.store_index = i := by
  unfold find_store_index at h
  cases hf : ch.find? (fun i2 => decide (tix = i2.trie_index)) with
  | none => rw [hf] at h; cases h
  | some info =>
    rw [hf] at h
    cases h
    refine ⟨info, List.mem_of_find?_eq_some hf, ?_, rfl⟩
    have := List.find?_some hf
    simp at this
    exact this.symm

theorem find_store_index_distinct :
    ∀ (ch : List TrieNodeInfo) (info : TrieNodeInfo), tidsDistinct ch →
      info ∈ ch → find_store_index ch info.trie_index =
        Option.some info.store_index := by
  intro ch
  induction ch with
  | nil => intro info _ h; cases h
  | cons a rest ih =>
    intro info hd hmem
    unfold tidsDistinct at hd
    rw [List.map_cons, List.nodup_cons] at hd
    rcases List.mem_cons.mp hmem with rfl | h2
    · unfold find_store_index
      rw [List.find?_cons_of_pos _ (by simp)]
    · have hne : info.trie_index ≠ a.trie_index := by
        intro he
        exact hd.1 (he ▸ List.mem_map_of_mem (fun i => i.trie_index) h2)
      unfold find_store_index
      rw [List.find?_cons_of_neg _ (by simpa using hne)]
      exact ih info hd.2 h2

theorem foldlM_inv {α β : Type} (P : β → Prop) (f : β → α → Except DlcError β) :
    ∀ (l : List α) (b b2 : β),
      (∀ x ∈ l, ∀ c c2, P c → f c x = Except.ok c2 → P c2) →
      P b → List.foldlM f b l = Except.ok b2 → P b2 := by
  intro l
  induction l with
  | nil =>
    intro b b2 _ hP h
    rw [List.foldlM_nil] at h
    cases h
    exact hP
  | cons x xs ih =>
    intro b b2 hstep hP h
    rw [List.foldlM_cons] at h
    cases hfx : f b x with
    | error e => rw [hfx] at h; cases h
    | ok c =>
      rw [hfx, exceptBind_ok] at h
      exact ih c b2 (fun y hy => hstep y (List.mem_cons_of_mem _ hy))
        (hstep x (List.mem_cons_self _ _) b c hP hfx) h

theorem digitInsertGo_char {T σ : Type} (path : List Nat)
    (cb : σ → Option T → Except DlcError (σ × T)) :
    ∀ (es : List (List Nat × T)) (s s2 : σ) (es2 : List (List Nat × T)),
      entriesSorted es →
      digitInsertGo path cb es s = Except.ok (s2, es2) →
      ∃ v2 old, cb s old = Except.ok (s2, v2) ∧
        (old = Option.none ∨
          ∃ e0 ∈ es, old = Option.some e0.2 ∧ e0.1 = path) ∧
        entriesSorted es2 ∧
        (∀ e ∈ es2, e ∈ es ∨ e = (path, v2)) := by
  intro es
  induction es with
  | nil =>
    intro s s2 es2 hsort hok
    simp only [digitInsertGo] at hok
    cases hcb : cb s Option.none with
    | error e => rw [hcb] at hok; cases hok
    | ok sv =>
      obtain ⟨sv1, v⟩ := sv
      rw [hcb, exceptBind_ok] at hok
      cases hok
      refine ⟨v, Option.none, hcb, Or.inl rfl, ?_, ?_⟩
      · exact List.pairwise_singleton _ _
      · intro e hemem
        rcases List.mem_cons.mp hemem with rfl | h2
        · exact Or.inr rfl
        · cases h2
  | cons pr rest ih =>
    intro s s2 es2 hsort hok
    obtain ⟨p0, v0⟩ := pr
    unfold entriesSorted at hsort
    rw [List.pairwise_cons] at hsort
    obtain ⟨hhead, hrest⟩ := hsort
    by_cases heq : path = p0
    · simp only [digitInsertGo] at hok
      rw [if_pos heq] at hok
      cases hcb : cb s (Option.some v0) with
      | error e => rw [hcb] at hok; cases hok
      | ok sv =>
        obtain ⟨sv1, v2⟩ := sv
        rw [hcb, exceptBind_ok] at hok
        cases hok
        refine ⟨v2, Option.some v0, hcb,
          Or.inr ⟨(p0, v0), List.mem_cons_self _ _, rfl, heq.symm⟩, ?_, ?_⟩
        · unfold entriesSorted
          rw [List.pairwise_cons]
          refine ⟨?_, hrest⟩
          intro b hb
          simpa [heq] using hhead b hb
        · intro e hemem
          rcases List.mem_cons.mp hemem with rfl | h2
          · exact Or.inr rfl
          · exact Or.inl (List.mem_cons_of_mem _ h2)
    · by_cases hlt : lexLt path p0 = true
      · simp only [digitInsertGo] at hok
        rw [if_neg heq, if_pos hlt] at hok
        cases hcb : cb s Option.none with
        | error e => rw [hcb] at hok; cases hok
        | ok sv =>
          obtain ⟨sv1, v2⟩ := sv
          rw [hcb, exceptBind_ok] at hok
          cases hok
          refine ⟨v2, Option.none, hcb, Or.inl rfl, ?_, ?_⟩
          · unfold entriesSorted
            rw [List.pairwise_cons]
            constructor
            · intro b hb
              rcases List.mem_cons.mp hb with rfl | h2
              · exact hlt
              · exact lexLt_trans path p0 b.1 hlt (hhead b h2)
            · exact List.pairwise_cons.mpr ⟨hhead, hrest⟩
          · intro e hemem
            rcases List.mem_cons.mp hemem with rfl | h2
            · exact Or.inr rfl
            · exact Or.inl h2
      · simp only [digitInsertGo] at hok
        rw [if_neg heq, if_neg hlt] at hok
        cases hgo : digitInsertGo path cb rest s with
        | error e => rw [hgo] at hok; cases hok
        | ok sv =>
          obtain ⟨sv1, rest2⟩ := sv
          rw [hgo, exceptBind_ok] at hok
          cases hok
          obtain ⟨v2, old, hcb, hold, hsort2, hmem2⟩ :=
            ih s sv1 rest2 hrest hgo
          refine ⟨v2, old, hcb, ?_, ?_, ?_⟩
          · rcases hold with h | ⟨e0, he0, ho⟩
            · exact Or.inl h
            · exact Or.inr ⟨e0, List.mem_cons_of_mem _ he0, ho⟩
          · unfold entriesSorted
            rw [List.pairwise_cons]
            constructor
            · intro b hb
              rcases hmem2 b hb with h2 | h2
              · exact hhead b h2
              · rw [h2]
                rcases lexLt_total path p0 with h3 | h3 | h3
                · exact absurd h3 heq
                · exact absurd h3 hlt
                · exact h3
            · exact hsort2
          · intro e hemem
            rcases List.mem_cons.mp hemem with rfl | h2
            · exact Or.inl (List.mem_cons_self _ _)
            · rcases hmem2 e h2 with h3 | h3
              · exact Or.inl (List.mem_cons_of_mem _ h3)
              · exact Or.inr h3

theorem digitTrie_insert_char {T σ : Type} (t : DigitTrie T) (key : List Nat)
    (cb : σ → Option T → Except DlcError (σ × T)) (s s2 : σ) (d2 : DigitTrie T)
    (hsort : entriesSorted t.entries)
    (hok : t.insert key cb s = Except.ok (s2, d2)) :
    d2.base = t.base ∧
    ∃ v2 old, cb s old = Except.ok (s2, v2) ∧
      (old = Option.none ∨
        ∃ e0 ∈ t.entries, old = Option.some e0.2 ∧ e0.1 = key) ∧
      entriesSorted d2.entries ∧
      (∀ e ∈ d2.entries, e ∈ t.entries ∨ e = (key, v2)) := by
  unfold DigitTrie.insert at hok
  by_cases hv : key.all (fun d => decide (d < t.base)) = true
  · rw [if_pos hv] at hok
    cases hgo : digitInsertGo key cb t.entries s with
    | error e => rw [hgo] at hok; cases hok
    | ok sv =>
      obtain ⟨sv1, es2⟩ := sv
      rw [hgo, exceptMap_ok] at hok
      cases hok
      obtain ⟨v2, old, hcb, hold, hsort2, hmem2⟩ :=
        digitInsertGo_char key cb t.entries s sv1 es2 hsort hgo
      exact ⟨rfl, v2, old, hcb, hold, hsort2, hmem2⟩
  · rw [if_neg hv] at hok
    cases hok

theorem getD_mem_drop_one {α : Type} :
    ∀ (l : List α) (i : Nat) (d : α), 1 ≤ i → i < l.length →
      l.getD i d ∈ l.drop 1 := by
  intro l i d h1 h2
  cases l with
  | nil => cases h2
  | cons x xs =>
    cases i with
    | zero => cases h1
    | succ i =>
      have : (x :: xs).getD (i + 1) d = xs.getD i d := rfl
      rw [this]
      exact getD_mem xs i d (by simpa using h2)

theorem slotGood_mono {T : Type} (nbRoots len1 len2 : Nat)
    (KS : List Nat → List (List Nat)) (ω ω2 : Nat → List Nat × Nat)
    (nd : MultiTrieNode T) (pl : List Nat × Nat)
    (h : slotGood nbRoots len1 KS ω nd pl) (hlen : len1 ≤ len2)
    (hω : ∀ j, j < len1 → ω2 j = ω j) :
    slotGood nbRoots len2 KS ω2 nd pl := by
  obtain ⟨p, lv⟩ := pl
  cases nd with
  | tombstone => exact h.elim
  | leaf d => exact h
  | node d =>
    obtain ⟨h1, h2, h3⟩ := h
    refine ⟨h1, h2, ?_⟩
    intro e he
    obtain ⟨g1, g2, g3⟩ := h3 e he
    refine ⟨g1, g2, ?_⟩
    intro info hinfo
    obtain ⟨k1, k2, k3⟩ := g3 info hinfo
    exact ⟨k1, Nat.lt_of_lt_of_le k2 hlen, by rw [hω _ k2]; exact k3⟩

theorem rootGood_mono {T : Type} (R nbRoots len1 len2 : Nat)
    (KS : List Nat → List (List Nat)) (PS : List (List Nat))
    (ω ω2 : Nat → List Nat × Nat) (nd : MultiTrieNode T)
    (h : rootGood R nbRoots len1 KS PS ω nd) (hlen : len1 ≤ len2)
    (hω : ∀ j, j < len1 → ω2 j = ω j) :
    rootGood R nbRoots len2 KS PS ω2 nd := by
  cases nd with
  | tombstone => exact h.elim
  | leaf d => exact h
  | node d =>
    obtain ⟨h1, h2, h3⟩ := h
    refine ⟨h1, h2, ?_⟩
    intro e he
    obtain ⟨g1, g2, g3⟩ := h3 e he
    refine ⟨g1, g2, ?_⟩
    intro info hinfo
    obtain ⟨k1, k2, k3⟩ := g3 info hinfo
    exact ⟨k1, Nat.lt_of_lt_of_le k2 hlen, by rw [hω _ k2]; exact k3⟩

theorem slotGood_leaf_inv {T : Type} {nbRoots storeLen : Nat}
    {KS : List Nat → List (List Nat)} {ω : Nat → List Nat × Nat}
    {d : DigitTrie T} {p : List Nat} {lv : Nat}
    (h : slotGood nbRoots storeLen KS ω (MultiTrieNode.leaf d) (p, lv)) :
    lv = 1 ∧ entriesSorted d.entries ∧ ∀ e ∈ d.entries, e.1 ∈ KS p := h

theorem slotGood_node_inv {T : Type} {nbRoots storeLen : Nat}
    {KS : List Nat → List (List Nat)} {ω : Nat → List Nat × Nat}
    {d : DigitTrie (List TrieNodeInfo)} {p : List Nat} {lv : Nat}
    (h : slotGood (T := T) nbRoots storeLen KS ω (MultiTrieNode.node d) (p, lv)) :
    2 ≤ lv ∧ entriesSorted d.entries ∧
      ∀ e ∈ d.entries, e.1 ∈ KS p ∧ tidsDistinct e.2 ∧
        ∀ info ∈ e.2, nbRoots ≤ info.store_index ∧ info.store_index < storeLen ∧
          ω info.store_index = (p, lv - 1) := h

theorem except_match_ok {E A B : Type} (x : Except E A) (F : A → Except E B)
    (b : B)
    (h : (match x with
          | Except.error e => Except.error e
          | Except.ok a => F a) = Except.ok b) :
    ∃ a, x = Except.ok a ∧ F a = Except.ok b := by
  cases x with
  | error e => cases h
  | ok a => exact ⟨a, rfl, h⟩

theorem storeInv_set_node {T : Type} (R nbRoots : Nat)
    (KS : List Nat → List (List Nat)) (PS : List (List Nat))
    (ω : Nat → List Nat × Nat) (store : List (MultiTrieNode T)) (si : Nat)
    (d nd2 : DigitTrie (List TrieNodeInfo)) (p key : List Nat) (lv : Nat)
    (hinv : storeInv R nbRoots KS PS ω store)
    (hsi1 : nbRoots ≤ si) (hsi2 : si < store.length)
    (hω : ω si = (p, lv))
    (hcur : store.getD si MultiTrieNode.tombstone = MultiTrieNode.node d)
    (hlv : 2 ≤ lv) (hkey : key ∈ KS p)
    (hsort2 : entriesSorted nd2.entries)
    (hnew : ∀ e ∈ nd2.entries, e ∈ d.entries ∨
      (e.1 = key ∧ tidsDistinct e.2 ∧
        ∀ info ∈ e.2, nbRoots ≤ info.store_index ∧
          info.store_index < store.length ∧
          ω info.store_index = (p, lv - 1))) :
    storeInv R nbRoots KS PS ω (store.set si (MultiTrieNode.node nd2)) := by
  obtain ⟨hlen, hroots, hdeep⟩ := hinv
  refine ⟨?_, ?_, ?_⟩
  · rw [List.length_set]; exact hlen
  · intro i hi
    rw [List.length_set, getD_set_ne _ _ _ _ _ (by omega : si ≠ i)]
    exact hroots i hi
  · intro j hj1 hj2
    rw [List.length_set] at hj2 ⊢
    by_cases hje : j = si
    · subst hje
      rw [getD_set_self _ _ _ _ hj2, hω]
      refine ⟨hlv, hsort2, ?_⟩
      intro e he
      rcases hnew e he with hold2 | ⟨hk, hd1, hd2⟩
      · have hsg := hdeep j hj1 hj2
        rw [hcur, hω] at hsg
        obtain ⟨_, _, hent⟩ := slotGood_node_inv hsg
        exact hent e hold2
      · refine ⟨by rw [hk]; exact hkey, hd1, hd2⟩
    · rw [getD_set_ne _ _ _ _ _ (fun he => hje he.symm)]
      exact hdeep j hj1 hj2

theorem storeInv_append {T : Type} (R nbRoots : Nat)
    (KS : List Nat → List (List Nat)) (PS : List (List Nat))
    (ω ω2 : Nat → List Nat × Nat) (store : List (MultiTrieNode T))
    (fresh : MultiTrieNode T)
    (hinv : storeInv R nbRoots KS PS ω store)
    (hω2 : ∀ j, j < store.length → ω2 j = ω j)
    (hfresh : slotGood nbRoots (store ++ [fresh]).length KS ω2 fresh
      (ω2 store.length)) :
    storeInv R nbRoots KS PS ω2 (store ++ [fresh]) := by
  obtain ⟨hlen, hroots, hdeep⟩ := hinv
  have hlapp : (store ++ [fresh]).length = store.length + 1 := by
    rw [List.length_append]; rfl
  refine ⟨?_, ?_, ?_⟩
  · rw [hlapp]; omega
  · intro i hi
    rw [hlapp, getD_append_left _ _ _ _ (by omega)]
    exact rootGood_mono _ _ _ _ _ _ _ _ _ (hroots i hi) (by omega) hω2
  · intro j hj1 hj2
    rw [hlapp] at hj2
    by_cases hje : j < store.length
    · rw [getD_append_left _ _ _ _ hje, hω2 j hje, hlapp]
      exact slotGood_mono _ _ _ _ _ _ _ _ (hdeep j hj1 hje) (by omega) hω2
    · have hjeq : j = store.length := by omega
      subst hjeq
      rw [getD_append_len]
      exact hfresh

theorem insert_internal_deep {T : Type} (R nbRoots : Nat)
    (KS : List Nat → List (List Nat)) (PS : List (List Nat))
    (p : List Nat) (c : List (List Nat)) (sel : List Nat)
    (gv : List (List Nat) → List Nat → Except DlcError T)
    (hclen : c.length = R)
    (htail : ∀ k ∈ c.drop 1, k ∈ KS p) :
    ∀ (rem : List (List Nat)) (t : MultiTrie T) (ω : Nat → List Nat × Nat)
      (si pi : Nat) (t2 : MultiTrie T),
      rem = c.drop pi → 1 ≤ pi →
      storeInv R nbRoots KS PS ω t.store →
      nbRoots ≤ si → si < t.store.length → ω si = (p, R - pi) →
      MultiTrie.insert_internal t si c pi rem sel gv = Except.ok t2 →
      ∃ (ω2 : Nat → List Nat × Nat) (st2 : List (MultiTrieNode T)),
        t2 = { t with store := st2 } ∧ storeInv R nbRoots KS PS ω2 st2 := by
  intro rem
  induction rem with
  | nil =>
    intro t ω si pi t2 hrem hpi hinv hsi1 hsi2 hω hok
    simp only [MultiTrie.insert_internal] at hok
    cases hok
  | cons r0 rtail ih =>
    intro t ω si pi t2 hrem hpi hinv hsi1 hsi2 hω hok
    have hpilt : pi < c.length := by
      by_contra hge
      rw [List.drop_eq_nil_of_le (Nat.le_of_not_lt hge)] at hrem
      cases hrem
    have hrtail : rtail = c.drop (pi + 1) := by
      rw [drop_cons_getD c pi [] hpilt] at hrem
      injection hrem with h1 h2
    have hkey : c.getD pi [] ∈ KS p :=
      htail _ (getD_mem_drop_one c pi [] hpi hpilt)
    obtain ⟨hlen, hroots, hdeep⟩ := hinv
    have hsg := hdeep si hsi1 hsi2
    rw [hω] at hsg
    simp only [MultiTrie.insert_internal] at hok
    cases hcur : t.store.getD si MultiTrieNode.tombstone with
    | tombstone =>
      rw [hcur] at hok
      simp only [] at hok
      cases hok
    | leaf d =>
      rw [hcur] at hok
      simp only [] at hok
      rw [hcur] at hsg
      obtain ⟨hlv, hsort, hkeys⟩ := slotGood_leaf_inv hsg
      have hpieq : pi = c.length - 1 := by omega
      rw [if_pos hpieq] at hok
      cases hq : d.insert (c.getD pi [])
          (fun s _ => (gv c sel).map (fun v => (s, v))) () with
      | error e =>
        rw [hq] at hok
        simp only [] at hok
        cases hok
      | ok sv =>
        obtain ⟨u, d2⟩ := sv
        rw [hq] at hok
        simp only [] at hok
        cases hok
        obtain ⟨hbase, v2, old, hcb, hold, hsort2, hmem2⟩ :=
          digitTrie_insert_char d (c.getD pi [])
            (fun s _ => (gv c sel).map (fun v => (s, v))) () u d2 hsort hq
        refine ⟨ω, t.store.set si (MultiTrieNode.leaf d2), ?_, ?_, ?_, ?_⟩
        · rw [List.set_set]
        · rw [List.length_set]; exact hlen
        · intro i hi
          rw [List.length_set, getD_set_ne _ _ _ _ _ (by omega : si ≠ i)]
          exact hroots i hi
        · intro j hj1 hj2
          rw [List.length_set] at hj2 ⊢
          by_cases hje : j = si
          · subst hje
            rw [getD_set_self _ _ _ _ hj2, hω]
            refine ⟨hlv, hsort2, ?_⟩
            intro e he
            rcases hmem2 e he with h2 | h2
            · exact hkeys e h2
            · rw [h2]; exact hkey
          · rw [getD_set_ne _ _ _ _ _ (fun he => hje he.symm)]
            exact hdeep j hj1 hj2
    | node d =>
      rw [hcur] at hok
      simp only [] at hok
      rw [hcur] at hsg
      obtain ⟨hlv2, hsort, hentries⟩ := slotGood_node_inv hsg
      have hguard : pi + 1 < c.length := by omega
      rw [if_pos hguard] at hok
      cases hq : d.insert (c.getD pi [])
          (fun (st : MultiTrie T × Nat) cur_data_res =>
            match cur_data_res with
            | Option.some cur_data =>
              match find_store_index cur_data (sel.getD (pi + 1) 0) with
              | Option.some cur_store_index =>
                Except.ok ((st.1, cur_store_index), cur_data)
              | Option.none =>
                Except.ok
                  ((st.1.insert_new (decide (c.length - 1 = pi + 1)),
                    (st.1.insert_new
                      (decide (c.length - 1 = pi + 1))).store.length - 1),
                   cur_data ++
                     [(⟨sel.getD (pi + 1) 0,
                        (st.1.insert_new
                          (decide (c.length - 1 = pi + 1))).store.length - 1⟩ :
                       TrieNodeInfo)])
            | Option.none =>
              Except.ok
                ((st.1.insert_new (decide (c.length - 1 = pi + 1)),
                  (st.1.insert_new
                    (decide (c.length - 1 = pi + 1))).store.length - 1),
                 [] ++
                   [(⟨sel.getD (pi + 1) 0,
                      (st.1.insert_new
                        (decide (c.length - 1 = pi + 1))).store.length - 1⟩ :
                     TrieNodeInfo)]))
          ({ t with store := t.store.set si MultiTrieNode.tombstone }, 0) with
      | error e =>
        rw [hq] at hok
        simp only [] at hok
        cases hok
      | ok sv =>
        obtain ⟨⟨tX, σn⟩, nd2⟩ := sv
        rw [hq] at hok
        simp only [] at hok
        obtain ⟨hbase, v2, old, hcb, hold, hsort2, hmem2⟩ :=
          digitTrie_insert_char d (c.getD pi []) _
            (({ t with store := t.store.set si MultiTrieNode.tombstone } :
              MultiTrie T), 0) (tX, σn) nd2 hsort hq
        have hsub : R - pi - 1 = R - (pi + 1) := by omega
        rcases hold with hnone | ⟨e0, he0, holdeq, hkey0⟩
        · rw [hnone] at hcb
          have hcb2 : (Except.ok
              ((({ t with store := t.store.set si MultiTrieNode.tombstone } :
                  MultiTrie T).insert_new (decide (c.length - 1 = pi + 1)),
                (({ t with store := t.store.set si MultiTrieNode.tombstone } :
                  MultiTrie T).insert_new
                    (decide (c.length - 1 = pi + 1))).store.length - 1),
               ([] : List TrieNodeInfo) ++
                 [(⟨sel.getD (pi + 1) 0,
                    (({ t with store :=
                        t.store.set si MultiTrieNode.tombstone } :
                      MultiTrie T).insert_new
                        (decide (c.length - 1 = pi + 1))).store.length - 1⟩ :
                   TrieNodeInfo)]) :
              Except DlcError ((MultiTrie T × Nat) × List TrieNodeInfo)) =
              Except.ok ((tX, σn), v2) := hcb
          injection hcb2 with hA
          injection hA with hB hv2
          injection hB with hTX hσn
          have hσval : σn = t.store.length := by
            rw [← hσn]
            simp [MultiTrie.insert_new, List.length_set]
          have hv2v : v2 = [(⟨sel.getD (pi + 1) 0, t.store.length⟩ :
              TrieNodeInfo)] := by
            rw [← hv2]
            simp [MultiTrie.insert_new, List.length_set]
          subst hTX
          subst hσval
          set freshN : MultiTrieNode T :=
            if decide (c.length - 1 = pi + 1) = true then
              MultiTrieNode.leaf (DigitTrie.new T t.base)
            else MultiTrieNode.node (DigitTrie.new (List TrieNodeInfo) t.base)
            with hfreshdef
          set ω2 : Nat → List Nat × Nat :=
            fun j => if j = t.store.length then (p, R - (pi + 1)) else ω j
            with hω2def
          have hω2old : ∀ j, j < t.store.length → ω2 j = ω j := by
            intro j hj
            rw [hω2def]
            exact if_neg (by omega)
          have hω2new : ω2 t.store.length = (p, R - (pi + 1)) := by
            rw [hω2def]
            exact if_pos rfl
          have hprefix : (t.store.set si MultiTrieNode.tombstone ++
              [freshN]).set si (MultiTrieNode.node nd2) =
              (t.store ++ [freshN]).set si (MultiTrieNode.node nd2) := by
            rw [set_append_of_lt _ _ _ _ (by rw [List.length_set]; exact hsi2),
              List.set_set, ← set_append_of_lt _ _ _ _ hsi2]
          have hok3 : MultiTrie.insert_internal
              ({ t with store :=
                (t.store ++ [freshN]).set si (MultiTrieNode.node nd2) } :
                MultiTrie T) t.store.length c (pi + 1) rtail sel gv =
              Except.ok t2 := by
            rw [← hprefix]
            exact hok
          have happlen : (t.store ++ [freshN]).length = t.store.length + 1 := by
            rw [List.length_append]; rfl
          have hfreshGood : slotGood nbRoots (t.store ++ [freshN]).length KS ω2
              freshN (ω2 t.store.length) := by
            rw [hω2new, hfreshdef]
            by_cases hbl : c.length - 1 = pi + 1
            · rw [if_pos (by simp [hbl])]
              exact ⟨by omega, List.Pairwise.nil, fun e he => absurd he
                (List.not_mem_nil e)⟩
            · rw [if_neg (by simp [hbl])]
              exact ⟨by omega, List.Pairwise.nil, fun e he => absurd he
                (List.not_mem_nil e)⟩
          have hinvApp : storeInv R nbRoots KS PS ω2 (t.store ++ [freshN]) :=
            storeInv_append R nbRoots KS PS ω ω2 t.store freshN
              ⟨hlen, hroots, hdeep⟩ hω2old hfreshGood
          have hinvMid : storeInv R nbRoots KS PS ω2
              ((t.store ++ [freshN]).set si (MultiTrieNode.node nd2)) := by
            refine storeInv_set_node R nbRoots KS PS ω2 (t.store ++ [freshN])
              si d nd2 p (c.getD pi []) (R - pi) hinvApp hsi1
              (by rw [happlen]; omega)
              (by rw [hω2old si hsi2]; exact hω)
              (by rw [getD_append_left _ _ _ _ hsi2]; exact hcur)
              hlv2 hkey hsort2 ?_
            intro e he
            rcases hmem2 e he with h2 | h2
            · exact Or.inl h2
            · right
              rw [h2, hv2v]
              refine ⟨rfl, ?_, ?_⟩
              · unfold tidsDistinct
                simp
              · intro info hinfo
                rw [List.mem_singleton] at hinfo
                subst hinfo
                refine ⟨?_, ?_, ?_⟩
                · show nbRoots ≤ t.store.length
                  omega
                · show t.store.length < (t.store ++ [freshN]).length
                  rw [happlen]; omega
                · exact hω2new
          obtain ⟨ω3, st2, hteq, hinv3⟩ := ih
            ({ t with store :=
              (t.store ++ [freshN]).set si (MultiTrieNode.node nd2) } :
              MultiTrie T) ω2 t.store.length (pi + 1) t2 hrtail (by omega)
            hinvMid (by omega)
            (by rw [List.length_set, happlen]; omega)
            hω2new
            hok3
          exact ⟨ω3, st2, hteq, hinv3⟩
        · rw [holdeq] at hcb
          obtain ⟨he0k, he0d, he0i⟩ := hentries e0 he0
          have hcb2 : (match find_store_index e0.2 (sel.getD (pi + 1) 0) with
              | Option.some cur_store_index =>
                Except.ok
                  ((({ t with store :=
                      t.store.set si MultiTrieNode.tombstone } : MultiTrie T),
                    cur_store_index), e0.2)
              | Option.none =>
                Except.ok
                  ((({ t with store :=
                      t.store.set si MultiTrieNode.tombstone } :
                      MultiTrie T).insert_new (decide (c.length - 1 = pi + 1)),
                    (({ t with store :=
                        t.store.set si MultiTrieNode.tombstone } :
                      MultiTrie T).insert_new
                        (decide (c.length - 1 = pi + 1))).store.length - 1),
                   e0.2 ++
                     [(⟨sel.getD (pi + 1) 0,
                        (({ t with store :=
                            t.store.set si MultiTrieNode.tombstone } :
                          MultiTrie T).insert_new
                            (decide (c.length - 1 = pi + 1))).store.length -
                          1⟩ : TrieNodeInfo)])) =
              Except.ok ((tX, σn), v2) := hcb
          cases hfs : find_store_index e0.2 (sel.getD (pi + 1) 0) with
          | some idx =>
            rw [hfs] at hcb2
            simp only [] at hcb2
            injection hcb2 with hA
            injection hA with hB hv2
            injection hB with hTX hσn
            subst hTX
            subst hσn
            subst hv2
            obtain ⟨info, hinfomem, hinfotid, hinfosi⟩ :=
              find_store_index_some e0.2 (sel.getD (pi + 1) 0) idx hfs
            obtain ⟨k1, k2, k3⟩ := he0i info hinfomem
            have hpr2 : (t.store.set si MultiTrieNode.tombstone).set si
                (MultiTrieNode.node nd2) =
                t.store.set si (MultiTrieNode.node nd2) := by
              rw [List.set_set]
            have hok3 : MultiTrie.insert_internal
                ({ t with store := t.store.set si (MultiTrieNode.node nd2) } :
                  MultiTrie T) idx c (pi + 1) rtail sel gv = Except.ok t2 := by
              rw [← hpr2]
              exact hok
            have hinvMid : storeInv R nbRoots KS PS ω
                (t.store.set si (MultiTrieNode.node nd2)) := by
              refine storeInv_set_node R nbRoots KS PS ω t.store si d nd2 p
                (c.getD pi []) (R - pi) ⟨hlen, hroots, hdeep⟩ hsi1 hsi2 hω hcur
                hlv2 hkey hsort2 ?_
              intro e he
              rcases hmem2 e he with h2 | h2
              · exact Or.inl h2
              · right
                rw [h2]
                exact ⟨rfl, he0d, he0i⟩
            obtain ⟨ω3, st2, hteq, hinv3⟩ := ih
              ({ t with store := t.store.set si (MultiTrieNode.node nd2) } :
                MultiTrie T) ω idx (pi + 1) t2 hrtail (by omega) hinvMid
              (by rw [← hinfosi]; exact k1)
              (by rw [List.length_set, ← hinfosi]; exact k2)
              (by rw [← hinfosi]; exact k3)
              hok3
            exact ⟨ω3, st2, hteq, hinv3⟩
          | none =>
            rw [hfs] at hcb2
            simp only [] at hcb2
            injection hcb2 with hA
            injection hA with hB hv2
            injection hB with hTX hσn
            have hσval : σn = t.store.length := by
              rw [← hσn]
              simp [MultiTrie.insert_new, List.length_set]
            have hv2v : v2 = e0.2 ++
                [(⟨sel.getD (pi + 1) 0, t.store.length⟩ : TrieNodeInfo)] := by
              rw [← hv2]
              simp [MultiTrie.insert_new, List.length_set]
            subst hTX
            subst hσval
            set freshN : MultiTrieNode T :=
              if decide (c.length - 1 = pi + 1) = true then
                MultiTrieNode.leaf (DigitTrie.new T t.base)
              else MultiTrieNode.node (DigitTrie.new (List TrieNodeInfo) t.base)
              with hfreshdef
            set ω2 : Nat → List Nat × Nat :=
              fun j => if j = t.store.length then (p, R - (pi + 1)) else ω j
              with hω2def
            have hω2old : ∀ j, j < t.store.length → ω2 j = ω j := by
              intro j hj
              rw [hω2def]
              exact if_neg (by omega)
            have hω2new : ω2 t.store.length = (p, R - (pi + 1)) := by
              rw [hω2def]
              exact if_pos rfl
            have hprefix : (t.store.set si MultiTrieNode.tombstone ++
                [freshN]).set si (MultiTrieNode.node nd2) =
                (t.store ++ [freshN]).set si (MultiTrieNode.node nd2) := by
              rw [set_append_of_lt _ _ _ _
                (by rw [List.length_set]; exact hsi2),
                List.set_set, ← set_append_of_lt _ _ _ _ hsi2]
            have hok3 : MultiTrie.insert_internal
                ({ t with store :=
                  (t.store ++ [freshN]).set si (MultiTrieNode.node nd2) } :
                  MultiTrie T) t.store.length c (pi + 1) rtail sel gv =
                Except.ok t2 := by
              rw [← hprefix]
              exact hok
            have happlen : (t.store ++ [freshN]).length =
                t.store.length + 1 := by
              rw [List.length_append]; rfl
            have hfreshGood : slotGood nbRoots (t.store ++ [freshN]).length KS
                ω2 freshN (ω2 t.store.length) := by
              rw [hω2new, hfreshdef]
              by_cases hbl : c.length - 1 = pi + 1
              · rw [if_pos (by simp [hbl])]
                exact ⟨by omega, List.Pairwise.nil, fun e he => absurd he
                  (List.not_mem_nil e)⟩
              · rw [if_neg (by simp [hbl])]
                exact ⟨by omega, List.Pairwise.nil, fun e he => absurd he
                  (List.not_mem_nil e)⟩
            have hinvApp : storeInv R nbRoots KS PS ω2 (t.store ++ [freshN]) :=
              storeInv_append R nbRoots KS PS ω ω2 t.store freshN
                ⟨hlen, hroots, hdeep⟩ hω2old hfreshGood
            have hinvMid : storeInv R nbRoots KS PS ω2
                ((t.store ++ [freshN]).set si (MultiTrieNode.node nd2)) := by
              refine storeInv_set_node R nbRoots KS PS ω2 (t.store ++ [freshN])
                si d nd2 p (c.getD pi []) (R - pi) hinvApp hsi1
                (by rw [happlen]; omega)
                (by rw [hω2old si hsi2]; exact hω)
                (by rw [getD_append_left _ _ _ _ hsi2]; exact hcur)
                hlv2 hkey hsort2 ?_
              intro e he
              rcases hmem2 e he with h2 | h2
              · exact Or.inl h2
              · right
                rw [h2, hv2v]
                refine ⟨rfl, ?_, ?_⟩
                · unfold tidsDistinct
                  rw [List.map_append, List.map_singleton, List.nodup_append]
                  refine ⟨he0d, List.nodup_singleton _, ?_⟩
                  intro a ha hb
                  rw [List.mem_singleton] at hb
                  subst hb
                  obtain ⟨info2, hinfo2, hinfo2e⟩ := List.mem_map.mp ha
                  exact find_store_index_none e0.2 _ hfs info2 hinfo2 hinfo2e
                · intro info hinfo
                  rcases List.mem_append.mp hinfo with hA2 | hB2
                  · obtain ⟨k1, k2, k3⟩ := he0i info hA2
                    refine ⟨k1, by rw [happlen]; omega, ?_⟩
                    rw [hω2old _ k2]
                    exact k3
                  · rw [List.mem_singleton] at hB2
                    subst hB2
                    refine ⟨?_, ?_, ?_⟩
                    · show nbRoots ≤ t.store.length
                      omega
                    · show t.store.length < (t.store ++ [freshN]).length
                      rw [happlen]; omega
                    · exact hω2new
            obtain ⟨ω3, st2, hteq, hinv3⟩ := ih
              ({ t with store :=
                (t.store ++ [freshN]).set si (MultiTrieNode.node nd2) } :
                MultiTrie T) ω2 t.store.length (pi + 1) t2 hrtail (by omega)
              hinvMid (by omega)
              (by rw [List.length_set, happlen]; omega)
              hω2new
              hok3
            exact ⟨ω3, st2, hteq, hinv3⟩

theorem storeInv_set_root_leaf {T : Type} (R nbRoots : Nat)
    (KS : List Nat → List (List Nat)) (PS : List (List Nat))
    (ω : Nat → List Nat × Nat) (store : List (MultiTrieNode T)) (si : Nat)
    (d d2 : DigitTrie T) (key : List Nat)
    (hinv : storeInv R nbRoots KS PS ω store)
    (hsi : si < nbRoots)
    (hcur : store.getD si MultiTrieNode.tombstone = MultiTrieNode.leaf d)
    (hkey : key ∈ PS)
    (hsort2 : entriesSorted d2.entries)
    (hnew : ∀ e ∈ d2.entries, e ∈ d.entries ∨ e.1 = key) :
    storeInv R nbRoots KS PS ω (store.set si (MultiTrieNode.leaf d2)) := by
  obtain ⟨hlen, hroots, hdeep⟩ := hinv
  have hrg := hroots si hsi
  rw [hcur] at hrg
  obtain ⟨hR1, hsort, hkeys⟩ := hrg
  refine ⟨?_, ?_, ?_⟩
  · rw [List.length_set]; exact hlen
  · intro i hi
    rw [List.length_set]
    by_cases hie : i = si
    · subst hie
      rw [getD_set_self _ _ _ _ (by omega)]
      refine ⟨hR1, hsort2, ?_⟩
      intro e he
      rcases hnew e he with h2 | h2
      · exact hkeys e h2
      · rw [h2]; exact hkey
    · rw [getD_set_ne _ _ _ _ _ (fun he => hie he.symm)]
      exact hroots i hi
  · intro j hj1 hj2
    rw [List.length_set] at hj2 ⊢
    rw [getD_set_ne _ _ _ _ _ (by omega : si ≠ j)]
    exact hdeep j hj1 hj2

theorem storeInv_set_root_node {T : Type} (R nbRoots : Nat)
    (KS : List Nat → List (List Nat)) (PS : List (List Nat))
    (ω : Nat → List Nat × Nat) (store : List (MultiTrieNode T)) (si : Nat)
    (d nd2 : DigitTrie (List TrieNodeInfo)) (key : List Nat)
    (hinv : storeInv R nbRoots KS PS ω store)
    (hsi : si < nbRoots)
    (hcur : store.getD si MultiTrieNode.tombstone = MultiTrieNode.node d)
    (hkey : key ∈ PS)
    (hsort2 : entriesSorted nd2.entries)
    (hnew : ∀ e ∈ nd2.entries, e ∈ d.entries ∨
      (e.1 = key ∧ tidsDistinct e.2 ∧
        ∀ info ∈ e.2, nbRoots ≤ info.store_index ∧
          info.store_index < store.length ∧
          ω info.store_index = (key, R - 1))) :
    storeInv R nbRoots KS PS ω (store.set si (MultiTrieNode.node nd2)) := by
  obtain ⟨hlen, hroots, hdeep⟩ := hinv
  have hrg := hroots si hsi
  rw [hcur] at hrg
  obtain ⟨hR2, hsort, hentries⟩ := hrg
  refine ⟨?_, ?_, ?_⟩
  · rw [List.length_set]; exact hlen
  · intro i hi
    rw [List.length_set]
    by_cases hie : i = si
    · subst hie
      rw [getD_set_self _ _ _ _ (by omega)]
      refine ⟨hR2, hsort2, ?_⟩
      intro e he
      rcases hnew e he with h2 | ⟨hk, hd1, hd2⟩
      · exact hentries e h2
      · refine ⟨by rw [hk]; exact hkey, hd1, ?_⟩
        intro info hinfo
        obtain ⟨k1, k2, k3⟩ := hd2 info hinfo
        exact ⟨k1, k2, by rw [k3, hk]⟩
    · rw [getD_set_ne _ _ _ _ _ (fun he => hie he.symm)]
      exact hroots i hi
  · intro j hj1 hj2
    rw [List.length_set] at hj2 ⊢
    rw [getD_set_ne _ _ _ _ _ (by omega : si ≠ j)]
    exact hdeep j hj1 hj2

theorem insert_internal_root {T : Type} (R nbRoots : Nat)
    (KS : List Nat → List (List Nat)) (PS : List (List Nat))
    (p : List Nat) (c : List (List Nat)) (sel : List Nat)
    (gv : List (List Nat) → List Nat → Except DlcError T)
    (hclen : c.length = R)
    (hhead : c.headD [] = p) (hp : p ∈ PS)
    (htail : ∀ k ∈ c.drop 1, k ∈ KS p)
    (t : MultiTrie T) (ω : Nat → List Nat × Nat) (si : Nat) (t2 : MultiTrie T)
    (hinv : storeInv R nbRoots KS PS ω t.store)
    (hsi : si < nbRoots)
    (hok : MultiTrie.insert_internal t si c 0 c sel gv = Except.ok t2) :
    ∃ (ω2 : Nat → List Nat × Nat) (st2 : List (MultiTrieNode T)),
      t2 = { t with store := st2 } ∧ storeInv R nbRoots KS PS ω2 st2 := by
  cases c with
  | nil =>
    simp only [MultiTrie.insert_internal] at hok
    cases hok
  | cons c0 ctail =>
    have hc0 : c0 = p := hhead
    have hlenR : ctail.length + 1 = R := by
      rw [← hclen, List.length_cons]
    obtain ⟨hlen, hroots, hdeep⟩ := hinv
    have hrg := hroots si hsi
    have hsilen : si < t.store.length := by omega
    simp only [MultiTrie.insert_internal] at hok
    cases hcur : t.store.getD si MultiTrieNode.tombstone with
    | tombstone =>
      rw [hcur] at hok
      simp only [] at hok
      cases hok
    | leaf d =>
      rw [hcur] at hok
      simp only [] at hok
      rw [hcur] at hrg
      obtain ⟨hR1, hsort, hkeysPS⟩ := hrg
      rw [if_pos (by rw [List.length_cons]; omega :
        (0 : Nat) = (c0 :: ctail).length - 1)] at hok
      cases hq : d.insert ((c0 :: ctail).getD 0 [])
          (fun s _ => (gv (c0 :: ctail) sel).map (fun v => (s, v))) () with
      | error e =>
        rw [hq] at hok
        simp only [] at hok
        cases hok
      | ok sv =>
        obtain ⟨u, d2⟩ := sv
        rw [hq] at hok
        simp only [] at hok
        cases hok
        obtain ⟨hbase, v2, old, hcb, hold, hsort2, hmem2⟩ :=
          digitTrie_insert_char d ((c0 :: ctail).getD 0 [])
            (fun s _ => (gv (c0 :: ctail) sel).map (fun v => (s, v))) () u d2
            hsort hq
        refine ⟨ω, t.store.set si (MultiTrieNode.leaf d2), ?_, ?_⟩
        · rw [List.set_set]
        · refine storeInv_set_root_leaf R nbRoots KS PS ω t.store si d d2 p
            ⟨hlen, hroots, hdeep⟩ hsi hcur hp hsort2 ?_
          intro e he
          rcases hmem2 e he with h2 | h2
          · exact Or.inl h2
          · right
            rw [h2]
            exact hc0
    | node d =>
      rw [hcur] at hok
      simp only [] at hok
      rw [hcur] at hrg
      obtain ⟨hR2, hsort, hentries⟩ := hrg
      rw [if_pos (by rw [List.length_cons]; omega :
        0 + 1 < (c0 :: ctail).length)] at hok
      cases hq : d.insert ((c0 :: ctail).getD 0 [])
          (fun (st : MultiTrie T × Nat) cur_data_res =>
            match cur_data_res with
            | Option.some cur_data =>
              match find_store_index cur_data (sel.getD (0 + 1) 0) with
              | Option.some cur_store_index =>
                Except.ok ((st.1, cur_store_index), cur_data)
              | Option.none =>
                Except.ok
                  ((st.1.insert_new
                      (decide ((c0 :: ctail).length - 1 = 0 + 1)),
                    (st.1.insert_new
                      (decide ((c0 :: ctail).length - 1 = 0 + 1))).store.length
                      - 1),
                   cur_data ++
                     [(⟨sel.getD (0 + 1) 0,
                        (st.1.insert_new
                          (decide ((c0 :: ctail).length - 1 =
                            0 + 1))).store.length - 1⟩ : TrieNodeInfo)])
            | Option.none =>
              Except.ok
                ((st.1.insert_new (decide ((c0 :: ctail).length - 1 = 0 + 1)),
                  (st.1.insert_new
                    (decide ((c0 :: ctail).length - 1 = 0 + 1))).store.length
                    - 1),
                 [] ++
                   [(⟨sel.getD (0 + 1) 0,
                      (st.1.insert_new
                        (decide ((c0 :: ctail).length - 1 =
                          0 + 1))).store.length - 1⟩ : TrieNodeInfo)]))
          ({ t with store := t.store.set si MultiTrieNode.tombstone }, 0) with
      | error e =>
        rw [hq] at hok
        simp only [] at hok
        cases hok
      | ok sv =>
        obtain ⟨⟨tX, σn⟩, nd2⟩ := sv
        rw [hq] at hok
        simp only [] at hok
        obtain ⟨hbase, v2, old, hcb, hold, hsort2, hmem2⟩ :=
          digitTrie_insert_char d ((c0 :: ctail).getD 0 []) _
            (({ t with store := t.store.set si MultiTrieNode.tombstone } :
              MultiTrie T), 0) (tX, σn) nd2 hsort hq
        rcases hold with hnone | ⟨e0, he0, holdeq, hkey0⟩
        · rw [hnone] at hcb
          have hcb2 : (Except.ok
              ((({ t with store := t.store.set si MultiTrieNode.tombstone } :
                  MultiTrie T).insert_new
                    (decide ((c0 :: ctail).length - 1 = 0 + 1)),
                (({ t with store := t.store.set si MultiTrieNode.tombstone } :
                  MultiTrie T).insert_new
                    (decide ((c0 :: ctail).length - 1 = 0 + 1))).store.length
                  - 1),
               ([] : List TrieNodeInfo) ++
                 [(⟨sel.getD (0 + 1) 0,
                    (({ t with store :=
                        t.store.set si MultiTrieNode.tombstone } :
                      MultiTrie T).insert_new
                        (decide ((c0 :: ctail).length - 1 =
                          0 + 1))).store.length - 1⟩ : TrieNodeInfo)]) :
              Except DlcError ((MultiTrie T × Nat) × List TrieNodeInfo)) =
              Except.ok ((tX, σn), v2) := hcb
          injection hcb2 with hA
          injection hA with hB hv2
          injection hB with hTX hσn
          have hσval : σn = t.store.length := by
            rw [← hσn]
            simp [MultiTrie.insert_new, List.length_set]
          have hv2v : v2 = [(⟨sel.getD (0 + 1) 0, t.store.length⟩ :
              TrieNodeInfo)] := by
            rw [← hv2]
            simp [MultiTrie.insert_new, List.length_set]
          subst hTX
          subst hσval
          set freshN : MultiTrieNode T :=
            if decide ((c0 :: ctail).length - 1 = 0 + 1) = true then
              MultiTrieNode.leaf (DigitTrie.new T t.base)
            else MultiTrieNode.node (DigitTrie.new (List TrieNodeInfo) t.base)
            with hfreshdef
          set ω2 : Nat → List Nat × Nat :=
            fun j => if j = t.store.length then (p, R - 1) else ω j
            with hω2def
          have hω2old : ∀ j, j < t.store.length → ω2 j = ω j := by
            intro j hj
            rw [hω2def]
            exact if_neg (by omega)
          have hω2new : ω2 t.store.length = (p, R - 1) := by
            rw [hω2def]
            exact if_pos rfl
          have hprefix : (t.store.set si MultiTrieNode.tombstone ++
              [freshN]).set si (MultiTrieNode.node nd2) =
              (t.store ++ [freshN]).set si (MultiTrieNode.node nd2) := by
            rw [set_append_of_lt _ _ _ _
              (by rw [List.length_set]; exact hsilen),
              List.set_set, ← set_append_of_lt _ _ _ _ hsilen]
          have hok3 : MultiTrie.insert_internal
              ({ t with store :=
                (t.store ++ [freshN]).set si (MultiTrieNode.node nd2) } :
                MultiTrie T) t.store.length (c0 :: ctail) (0 + 1) ctail sel
              gv = Except.ok t2 := by
            rw [← hprefix]
            exact hok
          have happlen : (t.store ++ [freshN]).length = t.store.length + 1 := by
            rw [List.length_append]; rfl
          have hfreshGood : slotGood nbRoots (t.store ++ [freshN]).length KS ω2
              freshN (ω2 t.store.length) := by
            rw [hω2new, hfreshdef]
            by_cases hbl : (c0 :: ctail).length - 1 = 0 + 1
            · rw [List.length_cons] at hbl
              rw [if_pos (by simp only [decide_eq_true_eq,
                List.length_cons]; omega)]
              exact ⟨by omega, List.Pairwise.nil, fun e he => absurd he
                (List.not_mem_nil e)⟩
            · rw [List.length_cons] at hbl
              rw [if_neg (by simp only [decide_eq_true_eq,
                List.length_cons]; omega)]
              exact ⟨by omega, List.Pairwise.nil, fun e he => absurd he
                (List.not_mem_nil e)⟩
          have hinvApp : storeInv R nbRoots KS PS ω2 (t.store ++ [freshN]) :=
            storeInv_append R nbRoots KS PS ω ω2 t.store freshN
              ⟨hlen, hroots, hdeep⟩ hω2old hfreshGood
          have hinvMid : storeInv R nbRoots KS PS ω2
              ((t.store ++ [freshN]).set si (MultiTrieNode.node nd2)) := by
            refine storeInv_set_root_node R nbRoots KS PS ω2
              (t.store ++ [freshN]) si d nd2 p hinvApp hsi
              (by rw [getD_append_left _ _ _ _ hsilen]; exact hcur)
              hp hsort2 ?_
            intro e he
            rcases hmem2 e he with h2 | h2
            · exact Or.inl h2
            · right
              rw [h2, hv2v]
              refine ⟨hc0, ?_, ?_⟩
              · unfold tidsDistinct
                simp
              · intro info hinfo
                rw [List.mem_singleton] at hinfo
                subst hinfo
                refine ⟨?_, ?_, ?_⟩
                · show nbRoots ≤ t.store.length
                  omega
                · show t.store.length < (t.store ++ [freshN]).length
                  rw [happlen]; omega
                · exact hω2new
          obtain ⟨ω3, st2, hteq, hinv3⟩ :=
            insert_internal_deep R nbRoots KS PS p (c0 :: ctail) sel gv hclen
              htail ctail
              ({ t with store :=
                (t.store ++ [freshN]).set si (MultiTrieNode.node nd2) } :
                MultiTrie T) ω2 t.store.length (0 + 1) t2 rfl (by omega)
              hinvMid (by omega)
              (by rw [List.length_set, happlen]; omega)
              hω2new
              hok3
          exact ⟨ω3, st2, hteq, hinv3⟩
        · rw [holdeq] at hcb
          obtain ⟨he0k, he0d, he0i⟩ := hentries e0 he0
          have hcb2 : (match find_store_index e0.2 (sel.getD (0 + 1) 0) with
              | Option.some cur_store_index =>
                Except.ok
                  ((({ t with store :=
                      t.store.set si MultiTrieNode.tombstone } : MultiTrie T),
                    cur_store_index), e0.2)
              | Option.none =>
                Except.ok
                  ((({ t with store :=
                      t.store.set si MultiTrieNode.tombstone } :
                      MultiTrie T).insert_new
                        (decide ((c0 :: ctail).length - 1 = 0 + 1)),
                    (({ t with store :=
                        t.store.set si MultiTrieNode.tombstone } :
                      MultiTrie T).insert_new
                        (decide ((c0 :: ctail).length - 1 =
                          0 + 1))).store.length - 1),
                   e0.2 ++
                     [(⟨sel.getD (0 + 1) 0,
                        (({ t with store :=
                            t.store.set si MultiTrieNode.tombstone } :
                          MultiTrie T).insert_new
                            (decide ((c0 :: ctail).length - 1 =
                              0 + 1))).store.length - 1⟩ : TrieNodeInfo)])) =
              Except.ok ((tX, σn), v2) := hcb
          cases hfs : find_store_index e0.2 (sel.getD (0 + 1) 0) with
          | some idx =>
            rw [hfs] at hcb2
            simp only [] at hcb2
            injection hcb2 with hA
            injection hA with hB hv2
            injection hB with hTX hσn
            subst hTX
            subst hσn
            subst hv2
            obtain ⟨info, hinfomem, hinfotid, hinfosi⟩ :=
              find_store_index_some e0.2 (sel.getD (0 + 1) 0) idx hfs
            obtain ⟨k1, k2, k3⟩ := he0i info hinfomem
            have hpr2 : (t.store.set si MultiTrieNode.tombstone).set si
                (MultiTrieNode.node nd2) =
                t.store.set si (MultiTrieNode.node nd2) := by
              rw [List.set_set]
            have hok3 : MultiTrie.insert_internal
                ({ t with store := t.store.set si (MultiTrieNode.node nd2) } :
                  MultiTrie T) idx (c0 :: ctail) (0 + 1) ctail sel gv =
                Except.ok t2 := by
              rw [← hpr2]
              exact hok
            have hkeyp : e0.1 = p := by rw [hkey0]; exact hc0
            have hinvMid : storeInv R nbRoots KS PS ω
                (t.store.set si (MultiTrieNode.node nd2)) := by
              refine storeInv_set_root_node R nbRoots KS PS ω t.store si d nd2
                p ⟨hlen, hroots, hdeep⟩ hsi hcur hp hsort2 ?_
              intro e he
              rcases hmem2 e he with h2 | h2
              · exact Or.inl h2
              · right
                rw [h2]
                refine ⟨hc0, he0d, ?_⟩
                intro info2 hinfo2
                obtain ⟨m1, m2, m3⟩ := he0i info2 hinfo2
                exact ⟨m1, m2, by rw [m3, hkeyp]⟩
            obtain ⟨ω3, st2, hteq, hinv3⟩ :=
              insert_internal_deep R nbRoots KS PS p (c0 :: ctail) sel gv
                hclen htail ctail
                ({ t with store := t.store.set si (MultiTrieNode.node nd2) } :
                  MultiTrie T) ω idx (0 + 1) t2 rfl (by omega) hinvMid
                (by rw [← hinfosi]; exact k1)
                (by rw [List.length_set, ← hinfosi]; exact k2)
                (by rw [← hinfosi, k3, hkeyp])
                hok3
            exact ⟨ω3, st2, hteq, hinv3⟩
          | none =>
            rw [hfs] at hcb2
            simp only [] at hcb2
            injection hcb2 with hA
            injection hA with hB hv2
            injection hB with hTX hσn
            have hσval : σn = t.store.length := by
              rw [← hσn]
              simp [MultiTrie.insert_new, List.length_set]
            have hv2v : v2 = e0.2 ++
                [(⟨sel.getD (0 + 1) 0, t.store.length⟩ : TrieNodeInfo)] := by
              rw [← hv2]
              simp [MultiTrie.insert_new, List.length_set]
            subst hTX
            subst hσval
            set freshN : MultiTrieNode T :=
              if decide ((c0 :: ctail).length - 1 = 0 + 1) = true then
                MultiTrieNode.leaf (DigitTrie.new T t.base)
              else MultiTrieNode.node (DigitTrie.new (List TrieNodeInfo) t.base)
              with hfreshdef
            set ω2 : Nat → List Nat × Nat :=
              fun j => if j = t.store.length then (p, R - 1) else ω j
              with hω2def
            have hω2old : ∀ j, j < t.store.length → ω2 j = ω j := by
              intro j hj
              rw [hω2def]
              exact if_neg (by omega)
            have hω2new : ω2 t.store.length = (p, R - 1) := by
              rw [hω2def]
              exact if_pos rfl
            have hkeyp : e0.1 = p := by rw [hkey0]; exact hc0
            have hprefix : (t.store.set si MultiTrieNode.tombstone ++
                [freshN]).set si (MultiTrieNode.node nd2) =
                (t.store ++ [freshN]).set si (MultiTrieNode.node nd2) := by
              rw [set_append_of_lt _ _ _ _
                (by rw [List.length_set]; exact hsilen),
                List.set_set, ← set_append_of_lt _ _ _ _ hsilen]
            have hok3 : MultiTrie.insert_internal
                ({ t with store :=
                  (t.store ++ [freshN]).set si (MultiTrieNode.node nd2) } :
                  MultiTrie T) t.store.length (c0 :: ctail) (0 + 1) ctail sel
                gv = Except.ok t2 := by
              rw [← hprefix]
              exact hok
            have happlen : (t.store ++ [freshN]).length =
                t.store.length + 1 := by
              rw [List.length_append]; rfl
            have hfreshGood : slotGood nbRoots (t.store ++ [freshN]).length KS
                ω2 freshN (ω2 t.store.length) := by
              rw [hω2new, hfreshdef]
              by_cases hbl : (c0 :: ctail).length - 1 = 0 + 1
              · rw [List.length_cons] at hbl
                rw [if_pos (by simp only [decide_eq_true_eq,
                  List.length_cons]; omega)]
                exact ⟨by omega, List.Pairwise.nil, fun e he => absurd he
                  (List.not_mem_nil e)⟩
              · rw [List.length_cons] at hbl
                rw [if_neg (by simp only [decide_eq_true_eq,
                  List.length_cons]; omega)]
                exact ⟨by omega, List.Pairwise.nil, fun e he => absurd he
                  (List.not_mem_nil e)⟩
            have hinvApp : storeInv R nbRoots KS PS ω2 (t.store ++ [freshN]) :=
              storeInv_append R nbRoots KS PS ω ω2 t.store freshN
                ⟨hlen, hroots, hdeep⟩ hω2old hfreshGood
            have hinvMid : storeInv R nbRoots KS PS ω2
                ((t.store ++ [freshN]).set si (MultiTrieNode.node nd2)) := by
              refine storeInv_set_root_node R nbRoots KS PS ω2
                (t.store ++ [freshN]) si d nd2 p hinvApp hsi
                (by rw [getD_append_left _ _ _ _ hsilen]; exact hcur)
                hp hsort2 ?_
              intro e he
              rcases hmem2 e he with h2 | h2
              · exact Or.inl h2
              · right
                rw [h2, hv2v]
                refine ⟨hc0, ?_, ?_⟩
                · unfold tidsDistinct
                  rw [List.map_append, List.map_singleton, List.nodup_append]
                  refine ⟨he0d, List.nodup_singleton _, ?_⟩
                  intro a ha hb
                  rw [List.mem_singleton] at hb
                  subst hb
                  obtain ⟨info2, hinfo2, hinfo2e⟩ := List.mem_map.mp ha
                  exact find_store_index_none e0.2 _ hfs info2 hinfo2 hinfo2e
                · intro info hinfo
                  rcases List.mem_append.mp hinfo with hA2 | hB2
                  · obtain ⟨m1, m2, m3⟩ := he0i info hA2
                    refine ⟨m1, by rw [happlen]; omega, ?_⟩
                    rw [hω2old _ m2, m3, hkeyp]
                  · rw [List.mem_singleton] at hB2
                    subst hB2
                    refine ⟨?_, ?_, ?_⟩
                    · show nbRoots ≤ t.store.length
                      omega
                    · show t.store.length < (t.store ++ [freshN]).length
                      rw [happlen]; omega
                    · exact hω2new
            obtain ⟨ω3, st2, hteq, hinv3⟩ :=
              insert_internal_deep R nbRoots KS PS p (c0 :: ctail) sel gv
                hclen htail ctail
                ({ t with store :=
                  (t.store ++ [freshN]).set si (MultiTrieNode.node nd2) } :
                  MultiTrie T) ω2 t.store.length (0 + 1) t2 rfl (by omega)
                hinvMid (by omega)
                (by rw [List.length_set, happlen]; omega)
                hω2new
                hok3
            exact ⟨ω3, st2, hteq, hinv3⟩

theorem choicePower_mem {α : Type} :
    ∀ (k : Nat) (opts : List α) (c : List α), c ∈ choicePower opts k →
      c.length = k ∧ ∀ x ∈ c, x ∈ opts := by
  intro k
  induction k with
  | zero =>
    intro opts c hc
    rcases List.mem_singleton.mp hc with rfl
    exact ⟨rfl, fun x hx => absurd hx (List.not_mem_nil x)⟩
  | succ k ih =>
    intro opts c hc
    simp only [choicePower] at hc
    obtain ⟨o, ho, hc2⟩ := List.mem_flatMap.mp hc
    obtain ⟨c2, hc2m, hc2e⟩ := List.mem_map.mp hc2
    obtain ⟨hl, hmem⟩ := ih opts c2 hc2m
    subst hc2e
    refine ⟨by simp [hl], ?_⟩
    intro x hx
    rcases List.mem_cons.mp hx with rfl | hx2
    · exact ho
    · exact hmem x hx2

theorem computeOutcomeCombinations_mem (nbD : Nat) (p : List Nat)
    (maxE minS : Nat) (mc : Bool) (R : Nat) (hR : 1 ≤ R) (c : List (List Nat))
    (hc : c ∈ computeOutcomeCombinations nbD p maxE minS mc R) :
    c.length = R ∧ c.headD [] = p ∧
      ∀ k ∈ c.drop 1, k ∈ optList nbD p maxE minS := by
  rw [computeOutcomeCombinations_optList] at hc
  obtain ⟨rest, hrest, hce⟩ := List.mem_map.mp hc
  obtain ⟨hl, hmem⟩ := choicePower_mem (R - 1) _ rest hrest
  subst hce
  refine ⟨by rw [List.length_cons, hl]; omega, rfl, ?_⟩
  intro k hk
  exact hmem k (by simpa using hk)

theorem combinationsAux_mem :
    ∀ (xs : List Nat) (k : Nat) (c : List Nat), c ∈ combinationsAux xs k →
      c.length = k ∧ List.Sublist c xs := by
  intro xs
  induction xs with
  | nil =>
    intro k c hc
    cases k with
    | zero =>
      rcases List.mem_singleton.mp hc with rfl
      exact ⟨rfl, List.Sublist.refl _⟩
    | succ k => cases hc
  | cons x xs ih =>
    intro k c hc
    cases k with
    | zero =>
      rcases List.mem_singleton.mp hc with rfl
      exact ⟨rfl, List.nil_sublist _⟩
    | succ k =>
      simp only [combinationsAux] at hc
      rcases List.mem_append.mp hc with h | h
      · obtain ⟨c2, hc2, hce⟩ := List.mem_map.mp h
        obtain ⟨hl, hs⟩ := ih k c2 hc2
        subst hce
        exact ⟨by simp [hl], List.Sublist.cons₂ x hs⟩
      · obtain ⟨hl, hs⟩ := ih (Nat.succ k) c h
        exact ⟨hl, hs.cons x⟩

theorem sorted_head_bound :
    ∀ (l : List Nat) (n : Nat), l.Pairwise (· < ·) → (∀ x ∈ l, x < n) →
      l ≠ [] → l.headD 0 + l.length ≤ n := by
  intro l
  induction l with
  | nil => intro n _ _ h; exact absurd rfl h
  | cons a rest ih =>
    intro n hpw hlt _
    rw [List.pairwise_cons] at hpw
    cases rest with
    | nil =>
      have := hlt a (List.mem_cons_self _ _)
      simp only [List.headD_cons, List.length_cons, List.length_nil]
      omega
    | cons b rest2 =>
      have h2 := ih n hpw.2 (fun x hx => hlt x (List.mem_cons_of_mem _ hx))
        (by simp)
      have hab : a < b := hpw.1 b (List.mem_cons_self _ _)
      simp only [List.headD_cons, List.length_cons] at h2 ⊢
      omega

theorem combinationsList_sel (nbT R : Nat) (sel : List Nat)
    (hsel : sel ∈ combinationsList nbT R) (hR : 1 ≤ R) :
    sel.length = R ∧ sel.headD 0 < nbT - R + 1 := by
  obtain ⟨hl, hs⟩ := combinationsAux_mem (List.range nbT) R sel hsel
  refine ⟨hl, ?_⟩
  have hpw : sel.Pairwise (· < ·) :=
    (List.pairwise_lt_range nbT).sublist hs
  have hlt : ∀ x ∈ sel, x < nbT := fun x hx => List.mem_range.mp (hs.subset hx)
  have hne : sel ≠ [] := by
    intro he
    rw [he] at hl
    simp at hl
    omega
  have hb := sorted_head_bound sel nbT hpw hlt hne
  omega

theorem insert_inv {T : Type} (R nbRoots : Nat)
    (KS : List Nat → List (List Nat)) (PS : List (List Nat))
    (t : MultiTrie T) (ω : Nat → List Nat × Nat)
    (p : List Nat) (gv : List (List Nat) → List Nat → Except DlcError T)
    (t2 : MultiTrie T)
    (hReq : t.nb_required = R) (hnbT : nbRoots = t.nb_tries - R + 1)
    (hKS : KS = fun q => optList t.nb_digits q t.max_error_exp
      t.min_support_exp)
    (hR : 1 ≤ R) (hp : p ∈ PS)
    (hinv : storeInv R nbRoots KS PS ω t.store)
    (hok : t.insert p gv = Except.ok t2) :
    (∃ ω2, storeInv R nbRoots KS PS ω2 t2.store) ∧
      t2.nb_required = t.nb_required ∧ t2.nb_tries = t.nb_tries ∧
      t2.nb_digits = t.nb_digits ∧ t2.max_error_exp = t.max_error_exp ∧
      t2.min_support_exp = t.min_support_exp := by
  simp only [MultiTrie.insert] at hok
  have hcombs : ∀ c ∈ (if 1 < t.nb_required then
      computeOutcomeCombinations t.nb_digits p t.max_error_exp
        t.min_support_exp t.maximize_coverage t.nb_required
      else [[p]]),
      c.length = R ∧ c.headD [] = p ∧ ∀ k ∈ c.drop 1, k ∈ KS p := by
    intro c hc
    by_cases hcase : 1 < t.nb_required
    · rw [if_pos hcase] at hc
      obtain ⟨h1, h2, h3⟩ := computeOutcomeCombinations_mem t.nb_digits p
        t.max_error_exp t.min_support_exp t.maximize_coverage t.nb_required
        (by omega) c hc
      rw [hReq] at h1
      refine ⟨h1, h2, ?_⟩
      intro k hk
      rw [hKS]
      exact h3 k hk
    · rw [if_neg hcase] at hc
      rcases List.mem_singleton.mp hc with rfl
      refine ⟨by simp; omega, rfl, ?_⟩
      intro k hk
      simp at hk
  refine foldlM_inv (fun tx =>
      (∃ ωx, storeInv R nbRoots KS PS ωx tx.store) ∧
        tx.nb_required = t.nb_required ∧ tx.nb_tries = t.nb_tries ∧
        tx.nb_digits = t.nb_digits ∧ tx.max_error_exp = t.max_error_exp ∧
        tx.min_support_exp = t.min_support_exp)
    _ _ t t2 ?_ ⟨⟨ω, hinv⟩, rfl, rfl, rfl, rfl, rfl⟩ hok
  intro comb hcomb acc acc2 hP hstep
  obtain ⟨hclen, hchead, hctail⟩ := hcombs comb hcomb
  refine foldlM_inv (fun tx =>
      (∃ ωx, storeInv R nbRoots KS PS ωx tx.store) ∧
        tx.nb_required = t.nb_required ∧ tx.nb_tries = t.nb_tries ∧
        tx.nb_digits = t.nb_digits ∧ tx.max_error_exp = t.max_error_exp ∧
        tx.min_support_exp = t.min_support_exp)
    _ _ acc acc2 ?_ hP hstep
  intro sel hsel b b2 hPb hbstep
  obtain ⟨⟨ωb, hinvb⟩, hq1, hq2, hq3, hq4, hq5⟩ := hPb
  obtain ⟨hsell, hselh⟩ := combinationsList_sel t.nb_tries t.nb_required sel
    hsel (by omega)
  obtain ⟨ω2, st2, heq, hinv2⟩ := insert_internal_root R nbRoots KS PS p comb
    sel gv hclen hchead hp hctail b ωb (sel.headD 0) b2 hinvb
    (by omega) hbstep
  subst heq
  exact ⟨⟨ω2, hinv2⟩, hq1, hq2, hq3, hq4, hq5⟩

theorem storeInv_new {T : Type} (nbT R base minS maxE nbD : Nat) (mc : Bool)
    (PS : List (List Nat)) (KS : List Nat → List (List Nat)) (hR : 1 ≤ R) :
    storeInv R (nbT - R + 1) KS PS (fun _ => ([], 0))
      ((MultiTrie.new T nbT R base minS maxE nbD mc).store) := by
  simp only [MultiTrie.new]
  by_cases h2 : 1 < R
  · rw [if_pos h2]
    refine ⟨by rw [List.length_replicate], ?_, ?_⟩
    · intro i hi
      rw [List.length_replicate,
        getD_replicate_of_lt _ _ _ _ (by omega)]
      exact ⟨by omega, List.Pairwise.nil, fun e he => absurd he
        (List.not_mem_nil e)⟩
    · intro j hj1 hj2
      rw [List.length_replicate] at hj2
      omega
  · rw [if_neg h2]
    refine ⟨by rw [List.length_replicate], ?_, ?_⟩
    · intro i hi
      rw [List.length_replicate,
        getD_replicate_of_lt _ _ _ _ (by omega)]
      exact ⟨by omega, List.Pairwise.nil, fun e he => absurd he
        (List.not_mem_nil e)⟩
    · intro j hj1 hj2
      rw [List.length_replicate] at hj2
      omega

theorem insertAllWith_good {T : Type} (nbT R base minS maxE nbD : Nat)
    (mc : Bool)
    (inserts : List (List Nat ×
      (List (List Nat) → List Nat → Except DlcError T)))
    (t2 : MultiTrie T) (hR : 1 ≤ R)
    (hok : (MultiTrie.new T nbT R base minS maxE nbD mc).insertAllWith
      inserts = Except.ok t2) :
    (∃ ω2, storeInv R (nbT - R + 1) (fun q => optList nbD q maxE minS)
      (inserts.map (fun pr => pr.1)) ω2 t2.store) ∧
      t2.nb_required = R ∧ t2.nb_tries = nbT := by
  unfold MultiTrie.insertAllWith at hok
  have := foldlM_inv (fun tx =>
      (∃ ωx, storeInv R (nbT - R + 1) (fun q => optList nbD q maxE minS)
        (inserts.map (fun pr => pr.1)) ωx tx.store) ∧
        tx.nb_required = R ∧ tx.nb_tries = nbT ∧ tx.nb_digits = nbD ∧
        tx.max_error_exp = maxE ∧ tx.min_support_exp = minS)
    _ inserts (MultiTrie.new T nbT R base minS maxE nbD mc) t2 ?_
    ⟨⟨fun _ => ([], 0),
      storeInv_new nbT R base minS maxE nbD mc _ _ hR⟩,
      rfl, rfl, rfl, rfl, rfl⟩ hok
  · exact ⟨this.1, this.2.1, this.2.2.1⟩
  · intro pr hpr acc acc2 hP hstep
    obtain ⟨⟨ωa, hinva⟩, hq1, hq2, hq3, hq4, hq5⟩ := hP
    obtain ⟨hS, hr1, hr2, hr3, hr4, hr5⟩ := insert_inv R (nbT - R + 1)
      (fun q => optList nbD q maxE minS) (inserts.map (fun pr => pr.1))
      acc ωa pr.1 pr.2 acc2 hq1 (by omega)
      (by rw [hq3, hq4, hq5]) hR
      (List.mem_map_of_mem _ hpr) hinva hstep
    refine ⟨hS, ?_, ?_, ?_, ?_, ?_⟩
    · rw [hr1, hq1]
    · rw [hr2, hq2]
    · rw [hr3, hq3]
    · rw [hr4, hq4]
    · rw [hr5, hq5]

theorem slot_goodNode {T : Type} (R nbRoots : Nat)
    (KS : List Nat → List (List Nat)) (PS : List (List Nat))
    (ω : Nat → List Nat × Nat) (store : List (MultiTrieNode T))
    (hinv : storeInv R nbRoots KS PS ω store) :
    ∀ (lv : Nat) (j : Nat) (q : List Nat), nbRoots ≤ j → j < store.length →
      ω j = (q, lv) → pairwiseNP (KS q) →
      goodNode store lv (store.getD j MultiTrieNode.tombstone) := by
  obtain ⟨hlen, hroots, hdeep⟩ := hinv
  intro lv
  induction lv using Nat.strong_induction_on with
  | _ lv ih =>
    intro j q hj1 hj2 hωj hKSq
    have hsg := hdeep j hj1 hj2
    rw [hωj] at hsg
    cases hcur : store.getD j MultiTrieNode.tombstone with
    | tombstone => rw [hcur] at hsg; exact hsg.elim
    | leaf d =>
      rw [hcur] at hsg
      obtain ⟨hlv, hsort, hkeys⟩ := slotGood_leaf_inv hsg
      subst hlv
      exact pairwiseNP_sub (KS q) _ (keys_nodup_of_sorted d.entries hsort)
        (fun k hk => by
          obtain ⟨e, he, hee⟩ := List.mem_map.mp hk
          rw [← hee]
          exact hkeys e he) hKSq
    | node d =>
      rw [hcur] at hsg
      obtain ⟨hlv2, hsort, hentries⟩ := slotGood_node_inv hsg
      obtain ⟨lv2, rfl⟩ : ∃ m, lv = m + 2 := ⟨lv - 2, by omega⟩
      refine ⟨?_, ?_⟩
      · exact pairwiseNP_sub (KS q) _ (keys_nodup_of_sorted d.entries hsort)
          (fun k hk => by
            obtain ⟨e, he, hee⟩ := List.mem_map.mp hk
            rw [← hee]
            exact (hentries e he).1) hKSq
      · intro e he
        obtain ⟨hek, hed, hei⟩ := hentries e he
        refine ⟨hed, ?_⟩
        intro info hinfo
        obtain ⟨k1, k2, k3⟩ := hei info hinfo
        exact ih (lv2 + 1) (by omega) info.store_index q k1 k2 k3 hKSq

theorem root_goodNode {T : Type} (R nbRoots : Nat)
    (KS : List Nat → List (List Nat)) (PS : List (List Nat))
    (ω : Nat → List Nat × Nat) (store : List (MultiTrieNode T))
    (hinv : storeInv R nbRoots KS PS ω store)
    (hPS : pairwiseNP PS) (hKS : 2 ≤ R → ∀ q ∈ PS, pairwiseNP (KS q))
    (hR : 1 ≤ R) :
    ∀ i, i < nbRoots →
      goodNode store R (store.getD i MultiTrieNode.tombstone) := by
  intro i hi
  obtain ⟨hlen, hroots, hdeep⟩ := hinv
  have hrg := hroots i hi
  cases hcur : store.getD i MultiTrieNode.tombstone with
  | tombstone => rw [hcur] at hrg; exact hrg.elim
  | leaf d =>
    rw [hcur] at hrg
    obtain ⟨hR1, hsort, hkeys⟩ := hrg
    subst hR1
    exact pairwiseNP_sub PS _ (keys_nodup_of_sorted d.entries hsort)
      (fun k hk => by
        obtain ⟨e, he, hee⟩ := List.mem_map.mp hk
        rw [← hee]
        exact hkeys e he) hPS
  | node d =>
    rw [hcur] at hrg
    obtain ⟨hR2, hsort, hentries⟩ := hrg
    obtain ⟨R2, rfl⟩ : ∃ m, R = m + 2 := ⟨R - 2, by omega⟩
    refine ⟨?_, ?_⟩
    · exact pairwiseNP_sub PS _ (keys_nodup_of_sorted d.entries hsort)
        (fun k hk => by
          obtain ⟨e, he, hee⟩ := List.mem_map.mp hk
          rw [← hee]
          exact (hentries e he).1) hPS
    · intro e he
      obtain ⟨hek, hed, hei⟩ := hentries e he
      refine ⟨hed, ?_⟩
      intro info hinfo
      obtain ⟨k1, k2, k3⟩ := hei info hinfo
      exact slot_goodNode (R2 + 2) nbRoots KS PS ω store
        ⟨hlen, hroots, hdeep⟩ (R2 + 1) info.store_index e.1 k1 k2 k3
        (hKS (by omega) e.1 hek)

theorem iter_lookup_internal {T : Type} (t : MultiTrie T) :
    ∀ (lv : Nat) (nd : MultiTrieNode T) (fuel tix : Nat)
      (it : MLookupResult T),
      goodNode t.store lv nd →
      it ∈ MultiTrie.iter_from t.store fuel tix nd →
      it.path.length = lv ∧ (∃ k ps, it.path = (tix, k) :: ps) ∧
      MultiTrie.look_up_internal t nd it.path =
        Option.some ⟨it.value, it.path.reverse⟩ := by
  intro lv
  induction lv using Nat.strong_induction_on with
  | _ lv ih =>
    intro nd fuel tix it hgood hit
    cases fuel with
    | zero => cases hit
    | succ f =>
      cases nd with
      | tombstone => cases hit
      | leaf d =>
        cases lv with
        | zero => exact hgood.elim
        | succ lv1 =>
          cases lv1 with
          | succ lv2 => exact hgood.elim
          | zero =>
            obtain ⟨e, he, hee⟩ := List.mem_map.mp hit
            subst hee
            have hfilter : d.entries.filter (fun x => x.1.isPrefixOf e.1) =
                [e] := filter_keys_singleton d.entries e he hgood
            refine ⟨rfl, ⟨e.1, [], rfl⟩, ?_⟩
            rw [look_up_internal_leaf t d tix e.1 e hfilter]
            rfl
      | node d =>
        cases lv with
        | zero => exact hgood.elim
        | succ lv1 =>
          cases lv1 with
          | zero => exact hgood.elim
          | succ lv2 =>
            obtain ⟨hpnp, hch⟩ := hgood
            obtain ⟨e, he, hit2⟩ := List.mem_flatMap.mp hit
            obtain ⟨info, hinfo, hit3⟩ := List.mem_flatMap.mp hit2
            obtain ⟨r, hr, hre⟩ := List.mem_map.mp hit3
            subst hre
            obtain ⟨hed, hei⟩ := hch e he
            have hgoodc := hei info hinfo
            obtain ⟨hrl, ⟨k2, ps2, hrp⟩, hlook⟩ := ih (Nat.succ lv2)
              (by omega)
              (t.store.getD info.store_index MultiTrieNode.tombstone) f
              info.trie_index r hgoodc hr
            have hfilter : d.entries.filter (fun x => x.1.isPrefixOf e.1) =
                [e] := filter_keys_singleton d.entries e he hpnp
            have hne : r.path.isEmpty = false := by rw [hrp]; rfl
            have hhd : r.path.headD (0, []) = (info.trie_index, k2) := by
              rw [hrp]; rfl
            refine ⟨?_, ⟨e.1, r.path, rfl⟩, ?_⟩
            · show ((tix, e.1) :: r.path).length = lv2 + 1 + 1
              rw [List.length_cons, hrl]
            · show MultiTrie.look_up_internal t (MultiTrieNode.node d)
                ((tix, e.1) :: r.path) =
                Option.some ⟨r.value, ((tix, e.1) :: r.path).reverse⟩
              simp only [MultiTrie.look_up_internal, hne, Bool.false_eq_true,
                if_false, hhd, DigitTrie.look_up, hfilter, List.isEmpty_cons,
                List.findSome?_cons,
                find_store_index_distinct e.2 info hed hinfo, hlook,
                List.reverse_cons]

theorem combinationsAux_nil_of_lt :
    ∀ (xs : List Nat) (k : Nat), xs.length < k → combinationsAux xs k = [] := by
  intro xs
  induction xs with
  | nil =>
    intro k hk
    cases k with
    | zero => cases hk
    | succ k => rfl
  | cons x xs ih =>
    intro k hk
    cases k with
    | zero => cases hk
    | succ k =>
      simp only [combinationsAux]
      rw [ih k (by simpa using hk), ih (Nat.succ k) (by simp at hk; omega)]
      rfl

theorem combinationsAux_self :
    ∀ (xs : List Nat), combinationsAux xs xs.length = [xs] := by
  intro xs
  induction xs with
  | nil => rfl
  | cons x xs ih =>
    simp only [List.length_cons, combinationsAux, ih]
    rw [combinationsAux_nil_of_lt xs (xs.length + 1) (by omega)]
    rfl

theorem combinationsList_self (R : Nat) :
    combinationsList R R = [List.range R] := by
  unfold combinationsList
  have h := combinationsAux_self (List.range R)
  rwa [List.length_range] at h

theorem filter_contains_range (n : Nat) :
    (List.range n).filter (fun i => (List.range n).contains i) =
      List.range n := by
  apply List.filter_eq_self.mpr
  intro a ha
  exact contains_of_mem _ a ha

theorem iterate_lookup_of_good {T : Type} (t : MultiTrie T) (R : Nat)
    (hReq : t.nb_required = R) (hR : 1 ≤ R)
    (hgood : ∀ i, i < t.nb_tries - R + 1 →
      goodNode t.store R (t.store.getD i MultiTrieNode.tombstone)) :
    ∀ it ∈ t.iterate, (t.look_up it.path).map (fun r => r.value) =
      Option.some it.value := by
  intro it hit
  unfold MultiTrie.iterate at hit
  obtain ⟨i, hiR, hit2⟩ := List.mem_flatMap.mp hit
  rw [List.mem_range, hReq] at hiR
  obtain ⟨hlen2, ⟨k0, ps0, hpath⟩, hlook⟩ := iter_lookup_internal t R
    (t.store.getD i MultiTrieNode.tombstone) t.store.length i it
    (hgood i hiR) hit2
  have hhd0 : (List.range R).headD 0 = 0 := by
    obtain ⟨m, rfl⟩ : ∃ m, R = m + 1 := ⟨R - 1, by omega⟩
    rw [List.range_succ_eq_map]
    rfl
  have hfi : (it.path.getD 0 (0, [])).1 = i := by rw [hpath]; rfl
  have hsel := map_getD_range it.path ((0 : Nat), ([] : List Nat))
  rw [hlen2] at hsel
  unfold MultiTrie.look_up
  rw [hlen2, hReq, if_neg (Nat.lt_irrefl R), combinationsList_self]
  simp only [List.findSome?_cons, hhd0, hfi, filter_contains_range, hsel,
    hlook]
  rw [if_neg (by omega)]
  simp [List.reverse_reverse]

theorem natToDigits2_length (L v : Nat) : (natToDigits2 L v).length = L := by
  unfold natToDigits2
  rw [List.length_map, List.length_range]

theorem natToDigits2_lt_two (L v : Nat) :
    ∀ d ∈ natToDigits2 L v, d < 2 := by
  intro d hd
  unfold natToDigits2 at hd
  obtain ⟨i, _, he⟩ := List.mem_map.mp hd
  rw [← he]
  exact Nat.mod_lt _ (by norm_num)

theorem natToDigits2_cons (L v : Nat) :
    natToDigits2 (L + 1) v = v / 2 ^ L % 2 :: natToDigits2 L v := by
  unfold natToDigits2
  rw [List.range_succ_eq_map, List.map_cons, List.map_map]
  congr 1
  apply List.map_congr_left
  intro i hi
  show v / 2 ^ (L + 1 - 1 - (i + 1)) % 2 = v / 2 ^ (L - 1 - i) % 2
  have he : L + 1 - 1 - (i + 1) = L - 1 - i := by omega
  rw [he]

theorem foldl_digits :
    ∀ (ds : List Nat) (acc : Nat),
      ds.foldl (fun a x => 2 * a + x) acc =
        acc * 2 ^ ds.length + ds.foldl (fun a x => 2 * a + x) 0 := by
  intro ds
  induction ds with
  | nil => intro acc; simp
  | cons d ds ih =>
    intro acc
    rw [List.foldl_cons, List.foldl_cons, ih (2 * acc + d), ih (2 * 0 + d),
      List.length_cons]
    ring

theorem pathValue2_cons (d : Nat) (ds : List Nat) :
    pathValue2 (d :: ds) = d * 2 ^ ds.length + pathValue2 ds := by
  unfold pathValue2
  simp only [List.foldl_cons]
  rw [foldl_digits ds (2 * 0 + d)]
  ring_nf

theorem pathValue2_bound :
    ∀ (ds : List Nat), (∀ x ∈ ds, x < 2) → pathValue2 ds < 2 ^ ds.length := by
  intro ds
  induction ds with
  | nil => intro _; norm_num [pathValue2]
  | cons d ds ih =>
    intro h2
    have hd : d < 2 := h2 d (List.mem_cons_self _ _)
    have hih := ih (fun x hx => h2 x (List.mem_cons_of_mem _ hx))
    rw [pathValue2_cons, List.length_cons]
    have h1 : d * 2 ^ ds.length ≤ 2 ^ ds.length := by
      calc d * 2 ^ ds.length ≤ 1 * 2 ^ ds.length :=
            Nat.mul_le_mul_right _ (by omega)
        _ = 2 ^ ds.length := by ring
    have hp : 2 ^ (ds.length + 1) = 2 ^ ds.length + 2 ^ ds.length := by ring
    omega

theorem pathValue2_natToDigits2 (L v : Nat) :
    pathValue2 (natToDigits2 L v) = v % 2 ^ L := by
  induction L with
  | zero =>
    simp only [natToDigits2, List.range_zero, List.map_nil, pathValue2,
      List.foldl_nil, pow_zero, Nat.mod_one]
  | succ L ih =>
    rw [natToDigits2_cons, pathValue2_cons, natToDigits2_length, ih,
      pow_succ, Nat.mod_mul]
    ring

theorem isPrefixOf_append :
    ∀ (x y : List Nat), x.isPrefixOf y = true ↔ ∃ z, y = x ++ z := by
  intro x
  induction x with
  | nil =>
    intro y
    exact ⟨fun _ => ⟨y, rfl⟩, fun _ => by cases y <;> rfl⟩
  | cons a as ih =>
    intro y
    cases y with
    | nil =>
      constructor
      · intro h
        exact absurd h (by simp [List.isPrefixOf])
      · rintro ⟨z, hz⟩
        exact absurd hz (by simp)
    | cons b bs =>
      simp only [List.isPrefixOf, Bool.and_eq_true, beq_iff_eq]
      constructor
      · rintro ⟨hab, h2⟩
        obtain ⟨z, hz⟩ := (ih bs).mp h2
        exact ⟨z, by rw [hab, hz]; rfl⟩
      · rintro ⟨z, hz⟩
        injection hz with h1 h2
        exact ⟨h1.symm, (ih bs).mpr ⟨z, h2⟩⟩

theorem isPrefixOf_val (x y : List Nat) (hy2 : ∀ d ∈ y, d < 2)
    (h : x.isPrefixOf y = true) :
    x.length ≤ y.length ∧
    pathValue2 x * 2 ^ (y.length - x.length) ≤ pathValue2 y ∧
    pathValue2 y < (pathValue2 x + 1) * 2 ^ (y.length - x.length) := by
  obtain ⟨z, rfl⟩ := (isPrefixOf_append x y).mp h
  have hlen : (x ++ z).length - x.length = z.length := by
    rw [List.length_append]
    omega
  have happ : pathValue2 (x ++ z) =
      pathValue2 x * 2 ^ z.length + pathValue2 z := by
    unfold pathValue2
    rw [List.foldl_append]
    exact foldl_digits z (List.foldl (fun acc d => 2 * acc + d) 0 x)
  have hzb : pathValue2 z < 2 ^ z.length :=
    pathValue2_bound z (fun d hd => hy2 d (List.mem_append_right x hd))
  refine ⟨by rw [List.length_append]; omega, ?_, ?_⟩
  · rw [happ, hlen]
    omega
  · rw [happ, hlen, Nat.succ_mul]
    omega

theorem prefix_range_sub (x y : List Nat) (nbD : Nat)
    (hy2 : ∀ d ∈ y, d < 2) (hyl : y.length ≤ nbD)
    (h : x.isPrefixOf y = true) :
    pathValue2 x * 2 ^ (nbD - x.length) ≤
      pathValue2 y * 2 ^ (nbD - y.length) ∧
    pathValue2 y * 2 ^ (nbD - y.length) + 2 ^ (nbD - y.length) ≤
      pathValue2 x * 2 ^ (nbD - x.length) + 2 ^ (nbD - x.length) := by
  obtain ⟨hl, hm1, hm2⟩ := isPrefixOf_val x y hy2 h
  have hexp : 2 ^ (y.length - x.length) * 2 ^ (nbD - y.length) =
      2 ^ (nbD - x.length) := by
    rw [← pow_add]
    congr 1
    omega
  constructor
  · calc pathValue2 x * 2 ^ (nbD - x.length)
        = pathValue2 x * 2 ^ (y.length - x.length) * 2 ^ (nbD - y.length) := by
          rw [mul_assoc, hexp]
      _ ≤ pathValue2 y * 2 ^ (nbD - y.length) :=
          Nat.mul_le_mul_right _ hm1
  · have h3 : (pathValue2 y + 1) * 2 ^ (nbD - y.length) ≤
        (pathValue2 x + 1) *
          (2 ^ (y.length - x.length) * 2 ^ (nbD - y.length)) := by
      rw [← mul_assoc]
      exact Nat.mul_le_mul_right _ (Nat.succ_le_of_lt hm2)
    rw [hexp, Nat.succ_mul, Nat.succ_mul] at h3
    omega

theorem np_of_disjoint (x y : List Nat) (nbD : Nat)
    (hx2 : ∀ d ∈ x, d < 2) (hy2 : ∀ d ∈ y, d < 2)
    (hxl : x.length ≤ nbD) (hyl : y.length ≤ nbD)
    (hdis : pathValue2 x * 2 ^ (nbD - x.length) + 2 ^ (nbD - x.length) ≤
        pathValue2 y * 2 ^ (nbD - y.length) ∨
      pathValue2 y * 2 ^ (nbD - y.length) + 2 ^ (nbD - y.length) ≤
        pathValue2 x * 2 ^ (nbD - x.length)) :
    x.isPrefixOf y = false ∧ y.isPrefixOf x = false := by
  have hWx : 1 ≤ 2 ^ (nbD - x.length) := Nat.one_le_two_pow
  have hWy : 1 ≤ 2 ^ (nbD - y.length) := Nat.one_le_two_pow
  constructor
  · by_contra hx
    rw [Bool.not_eq_false] at hx
    obtain ⟨g1, g2⟩ := prefix_range_sub x y nbD hy2 hyl hx
    rcases hdis with h | h
    · omega
    · omega
  · by_contra hy
    rw [Bool.not_eq_false] at hy
    obtain ⟨g1, g2⟩ := prefix_range_sub y x nbD hx2 hxl hy
    rcases hdis with h | h
    · omega
    · omega

theorem nTD_pairNP (nbD Lx Ly vx vy : Nat) (hLx : Lx ≤ nbD) (hLy : Ly ≤ nbD)
    (hdis : vx % 2 ^ Lx * 2 ^ (nbD - Lx) + 2 ^ (nbD - Lx) ≤
        vy % 2 ^ Ly * 2 ^ (nbD - Ly) ∨
      vy % 2 ^ Ly * 2 ^ (nbD - Ly) + 2 ^ (nbD - Ly) ≤
        vx % 2 ^ Lx * 2 ^ (nbD - Lx)) :
    (natToDigits2 Lx vx).isPrefixOf (natToDigits2 Ly vy) = false ∧
    (natToDigits2 Ly vy).isPrefixOf (natToDigits2 Lx vx) = false := by
  apply np_of_disjoint _ _ nbD (natToDigits2_lt_two Lx vx)
    (natToDigits2_lt_two Ly vy)
    (by rw [natToDigits2_length]; exact hLx)
    (by rw [natToDigits2_length]; exact hLy)
  rw [pathValue2_natToDigits2, pathValue2_natToDigits2,
    natToDigits2_length, natToDigits2_length]
  exact hdis

theorem pow2_pos (n : Nat) : 0 < 2 ^ n := Nat.pos_pow_of_pos n (by norm_num)

theorem pairML (nbD maxE minS a : Nat) (hme : minS ≤ maxE) (hmd : maxE < nbD)
    (ha : 1 ≤ a) :
    a % 2 ^ (nbD - maxE) * 2 ^ maxE + 2 ^ maxE ≤
      (2 ^ maxE * a - 2 ^ minS) / 2 ^ minS % 2 ^ (nbD - minS) * 2 ^ minS ∨
    (2 ^ maxE * a - 2 ^ minS) / 2 ^ minS % 2 ^ (nbD - minS) * 2 ^ minS +
      2 ^ minS ≤ a % 2 ^ (nbD - maxE) * 2 ^ maxE := by
  have herr : (2:Nat) ^ maxE = 2 ^ minS * 2 ^ (maxE - minS) := by
    rw [← pow_add]
    congr 1
    omega
  have h2L2 : (2:Nat) ^ (nbD - minS) =
      2 ^ (nbD - maxE) * 2 ^ (maxE - minS) := by
    rw [← pow_add]
    congr 1
    omega
  have hspos : 0 < (2:Nat) ^ minS := pow2_pos minS
  have hdpos : 0 < (2:Nat) ^ (maxE - minS) := pow2_pos (maxE - minS)
  have hXpos : 0 < a * 2 ^ (maxE - minS) := Nat.mul_pos ha hdpos
  have hnum : 2 ^ maxE * a - 2 ^ minS =
      2 ^ minS * (a * 2 ^ (maxE - minS) - 1) := by
    have hcomm : 2 ^ maxE * a = 2 ^ minS * (a * 2 ^ (maxE - minS)) := by
      rw [herr]
      ring
    obtain ⟨X2, hX2⟩ : ∃ m, a * 2 ^ (maxE - minS) = m + 1 :=
      ⟨a * 2 ^ (maxE - minS) - 1, by omega⟩
    rw [hcomm, hX2, Nat.add_sub_cancel, Nat.mul_add, Nat.mul_one]
    omega
  have hD : (2 ^ maxE * a - 2 ^ minS) / 2 ^ minS =
      a * 2 ^ (maxE - minS) - 1 := by
    rw [hnum, Nat.mul_div_cancel_left _ hspos]
  rw [hD]
  have hra : 2 ^ (nbD - maxE) * (a / 2 ^ (nbD - maxE)) +
      a % 2 ^ (nbD - maxE) = a := Nat.div_add_mod a (2 ^ (nbD - maxE))
  have hrlt : a % 2 ^ (nbD - maxE) < 2 ^ (nbD - maxE) :=
    Nat.mod_lt _ (pow2_pos _)
  have hdecomp : a * 2 ^ (maxE - minS) =
      2 ^ (nbD - minS) * (a / 2 ^ (nbD - maxE)) +
        a % 2 ^ (nbD - maxE) * 2 ^ (maxE - minS) := by
    calc a * 2 ^ (maxE - minS)
        = (2 ^ (nbD - maxE) * (a / 2 ^ (nbD - maxE)) +
            a % 2 ^ (nbD - maxE)) * 2 ^ (maxE - minS) := by rw [hra]
      _ = 2 ^ (nbD - minS) * (a / 2 ^ (nbD - maxE)) +
            a % 2 ^ (nbD - maxE) * 2 ^ (maxE - minS) := by
          rw [h2L2]
          ring
  by_cases hr1 : 1 ≤ a % 2 ^ (nbD - maxE)
  · right
    have hBpos : 1 ≤ a % 2 ^ (nbD - maxE) * 2 ^ (maxE - minS) :=
      Nat.mul_pos hr1 hdpos
    have hmod : (a * 2 ^ (maxE - minS) - 1) % 2 ^ (nbD - minS) =
        a % 2 ^ (nbD - maxE) * 2 ^ (maxE - minS) - 1 := by
      have h1 : a * 2 ^ (maxE - minS) - 1 =
          2 ^ (nbD - minS) * (a / 2 ^ (nbD - maxE)) +
            (a % 2 ^ (nbD - maxE) * 2 ^ (maxE - minS) - 1) := by
        omega
      rw [h1, Nat.mul_add_mod]
      apply Nat.mod_eq_of_lt
      have hb : a % 2 ^ (nbD - maxE) * 2 ^ (maxE - minS) <
          2 ^ (nbD - minS) := by
        rw [h2L2]
        exact mul_lt_mul_of_pos_right hrlt hdpos
      omega
    rw [hmod]
    obtain ⟨B2, hB2⟩ : ∃ m, a % 2 ^ (nbD - maxE) * 2 ^ (maxE - minS) = m + 1 :=
      ⟨a % 2 ^ (nbD - maxE) * 2 ^ (maxE - minS) - 1, by omega⟩
    have hmain : a % 2 ^ (nbD - maxE) * 2 ^ maxE =
        a % 2 ^ (nbD - maxE) * 2 ^ (maxE - minS) * 2 ^ minS := by
      rw [herr]
      ring
    rw [hmain, hB2, Nat.add_sub_cancel, Nat.add_mul, Nat.one_mul]
  · left
    have hr0 : a % 2 ^ (nbD - maxE) = 0 := by omega
    have hq1 : 1 ≤ a / 2 ^ (nbD - maxE) := by
      rcases Nat.eq_zero_or_pos (a / 2 ^ (nbD - maxE)) with h0 | h1
      · rw [h0, hr0, Nat.mul_zero, Nat.add_zero] at hra
        omega
      · exact h1
    have hL2pos : 1 ≤ (2:Nat) ^ (nbD - minS) := Nat.one_le_two_pow
    have hmod : (a * 2 ^ (maxE - minS) - 1) % 2 ^ (nbD - minS) =
        2 ^ (nbD - minS) - 1 := by
      have h2 : a * 2 ^ (maxE - minS) =
          2 ^ (nbD - minS) * (a / 2 ^ (nbD - maxE)) := by
        rw [hdecomp, hr0]
        ring
      obtain ⟨q2, hq2⟩ : ∃ m, a / 2 ^ (nbD - maxE) = m + 1 :=
        ⟨a / 2 ^ (nbD - maxE) - 1, by omega⟩
      have h1 : a * 2 ^ (maxE - minS) - 1 =
          2 ^ (nbD - minS) * q2 + (2 ^ (nbD - minS) - 1) := by
        rw [h2, hq2, Nat.mul_add, Nat.mul_one]
        omega
      rw [h1, Nat.mul_add_mod]
      exact Nat.mod_eq_of_lt (by omega)
    rw [hmod, hr0, Nat.zero_mul, Nat.zero_add]
    have hnbd : (2:Nat) ^ (nbD - minS) * 2 ^ minS = 2 ^ nbD := by
      rw [← pow_add]
      congr 1
      omega
    have hsle : (2:Nat) ^ minS ≤ 2 ^ maxE := Nat.pow_le_pow_right (by norm_num) hme
    have herrle : (2:Nat) ^ maxE + 2 ^ maxE ≤ 2 ^ nbD := by
      have h3 : (2:Nat) ^ (maxE + 1) ≤ 2 ^ nbD :=
        Nat.pow_le_pow_right (by norm_num) (by omega)
      rw [pow_succ] at h3
      omega
    have hexp : (2 ^ (nbD - minS) - 1) * 2 ^ minS =
        2 ^ (nbD - minS) * 2 ^ minS - 2 ^ minS := by
      obtain ⟨m, hm⟩ : ∃ m, (2:Nat) ^ (nbD - minS) = m + 1 :=
        ⟨2 ^ (nbD - minS) - 1, by omega⟩
      rw [hm, Nat.add_sub_cancel, Nat.add_mul, Nat.one_mul]
      omega
    rw [hexp, hnbd]
    omega

theorem pairMR (nbD maxE minS a : Nat) (hme : minS ≤ maxE) (hmd : maxE < nbD)
    (hguard : 2 ^ maxE * a + 2 ^ maxE - 1 + 1 < 2 ^ nbD) :
    a % 2 ^ (nbD - maxE) * 2 ^ maxE + 2 ^ maxE ≤
      (2 ^ maxE * a + 2 ^ maxE - 1 + 1) / 2 ^ minS % 2 ^ (nbD - minS) *
        2 ^ minS ∨
    (2 ^ maxE * a + 2 ^ maxE - 1 + 1) / 2 ^ minS % 2 ^ (nbD - minS) *
        2 ^ minS + 2 ^ minS ≤ a % 2 ^ (nbD - maxE) * 2 ^ maxE := by
  have herr : (2:Nat) ^ maxE = 2 ^ minS * 2 ^ (maxE - minS) := by
    rw [← pow_add]
    congr 1
    omega
  have h2L2 : (2:Nat) ^ (nbD - minS) =
      2 ^ (nbD - maxE) * 2 ^ (maxE - minS) := by
    rw [← pow_add]
    congr 1
    omega
  have hspos : 0 < (2:Nat) ^ minS := pow2_pos minS
  have hepos : 1 ≤ (2:Nat) ^ maxE := Nat.one_le_two_pow
  have hsimp : 2 ^ maxE * a + 2 ^ maxE - 1 + 1 =
      2 ^ minS * ((a + 1) * 2 ^ (maxE - minS)) := by
    have h1 : 2 ^ maxE * a + 2 ^ maxE =
        2 ^ minS * ((a + 1) * 2 ^ (maxE - minS)) := by
      rw [herr]
      ring
    omega
  have hVR : (2 ^ maxE * a + 2 ^ maxE - 1 + 1) / 2 ^ minS =
      (a + 1) * 2 ^ (maxE - minS) := by
    rw [hsimp, Nat.mul_div_cancel_left _ hspos]
  have hnbd : (2:Nat) ^ nbD = 2 ^ minS * 2 ^ (nbD - minS) := by
    rw [← pow_add]
    congr 1
    omega
  have hlt1 : (a + 1) * 2 ^ (maxE - minS) < 2 ^ (nbD - minS) := by
    have h2 := hguard
    rw [hsimp, hnbd] at h2
    exact Nat.lt_of_mul_lt_mul_left h2
  have ha2 : a < 2 ^ (nbD - maxE) := by
    have h4 : (a + 1) * 2 ^ (maxE - minS) <
        2 ^ (nbD - maxE) * 2 ^ (maxE - minS) := by
      rw [← h2L2]
      exact hlt1
    have h5 := Nat.lt_of_mul_lt_mul_right h4
    omega
  rw [hVR, Nat.mod_eq_of_lt hlt1, Nat.mod_eq_of_lt ha2]
  left
  have heq : (a + 1) * 2 ^ (maxE - minS) * 2 ^ minS =
      a * 2 ^ maxE + 2 ^ maxE := by
    rw [herr]
    ring
  omega

theorem pairLR (nbD maxE minS a : Nat) (hme : minS ≤ maxE) (hmd : maxE < nbD)
    (ha : 1 ≤ a) (hguard : 2 ^ maxE * a + 2 ^ maxE - 1 + 1 < 2 ^ nbD) :
    (2 ^ maxE * a - 2 ^ minS) / 2 ^ minS % 2 ^ (nbD - minS) * 2 ^ minS +
        2 ^ minS ≤
      (2 ^ maxE * a + 2 ^ maxE - 1 + 1) / 2 ^ minS % 2 ^ (nbD - minS) *
        2 ^ minS ∨
    (2 ^ maxE * a + 2 ^ maxE - 1 + 1) / 2 ^ minS % 2 ^ (nbD - minS) *
        2 ^ minS + 2 ^ minS ≤
      (2 ^ maxE * a - 2 ^ minS) / 2 ^ minS % 2 ^ (nbD - minS) * 2 ^ minS := by
  have herr : (2:Nat) ^ maxE = 2 ^ minS * 2 ^ (maxE - minS) := by
    rw [← pow_add]
    congr 1
    omega
  have h2L2 : (2:Nat) ^ (nbD - minS) =
      2 ^ (nbD - maxE) * 2 ^ (maxE - minS) := by
    rw [← pow_add]
    congr 1
    omega
  have hspos : 0 < (2:Nat) ^ minS := pow2_pos minS
  have hdpos : 0 < (2:Nat) ^ (maxE - minS) := pow2_pos (maxE - minS)
  have hepos : 1 ≤ (2:Nat) ^ maxE := Nat.one_le_two_pow
  have hXpos : 0 < a * 2 ^ (maxE - minS) := Nat.mul_pos ha hdpos
  have hnum : 2 ^ maxE * a - 2 ^ minS =
      2 ^ minS * (a * 2 ^ (maxE - minS) - 1) := by
    have hcomm : 2 ^ maxE * a = 2 ^ minS * (a * 2 ^ (maxE - minS)) := by
      rw [herr]
      ring
    obtain ⟨X2, hX2⟩ : ∃ m, a * 2 ^ (maxE - minS) = m + 1 :=
      ⟨a * 2 ^ (maxE - minS) - 1, by omega⟩
    rw [hcomm, hX2, Nat.add_sub_cancel, Nat.mul_add, Nat.mul_one]
    omega
  have hD : (2 ^ maxE * a - 2 ^ minS) / 2 ^ minS =
      a * 2 ^ (maxE - minS) - 1 := by
    rw [hnum, Nat.mul_div_cancel_left _ hspos]
  have hsimp : 2 ^ maxE * a + 2 ^ maxE - 1 + 1 =
      2 ^ minS * ((a + 1) * 2 ^ (maxE - minS)) := by
    have h1 : 2 ^ maxE * a + 2 ^ maxE =
        2 ^ minS * ((a + 1) * 2 ^ (maxE - minS)) := by
      rw [herr]
      ring
    omega
  have hVR : (2 ^ maxE * a + 2 ^ maxE - 1 + 1) / 2 ^ minS =
      (a + 1) * 2 ^ (maxE - minS) := by
    rw [hsimp, Nat.mul_div_cancel_left _ hspos]
  have hnbd : (2:Nat) ^ nbD = 2 ^ minS * 2 ^ (nbD - minS) := by
    rw [← pow_add]
    congr 1
    omega
  have hlt1 : (a + 1) * 2 ^ (maxE - minS) < 2 ^ (nbD - minS) := by
    have h2 := hguard
    rw [hsimp, hnbd] at h2
    exact Nat.lt_of_mul_lt_mul_left h2
  have hltD : a * 2 ^ (maxE - minS) - 1 < 2 ^ (nbD - minS) := by
    have h6 : a * 2 ^ (maxE - minS) ≤ (a + 1) * 2 ^ (maxE - minS) :=
      Nat.mul_le_mul_right _ (by omega)
    omega
  rw [hD, hVR, Nat.mod_eq_of_lt hlt1, Nat.mod_eq_of_lt hltD]
  left
  have hmono : a * 2 ^ (maxE - minS) * 2 ^ minS ≤
      (a + 1) * 2 ^ (maxE - minS) * 2 ^ minS :=
    Nat.mul_le_mul_right _ (Nat.mul_le_mul_right _ (by omega))
  obtain ⟨B2, hB2⟩ : ∃ m, a * 2 ^ (maxE - minS) = m + 1 :=
    ⟨a * 2 ^ (maxE - minS) - 1, by omega⟩
  rw [hB2, Nat.add_sub_cancel]
  rw [hB2] at hmono
  have hexp1 : (B2 + 1) * 2 ^ minS = B2 * 2 ^ minS + 2 ^ minS := by
    ring
  rw [hexp1] at hmono
  omega

theorem optList_pairwiseNP_gen (nbD maxE minS lft rgt : Nat)
    (hme : minS ≤ maxE) (hmd : maxE < nbD) :
    pairwiseNP (
      natToDigits2 (nbD - maxE) (lft / 2 ^ maxE) ::
      ((if 0 < 2 ^ maxE * (lft / 2 ^ maxE) ∧
            lft - 2 ^ maxE * (lft / 2 ^ maxE) < 2 ^ minS then
          [natToDigits2 (nbD - minS)
            ((2 ^ maxE * (lft / 2 ^ maxE) - 2 ^ minS) / 2 ^ minS)]
        else []) ++
       (if 2 ^ maxE * (lft / 2 ^ maxE) + 2 ^ maxE - 1 + 1 < 2 ^ nbD ∧
            2 ^ maxE * (lft / 2 ^ maxE) + 2 ^ maxE - 1 < rgt + 2 ^ minS then
          [natToDigits2 (nbD - minS)
            ((2 ^ maxE * (lft / 2 ^ maxE) + 2 ^ maxE - 1 + 1) / 2 ^ minS)]
        else []))) := by
  set a := lft / 2 ^ maxE with hadef
  unfold pairwiseNP
  have hL1 : nbD - maxE ≤ nbD := by omega
  have hL2 : nbD - minS ≤ nbD := by omega
  have e1 : nbD - (nbD - maxE) = maxE := by omega
  have e2 : nbD - (nbD - minS) = minS := by omega
  by_cases hLg : 0 < 2 ^ maxE * a ∧ lft - 2 ^ maxE * a < 2 ^ minS
  · have ha : 1 ≤ a := by
      rcases Nat.eq_zero_or_pos a with h0 | h1
      · rw [h0, Nat.mul_zero] at hLg
        exact absurd hLg.1 (by omega)
      · exact h1
    have hml := nTD_pairNP nbD (nbD - maxE) (nbD - minS) a
      ((2 ^ maxE * a - 2 ^ minS) / 2 ^ minS) hL1 hL2
      (by rw [e1, e2]; exact pairML nbD maxE minS a hme hmd ha)
    rw [if_pos hLg]
    by_cases hRg : 2 ^ maxE * a + 2 ^ maxE - 1 + 1 < 2 ^ nbD ∧
        2 ^ maxE * a + 2 ^ maxE - 1 < rgt + 2 ^ minS
    · have hmr := nTD_pairNP nbD (nbD - maxE) (nbD - minS) a
        ((2 ^ maxE * a + 2 ^ maxE - 1 + 1) / 2 ^ minS) hL1 hL2
        (by rw [e1, e2]; exact pairMR nbD maxE minS a hme hmd hRg.1)
      have hlr := nTD_pairNP nbD (nbD - minS) (nbD - minS)
        ((2 ^ maxE * a - 2 ^ minS) / 2 ^ minS)
        ((2 ^ maxE * a + 2 ^ maxE - 1 + 1) / 2 ^ minS) hL2 hL2
        (by rw [e2]; exact pairLR nbD maxE minS a hme hmd ha hRg.1)
      rw [if_pos hRg]
      simp only [List.singleton_append, List.pairwise_cons, List.mem_cons,
        List.mem_singleton, List.not_mem_nil,
        forall_eq_or_imp, forall_eq, false_implies, implies_true, and_true]
      exact ⟨⟨hml, hmr⟩, hlr, trivial, List.Pairwise.nil⟩
    · rw [if_neg hRg]
      simp only [List.append_nil, List.pairwise_cons, List.mem_singleton,
        List.not_mem_nil, forall_eq, false_implies,
        implies_true, and_true]
      exact ⟨hml, trivial, List.Pairwise.nil⟩
  · rw [if_neg hLg]
    by_cases hRg : 2 ^ maxE * a + 2 ^ maxE - 1 + 1 < 2 ^ nbD ∧
        2 ^ maxE * a + 2 ^ maxE - 1 < rgt + 2 ^ minS
    · have hmr := nTD_pairNP nbD (nbD - maxE) (nbD - minS) a
        ((2 ^ maxE * a + 2 ^ maxE - 1 + 1) / 2 ^ minS) hL1 hL2
        (by rw [e1, e2]; exact pairMR nbD maxE minS a hme hmd hRg.1)
      rw [if_pos hRg]
      simp only [List.nil_append, List.pairwise_cons, List.mem_singleton,
        List.not_mem_nil, forall_eq, false_implies,
        implies_true, and_true]
      exact ⟨hmr, trivial, List.Pairwise.nil⟩
    · rw [if_neg hRg]
      simp only [List.nil_append, List.append_nil, List.pairwise_cons,
        List.not_mem_nil, false_implies, implies_true,
        and_true]
      exact ⟨trivial, List.Pairwise.nil⟩

theorem optList_pairwiseNP (nbD : Nat) (p : List Nat) (maxE minS : Nat)
    (hme : minS ≤ maxE) (hmd : maxE < nbD) :
    pairwiseNP (optList nbD p maxE minS) :=
  optList_pairwiseNP_gen nbD maxE minS
    (pathValue2 p * 2 ^ (nbD - p.length))
    (pathValue2 p * 2 ^ (nbD - p.length) + 2 ^ (nbD - p.length) - 1) hme hmd

/-- C2: the claim as stated — for every `MultiTrie` built by `new` and
populated by any sequence of successful `insert` calls, every
`(value, path)` pair yielded by the iterator satisfies
`look_up path = Some` of that value — fails when stored primary paths are
prefix-related (see the counterexample). This theorem proves the amended
property in full generality over the threshold and the insertion
callbacks: for every trie built by `new` with threshold
`nb_required = R ≥ 1` (with the tolerance-window parameter sanity
`min_support_exp ≤ max_error_exp < nb_digits` required only when
`R ≥ 2`), populated by any successful sequence of `insert` calls with
arbitrary callbacks whose primary paths are pairwise non-prefix-related,
every `(value, path)` pair produced by the iterator satisfies
`look_up path = Some` of that value. -/
theorem iterate_lookup_non_prefix {T : Type}
    (nbT R base minS maxE nbD : Nat) (mc : Bool)
    (inserts : List (List Nat ×
      (List (List Nat) → List Nat → Except DlcError T)))
    (t : MultiTrie T) (hR : 1 ≤ R)
    (hparams : 2 ≤ R → minS ≤ maxE ∧ maxE < nbD)
    (hpw : pairwiseNP (inserts.map (fun pr => pr.1)))
    (hpop : (MultiTrie.new T nbT R base minS maxE nbD mc).insertAllWith
      inserts = Except.ok t) :
    ∀ it ∈ t.iterate,
      (t.look_up it.path).map (fun r => r.value) = Option.some it.value := by
  obtain ⟨⟨ω2, hinv⟩, hreq, htries⟩ :=
    insertAllWith_good nbT R base minS maxE nbD mc inserts t hR hpop
  have hgood := root_goodNode R (nbT - R + 1)
    (fun q => optList nbD q maxE minS) (inserts.map (fun pr => pr.1)) ω2
    t.store hinv hpw
    (fun h2 q _ =>
      optList_pairwiseNP nbD q maxE minS (hparams h2).1 (hparams h2).2)
    hR
  exact iterate_lookup_of_good t R hreq hR
    (fun i hi => hgood i (by rw [htries] at hi; exact hi))

theorem iterate_lookup_non_prefix_witness :
    1 ≤ 2 ∧
    (2 ≤ 2 → 2 ≤ 3 ∧ 3 < 5) ∧
    pairwiseNP ((([([0, 1, 1, 1],
      fun _ _ => Except.ok 7)]) : List (List Nat ×
        (List (List Nat) → List Nat → Except DlcError Nat))).map
      (fun pr => pr.1)) ∧
    (MultiTrie.new Nat 2 2 2 2 3 5 true).insertAllWith
      [([0, 1, 1, 1], fun _ _ => Except.ok 7)] = Except.ok mtPair ∧
    (∀ it ∈ mtPair.iterate,
      (mtPair.look_up it.path).map (fun r => r.value) =
        Option.some it.value) :=
  ⟨by decide, by decide,
    by
      unfold pairwiseNP
      exact List.Pairwise.cons (fun b hb => absurd hb (List.not_mem_nil b))
        List.Pairwise.nil,
    by rfl,
    iterate_lookup_non_prefix 2 2 2 2 3 5 true
      [([0, 1, 1, 1], fun _ _ => Except.ok 7)] mtPair (by decide)
      (fun _ => ⟨by decide, by decide⟩)
      (by
        unfold pairwiseNP
        exact List.Pairwise.cons
          (fun b hb => absurd hb (List.not_mem_nil b)) List.Pairwise.nil)
      (by rfl)⟩
